import Mathlib

/-!
Verification of the PII anonymization pipeline (detection, resolution,
tagging, validation, vault) against its natural-language specification.

The embedding below translates the TypeScript sources into Lean:
texts are `List Char` (JS strings), JS `Map` objects are insertion-ordered
association lists, numbers are `Nat`/`Int`/`ℚ`, and the regular expressions
of the source are either translated into a small executable backtracking
matcher (faithful to JS leftmost/greedy/`exec`-loop semantics) or, for the
rigid PII-tag patterns, into equivalent deterministic parsers.
-/

set_option maxRecDepth 20000

/-- Characters of a string literal, used to write `List Char` constants. -/
def strL (s : String) : List Char := s.data

/-- The closed PII category enumeration (src/types/pii-types.ts, `PIIType`). -/
inductive PIIType where
  | PERSON | ORG | LOCATION | ADDRESS
  | EMAIL | PHONE | URL | IP_ADDRESS
  | IBAN | BIC_SWIFT | ACCOUNT_NUMBER | CREDIT_CARD
  | TAX_ID | NATIONAL_ID | DATE_OF_BIRTH
  | CASE_ID | CUSTOMER_ID
deriving DecidableEq, Repr

/-- The string value of each `PIIType` enum member. -/
def typeName : PIIType → List Char
  | .PERSON => strL "PERSON"
  | .ORG => strL "ORG"
  | .LOCATION => strL "LOCATION"
  | .ADDRESS => strL "ADDRESS"
  | .EMAIL => strL "EMAIL"
  | .PHONE => strL "PHONE"
  | .URL => strL "URL"
  | .IP_ADDRESS => strL "IP_ADDRESS"
  | .IBAN => strL "IBAN"
  | .BIC_SWIFT => strL "BIC_SWIFT"
  | .ACCOUNT_NUMBER => strL "ACCOUNT_NUMBER"
  | .CREDIT_CARD => strL "CREDIT_CARD"
  | .TAX_ID => strL "TAX_ID"
  | .NATIONAL_ID => strL "NATIONAL_ID"
  | .DATE_OF_BIRTH => strL "DATE_OF_BIRTH"
  | .CASE_ID => strL "CASE_ID"
  | .CUSTOMER_ID => strL "CUSTOMER_ID"

/-- `ALL_PII_TYPES` (`Object.values(PIIType)`), in declaration order. -/
def ALL_PII_TYPES : List PIIType :=
  [.PERSON, .ORG, .LOCATION, .ADDRESS, .EMAIL, .PHONE, .URL, .IP_ADDRESS,
   .IBAN, .BIC_SWIFT, .ACCOUNT_NUMBER, .CREDIT_CARD, .TAX_ID, .NATIONAL_ID,
   .DATE_OF_BIRTH, .CASE_ID, .CUSTOMER_ID]

/-- `Object.values(PIIType).includes(s)` together with the string-to-enum cast:
returns the enum member whose string value is `s`, if any. -/
def strToPIIType (s : List Char) : Option PIIType :=
  ALL_PII_TYPES.find? (fun t => decide (typeName t = s))

/-- Detection source enumeration (src/types/index.ts, `DetectionSource`). -/
inductive DetectionSource where
  | REGEX | NER | HYBRID
deriving DecidableEq, Repr

/-- A span match from a recognizer, before ID assignment
(src/types/index.ts, `SpanMatch`).  The source field `end` is a Lean
keyword and is called `stop` here. -/
structure SpanMatch where
  type : PIIType
  start : Nat
  stop : Nat
  confidence : ℚ
  source : DetectionSource
  text : List Char
deriving DecidableEq, Repr

/-- A detected PII entity with its assigned ID (src/types/index.ts,
`DetectedEntity`).  The source field `end` is called `stop` here. -/
structure DetectedEntity where
  type : PIIType
  id : Nat
  start : Nat
  stop : Nat
  confidence : ℚ
  source : DetectionSource
  original : List Char
deriving DecidableEq, Repr

/-- The anonymization policy (src/types/index.ts, `AnonymizationPolicy`).
`Set.has` is a Boolean membership function and `Map.get` an optional lookup.
`customIdPatterns`, `allowlistTerms`, `denylistPatterns` and `typePriority`
are not consulted by any of the operations embedded here and are omitted. -/
structure AnonymizationPolicy where
  enabledTypes : PIIType → Bool
  regexEnabledTypes : PIIType → Bool
  nerEnabledTypes : PIIType → Bool
  confidenceThresholds : PIIType → Option ℚ
  reuseIdsForRepeatedPII : Bool
  enableLeakScan : Bool

/-- Decimal rendering worker; the fuel argument (any bound above the
number) only forces structural recursion. -/
def natDigitsAux : Nat → Nat → List Char
  | 0, _ => []
  | fuel + 1, n =>
    if n < 10 then [Char.ofNat (48 + n)]
    else natDigitsAux fuel (n / 10) ++ [Char.ofNat (48 + n % 10)]

/-- JS number-to-string conversion for a natural number (template literal
interpolation such as the tag id). -/
def jsNatToString (n : Nat) : List Char := natDigitsAux (n + 1) n

/-- Decimal digit test (`\d` / `[0-9]`). -/
def isDigitChar (c : Char) : Bool := decide ('0' ≤ c) && decide (c ≤ '9')

/-- Value of a string of decimal digits; models `parseInt(s, 10)` on the
all-digit strings produced by the tag parsers. -/
def digitsVal (s : List Char) : Nat :=
  s.foldl (fun a c => a * 10 + (c.toNat - 48)) 0

/-- JS `Map.get`: first (and only, as keys are unique) entry for the key. -/
def mapGet {β : Type} (m : List (List Char × β)) (k : List Char) : Option β :=
  (m.find? (fun p => decide (p.1 = k))).map (fun p => p.2)

/-- JS `Map.set`: update the entry in place if the key is present
(insertion order is preserved), otherwise append a new entry. -/
def mapSet {β : Type} (m : List (List Char × β)) (k : List Char) (v : β) :
    List (List Char × β) :=
  if m.any (fun p => decide (p.1 = k)) then
    m.map (fun p => if p.1 = k then (k, v) else p)
  else m ++ [(k, v)]

/-- `spansOverlap` (src/utils/offsets.ts): half-open interval intersection. -/
def spansOverlap (a b : Nat × Nat) : Bool :=
  decide (a.1 < b.2) && decide (b.1 < a.2)

/-- `spanLength` (src/utils/offsets.ts). -/
def spanLength (s : Nat × Nat) : Nat := s.2 - s.1

/-- Stable insertion of `x` into `l`: `x` goes immediately before the first
element `y` with `le x y`. -/
def stableInsert {α : Type} (le : α → α → Bool) (x : α) : List α → List α
  | [] => [x]
  | y :: ys => if le x y then x :: y :: ys else y :: stableInsert le x ys

/-- JS `Array.prototype.sort` with a comparator `cb`, where
`le a b` means `cb(a, b) <= 0`.  JS sorts are stable, and a stable sort by
a total preorder is unique, so this structurally recursive insertion sort
is extensionally the JS sort. -/
def jsSortBy {α : Type} (le : α → α → Bool) : List α → List α
  | [] => []
  | x :: xs => stableInsert le x (jsSortBy le xs)

/-- The comparator of `sortSpansByPosition` as a Boolean "less or equal":
ascending start, ties broken by descending length.  `key` projects the
`(start, end)` pair out of the span-like record. -/
def spanPosLE {α : Type} (key : α → Nat × Nat) (a b : α) : Bool :=
  decide ((key a).1 < (key b).1) ||
    (decide ((key a).1 = (key b).1) &&
      decide (spanLength (key b) ≤ spanLength (key a)))

/-- `sortSpansByPosition` (src/utils/offsets.ts): stable sort by start
position ascending, then by span length descending. -/
def sortSpansByPosition {α : Type} (key : α → Nat × Nat) (spans : List α) :
    List α :=
  jsSortBy (spanPosLE key) spans

/-- A `SpanMatch` together with its assigned entity id
(`SpanMatch & { id: number }` in src/pipeline/tagger.ts). -/
structure TaggedSpan where
  type : PIIType
  start : Nat
  stop : Nat
  confidence : ℚ
  source : DetectionSource
  text : List Char
  id : Nat
deriving DecidableEq, Repr

/-- Spread `{ ...match, id }` of the tagger. -/
def withId (m : SpanMatch) (id : Nat) : TaggedSpan :=
  ⟨m.type, m.start, m.stop, m.confidence, m.source, m.text, id⟩

/-- `generateTag` (src/pipeline/tagger.ts): the canonical placeholder tag
`<PII type="TYPE" id="N"/>`. -/
def generateTag (t : PIIType) (id : Nat) : List Char :=
  strL "<PII type=\"" ++ typeName t ++ strL "\" id=\"" ++
    jsNatToString id ++ strL "\"/>"

/-- `createPIIMapKey` (src/pipeline/tagger.ts): the key `TYPE_ID`. -/
def createPIIMapKey (t : PIIType) (id : Nat) : List Char :=
  typeName t ++ '_' :: jsNatToString id

/-- The `TYPE:text` key used by the tagger to reuse ids for repeated PII. -/
def seenTextKey (m : SpanMatch) : List Char :=
  typeName m.type ++ ':' :: m.text

/-- The ID-assignment loop of `tagEntities` (src/pipeline/tagger.ts):
a fresh counter id per span, except that with `reuseIdsForRepeatedPII`
a span whose `TYPE:text` key was seen before reuses the earlier id. -/
def assignIds (reuse : Bool) :
    List SpanMatch → Nat → List (List Char × Nat) → List TaggedSpan
  | [], _, _ => []
  | m :: rest, nextId, seen =>
    if reuse then
      match mapGet seen (seenTextKey m) with
      | some i => withId m i :: assignIds reuse rest nextId seen
      | none =>
          withId m nextId ::
            assignIds reuse rest (nextId + 1)
              (mapSet seen (seenTextKey m) nextId)
    else withId m nextId :: assignIds reuse rest (nextId + 1) seen

/-- Projection of a `TaggedSpan` into the returned `DetectedEntity`. -/
def toDetectedEntity (e : TaggedSpan) : DetectedEntity :=
  ⟨e.type, e.id, e.start, e.stop, e.confidence, e.source, e.text⟩

/-- Result of `tagEntities` (src/pipeline/tagger.ts, `TaggingResult`). -/
structure TaggingResult where
  anonymizedText : List Char
  entities : List DetectedEntity
  piiMap : List (List Char × List Char)
deriving DecidableEq, Repr

/-- One replacement step of the tagger:
`text.slice(0, start) + tag + text.slice(end)`. -/
def tagReplaceStep (acc : List Char) (e : TaggedSpan) : List Char :=
  acc.take e.start ++ generateTag e.type e.id ++ acc.drop e.stop

/-- `tagEntities` (src/pipeline/tagger.ts): sorts the spans by position,
assigns ids, builds the plaintext PII map, and replaces every span by its
canonical tag, processing spans by descending start position. -/
def tagEntities (text : List Char) (matchList : List SpanMatch)
    (policy : AnonymizationPolicy) : TaggingResult :=
  if matchList.length = 0 then ⟨text, [], []⟩ else
  let sortedAscending :=
    sortSpansByPosition (fun m => (m.start, m.stop)) matchList
  let entitiesWithIds :=
    assignIds policy.reuseIdsForRepeatedPII sortedAscending 1 []
  let piiMap := entitiesWithIds.foldl
    (fun acc e => mapSet acc (createPIIMapKey e.type e.id) e.text) []
  let sortedDescending :=
    jsSortBy (fun a b => decide (b.start ≤ a.start)) entitiesWithIds
  let anonymizedText := sortedDescending.foldl tagReplaceStep text
  ⟨anonymizedText,
   sortSpansByPosition (fun e => (e.start, e.stop))
     (entitiesWithIds.map toDetectedEntity),
   piiMap⟩

/-- An extracted (possibly mangled) tag occurrence
(src/pipeline/tagger.ts, `ExtractedTag`). -/
structure ExtractedTag where
  type : PIIType
  id : Nat
  position : Nat
  matchedText : List Char
deriving DecidableEq, Repr

/-- JS whitespace class `\\s`, by code point. -/
def jsWS (c : Char) : Bool :=
  decide (c = ' ') || decide (c = '\t') || decide (c = '\n') ||
  decide (c.toNat = 11) || decide (c.toNat = 12) || decide (c = '\r') ||
  decide (c.toNat = 160) || decide (c.toNat = 5760) ||
  (decide (8192 ≤ c.toNat) && decide (c.toNat ≤ 8202)) ||
  decide (c.toNat = 8232) || decide (c.toNat = 8233) ||
  decide (c.toNat = 8239) || decide (c.toNat = 8287) ||
  decide (c.toNat = 12288) || decide (c.toNat = 65279)

/-- The tagger's `FLEXIBLE_WS` character class: `\\s` plus NO-BREAK SPACE
(U+00A0, 160) and the range U+2000 (8192) to U+200B (8203). -/
def isFlexWS (c : Char) : Bool :=
  jsWS c || decide (c.toNat = 160) ||
    (decide (8192 ≤ c.toNat) && decide (c.toNat ≤ 8203))

/-- The tagger's `QUOTE_CHARS` class, by code point: straight double/single
quote, backtick (96), guillemets (171, 187), curly single quotes (8216,
8217), single low-9 (8218), curly double quotes (8220, 8221) and double
low-9 (8222). -/
def isQuoteChar (c : Char) : Bool :=
  decide (c = '"') || decide (c.toNat = 39) || decide (c.toNat = 96) ||
  decide (c.toNat = 171) || decide (c.toNat = 187) ||
  decide (c.toNat = 8216) || decide (c.toNat = 8217) ||
  decide (c.toNat = 8218) || decide (c.toNat = 8220) ||
  decide (c.toNat = 8221) || decide (c.toNat = 8222)

/-- The class `[A-Z_]` under the case-insensitive flag of the fuzzy
tag patterns. -/
def isTagNameLetter (c : Char) : Bool :=
  (decide ('A' ≤ c) && decide (c ≤ 'Z')) ||
  (decide ('a' ≤ c) && decide (c ≤ 'z')) || decide (c = '_')

/-- Drop a maximal run of characters of class `p` (a greedy `p*` whose
successor starts with a character outside `p`). -/
def dropClass (p : Char → Bool) : List Char → List Char
  | [] => []
  | c :: rest => if p c then dropClass p rest else c :: rest

/-- Require at least one character of class `p`, then drop the maximal run
(a greedy `p+` whose successor starts with a character outside `p`). -/
def dropClass1 (p : Char → Bool) : List Char → Option (List Char)
  | [] => none
  | c :: rest => if p c then some (dropClass p rest) else none

/-- Take a maximal run of characters of class `p`, returning it and the
remaining suffix; fails on an empty run (a greedy capturing `p+`). -/
def takeClass1 (p : Char → Bool) (s : List Char) :
    Option (List Char × List Char) :=
  let run := s.takeWhile p
  if run.isEmpty then none else some (run, s.drop run.length)

/-- Consume one expected character. -/
def expectChar (c : Char) : List Char → Option (List Char)
  | [] => none
  | x :: rest => if x = c then some rest else none

/-- Consume an expected literal, case-insensitively (the `i` flag);
the literal is given in lower case. -/
def expectCI : List Char → List Char → Option (List Char)
  | [], s => some s
  | _ :: _, [] => none
  | l :: ls, c :: cs => if c.toLower = l then expectCI ls cs else none

/-- Consume one quote-class character. -/
def expectQuote : List Char → Option (List Char)
  | [] => none
  | c :: rest => if isQuoteChar c then some rest else none

/-- Parse `type〈ws〉=〈ws〉〈quote〉([A-Z_]+)〈quote〉` (case-insensitive),
returning the captured type string and the rest.  Equivalent to the
`typeAttr` sub-pattern of `buildFuzzyTagPatterns`: every greedy repetition
in that pattern is followed by a character class disjoint from it, so the
backtracking regex matches exactly like this maximal-munch parser. -/
def parseTypeAttr (s : List Char) : Option (List Char × List Char) :=
  (expectCI (strL "type") s).bind fun s1 =>
  (expectChar '=' (dropClass isFlexWS s1)).bind fun s2 =>
  (expectQuote (dropClass isFlexWS s2)).bind fun s3 =>
  (takeClass1 isTagNameLetter s3).bind fun (val, s4) =>
  (expectQuote s4).map fun s5 => (val, s5)

/-- Parse `id〈ws〉=〈ws〉〈quote〉(\d+)〈quote〉`, returning the captured digit
string and the rest (the `idAttr` sub-pattern). -/
def parseIdAttr (s : List Char) : Option (List Char × List Char) :=
  (expectCI (strL "id") s).bind fun s1 =>
  (expectChar '=' (dropClass isFlexWS s1)).bind fun s2 =>
  (expectQuote (dropClass isFlexWS s2)).bind fun s3 =>
  (takeClass1 isDigitChar s3).bind fun (val, s4) =>
  (expectQuote s4).map fun s5 => (val, s5)

/-- Parse the tag ending `〈ws〉/?〈ws〉>` (the `selfClosing` sub-pattern). -/
def parseSelfClosing (s : List Char) : Option (List Char) :=
  match dropClass isFlexWS s with
  | '/' :: s1 => expectChar '>' (dropClass isFlexWS s1)
  | s1 => expectChar '>' s1

/-- Deterministic parser for the first fuzzy tag pattern
(`<〈ws〉PII〈ws+〉typeAttr〈ws+〉idAttr selfClosing`, case-insensitive).
Returns the captured type string, the captured id string, and the suffix
after the match. -/
def matchTagTypeFirst : List Char → Option (List Char × List Char × List Char)
  | '<' :: s0 =>
    (expectCI (strL "pii") (dropClass isFlexWS s0)).bind fun s1 =>
    (dropClass1 isFlexWS s1).bind fun s2 =>
    (parseTypeAttr s2).bind fun (tstr, s3) =>
    (dropClass1 isFlexWS s3).bind fun s4 =>
    (parseIdAttr s4).bind fun (istr, s5) =>
    (parseSelfClosing s5).map fun s6 => (tstr, istr, s6)
  | _ => none

/-- Deterministic parser for the second fuzzy tag pattern (`id` attribute
before `type`).  Returns (type string, id string, rest) like
`matchTagTypeFirst`, with the capture groups already swapped back the way
`extractTags` reads them for pattern index 1. -/
def matchTagIdFirst : List Char → Option (List Char × List Char × List Char)
  | '<' :: s0 =>
    (expectCI (strL "pii") (dropClass isFlexWS s0)).bind fun s1 =>
    (dropClass1 isFlexWS s1).bind fun s2 =>
    (parseIdAttr s2).bind fun (istr, s3) =>
    (dropClass1 isFlexWS s3).bind fun s4 =>
    (parseTypeAttr s4).bind fun (tstr, s5) =>
    (parseSelfClosing s5).map fun s6 => (tstr, istr, s6)
  | _ => none

/-- One `exec` loop of a global tag pattern: repeatedly find the leftmost
match at or after the current position and continue after it.  Records are
raw `(typeString, idString, position, matchedText)` tuples; like the JS
loop, a match is consumed whether or not its type string later validates. -/
def scanTagsAux
    (parse : List Char → Option (List Char × List Char × List Char)) :
    Nat → List Char → Nat → List (List Char × List Char × Nat × List Char)
  | 0, _, _ => []
  | _ + 1, [], _ => []
  | fuel + 1, c :: rest, pos =>
    match parse (c :: rest) with
    | some (tstr, istr, after) =>
      if rest.length < after.length then
        scanTagsAux parse fuel rest (pos + 1)
      else
        (tstr, istr, pos, (c :: rest).take (rest.length + 1 - after.length)) ::
          scanTagsAux parse fuel (rest.drop (rest.length - after.length))
            (pos + (rest.length + 1 - after.length))
    | none => scanTagsAux parse fuel rest (pos + 1)

/-- One `exec` loop of a global tag pattern, from the start of the text.
Every loop iteration consumes at least one character, so fuel equal to the
text length is always sufficient (a lemma below shows fuel irrelevance). -/
def scanTags (parse : List Char → Option (List Char × List Char × List Char))
    (s : List Char) (pos : Nat) :
    List (List Char × List Char × Nat × List Char) :=
  scanTagsAux parse s.length s pos

/-- JS `toUpperCase` on the ASCII letters captured by the tag patterns. -/
def toUpperStr (s : List Char) : List Char := s.map Char.toUpper

/-- Keep the raw scanned records whose upper-cased type string is a valid
`PIIType` member, as `extractTags` does inside its loop, turning them into
`ExtractedTag`s (`parseInt` on the digit string gives the id). -/
def validateRecords (raw : List (List Char × List Char × Nat × List Char)) :
    List ExtractedTag :=
  raw.filterMap fun r =>
    (strToPIIType (toUpperStr r.1)).map fun ty =>
      ⟨ty, digitsVal r.2.1, r.2.2.1, r.2.2.2⟩

/-- `extractTags` (src/pipeline/tagger.ts): run both fuzzy patterns over the
text; records of the second pattern at a start position already matched by
the first are skipped; the union is sorted by position. -/
def extractTags (anonymizedText : List Char) : List ExtractedTag :=
  let tags0 := validateRecords (scanTags matchTagTypeFirst anonymizedText 0)
  let tags1 :=
    (validateRecords (scanTags matchTagIdFirst anonymizedText 0)).filter
      fun t => !(tags0.any (fun t0 => decide (t0.position = t.position)))
  jsSortBy (fun a b => decide (a.position ≤ b.position)) (tags0 ++ tags1)

/-- The class `[A-Z_]` of the strict tag pattern (case-sensitive). -/
def isStrictTypeChar (c : Char) : Bool :=
  (decide ('A' ≤ c) && decide (c ≤ 'Z')) || decide (c = '_')

/-- Consume an expected literal, case-sensitively. -/
def expectLit : List Char → List Char → Option (List Char)
  | [], s => some s
  | _ :: _, [] => none
  | l :: ls, c :: cs => if c = l then expectLit ls cs else none

/-- Deterministic parser for the strict tag pattern
`<PII\s+type="([A-Z_]+)"\s+id="(\d+)"\s*\/>` (case-sensitive, plain `\s`).
Returns (type string, id string, rest). -/
def matchTagStrict (s : List Char) :
    Option (List Char × List Char × List Char) :=
  (expectLit (strL "<PII") s).bind fun s0 =>
  (dropClass1 jsWS s0).bind fun s1 =>
  (expectLit (strL "type=\"") s1).bind fun s2 =>
  (takeClass1 isStrictTypeChar s2).bind fun (tstr, s3) =>
  (expectChar '"' s3).bind fun s4 =>
  (dropClass1 jsWS s4).bind fun s5 =>
  (expectLit (strL "id=\"") s5).bind fun s6 =>
  (takeClass1 isDigitChar s6).bind fun (istr, s7) =>
  (expectChar '"' s7).bind fun s8 =>
  (expectLit (strL "/>") (dropClass jsWS s8)).map fun s9 => (tstr, istr, s9)

/-- `parseTag` (src/pipeline/tagger.ts): the strict pattern anchored to the
whole string, with the enum membership check; returns the type and id. -/
def parseTag (tag : List Char) : Option (PIIType × Nat) :=
  match matchTagStrict tag with
  | some (tstr, istr, rest) =>
    if rest = [] then
      match strToPIIType tstr with
      | some t => some (t, digitsVal istr)
      | none => none
    else none
  | none => none

/-- `isValidTag` (src/pipeline/tagger.ts). -/
def isValidTag (tag : List Char) : Bool := (parseTag tag).isSome

/-- `extractTagsStrict` (src/pipeline/tagger.ts): the strict pattern run as
a global regex (matches are produced in ascending position order). -/
def extractTagsStrict (anonymizedText : List Char) : List ExtractedTag :=
  validateRecords (scanTags matchTagStrict anonymizedText 0)

/-- One replacement step of `rehydrate`: if the tag's key is in the map,
splice the original value over the actually matched text's length;
otherwise leave the text unchanged. -/
def rehydrateStep (piiMap : List (List Char × List Char)) (result : List Char)
    (t : ExtractedTag) : List Char :=
  match mapGet piiMap (createPIIMapKey t.type t.id) with
  | some original =>
    result.take t.position ++ original ++
      result.drop (t.position + t.matchedText.length)
  | none => result

/-- `rehydrate` (src/pipeline/tagger.ts): extract the tags (fuzzily unless
`strict`), then replace them by their mapped original values in descending
position order. -/
def rehydrate (anonymizedText : List Char)
    (piiMap : List (List Char × List Char)) (strict : Bool) : List Char :=
  let tags := if strict then extractTagsStrict anonymizedText
              else extractTags anonymizedText
  let sortedTags :=
    jsSortBy (fun a b => decide (b.position ≤ a.position)) tags
  sortedTags.foldl (rehydrateStep piiMap) anonymizedText

/-- Walk of the accepted list in `removeOverlappingSpans`
(src/utils/offsets.ts): stop at the first accepted span overlapping the
candidate; if the candidate is preferred (`prefer > 0`) return the list
with that span removed (the candidate will be appended), otherwise `none`
(the candidate is dropped).  If nothing overlaps, the whole list is kept. -/
def resolveAgainst (prefer : SpanMatch → SpanMatch → Int) (span : SpanMatch) :
    List SpanMatch → Option (List SpanMatch)
  | [] => some []
  | existing :: rest =>
    if spansOverlap (span.start, span.stop) (existing.start, existing.stop) then
      if prefer span existing > 0 then some rest else none
    else (resolveAgainst prefer span rest).map (fun r => existing :: r)

/-- One iteration of the main loop of `removeOverlappingSpans`: splice out
the evicted span (if any) and push the candidate at the end. -/
def resolveStep (prefer : SpanMatch → SpanMatch → Int)
    (result : List SpanMatch) (span : SpanMatch) : List SpanMatch :=
  match resolveAgainst prefer span result with
  | some r => r ++ [span]
  | none => result

/-- `removeOverlappingSpans` (src/utils/offsets.ts): sort by position, walk
the candidates keeping a non-overlapping accepted set with
preference-based eviction, and sort the result by position. -/
def removeOverlappingSpans (spans : List SpanMatch)
    (prefer : SpanMatch → SpanMatch → Int) : List SpanMatch :=
  if spans.length = 0 then [] else
  sortSpansByPosition (fun m => (m.start, m.stop))
    ((sortSpansByPosition (fun m => (m.start, m.stop)) spans).foldl
      (resolveStep prefer) [])

/-- Adjacent-pair check of `hasNoOverlaps` over the sorted list. -/
def adjacentNoOverlap {α : Type} (key : α → Nat × Nat) : List α → Bool
  | a :: b :: rest =>
    if (key a).2 > (key b).1 then false else adjacentNoOverlap key (b :: rest)
  | _ => true

/-- `hasNoOverlaps` (src/pipeline/validator.ts): fast check sorting by
start position and comparing adjacent pairs. -/
def hasNoOverlaps {α : Type} (key : α → Nat × Nat) (entities : List α) :
    Bool :=
  if entities.length ≤ 1 then true else
  adjacentNoOverlap key
    (jsSortBy (fun a b => decide ((key a).1 ≤ (key b).1)) entities)

/-- Validation error codes (src/pipeline/validator.ts,
`ValidationErrorCode`). -/
inductive ValidationErrorCode where
  | OVERLAPPING_ENTITIES | DUPLICATE_IDS | MALFORMED_TAG
  | ID_MISMATCH | MISSING_IN_MAP | POTENTIAL_PII_LEAK
deriving DecidableEq, Repr

/-- A validation error (src/pipeline/validator.ts, `ValidationError`);
the free-form `details` payload is omitted. -/
structure ValidationError where
  code : ValidationErrorCode
  message : List Char
deriving DecidableEq, Repr

/-- Message of an `OVERLAPPING_ENTITIES` error. -/
def overlapErrMsg (a b : DetectedEntity) : List Char :=
  strL "Entities " ++ jsNatToString a.id ++ strL " (" ++ typeName a.type ++
    strL ") and " ++ jsNatToString b.id ++ strL " (" ++ typeName b.type ++
    strL ") overlap"

/-- Inner loop of `checkOverlappingEntities`: errors of `a` against every
later entity. -/
def overlapErrorsFor (a : DetectedEntity) (rest : List DetectedEntity) :
    List ValidationError :=
  rest.filterMap fun b =>
    if spansOverlap (a.start, a.stop) (b.start, b.stop) then
      some ⟨.OVERLAPPING_ENTITIES, overlapErrMsg a b⟩
    else none

/-- `checkOverlappingEntities` (src/pipeline/validator.ts): quadratic
pairwise overlap scan reporting every offending pair. -/
def checkOverlappingEntities : List DetectedEntity → List ValidationError
  | [] => []
  | a :: rest => overlapErrorsFor a rest ++ checkOverlappingEntities rest

/-- Loop of `checkUniqueIds` with the `seenIds` map; a repeated id is only
an error when the original texts differ, and a duplicate does not replace
the first entity seen for that id. -/
def checkUniqueIdsLoop :
    List DetectedEntity → List (Nat × DetectedEntity) → List ValidationError
  | [], _ => []
  | e :: rest, seen =>
    match (seen.find? (fun p => decide (p.1 = e.id))).map (fun p => p.2) with
    | some existing =>
      (if existing.original ≠ e.original then
        [⟨.DUPLICATE_IDS,
          strL "Duplicate ID " ++ jsNatToString e.id ++
            strL " used for different text values"⟩]
       else []) ++ checkUniqueIdsLoop rest seen
    | none => checkUniqueIdsLoop rest (seen ++ [(e.id, e)])

/-- `checkUniqueIds` (src/pipeline/validator.ts). -/
def checkUniqueIds (entities : List DetectedEntity) : List ValidationError :=
  checkUniqueIdsLoop entities []

/-- `checkPIIMapCompleteness` (src/pipeline/validator.ts): every entity
needs a `TYPE_ID` key in the plaintext map. -/
def checkPIIMapCompleteness (entities : List DetectedEntity)
    (piiMapKeys : List (List Char)) : List ValidationError :=
  entities.filterMap fun e =>
    let expectedKey := typeName e.type ++ '_' :: jsNatToString e.id
    if piiMapKeys.any (fun k => decide (k = expectedKey)) then none
    else some ⟨.MISSING_IN_MAP,
      strL "Entity " ++ jsNatToString e.id ++ strL " (" ++ typeName e.type ++
        strL ") missing from PII map"⟩

/-- JS `Set` built from a list of numbers: deduplication preserving first
occurrence (insertion) order. -/
def dedupNatsAux : List Nat → List Nat → List Nat
  | [], _ => []
  | n :: rest, seen =>
    if seen.any (fun m => decide (m = n)) then dedupNatsAux rest seen
    else n :: dedupNatsAux rest (n :: seen)

/-- `checkTagEntityMatch` (src/pipeline/validator.ts): every entity id
must appear among the ids of the fuzzily extracted tags. -/
def checkTagEntityMatch (anonymizedText : List Char)
    (entities : List DetectedEntity) : List ValidationError :=
  let tags := extractTags anonymizedText
  let entityIds := dedupNatsAux (entities.map (fun e => e.id)) []
  let tagIds := tags.map (fun t => t.id)
  entityIds.filterMap fun id =>
    if tagIds.any (fun t => decide (t = id)) then none
    else some ⟨.ID_MISMATCH,
      strL "Entity ID " ++ jsNatToString id ++
        strL " not found in anonymized text"⟩

/-- `IBAN_LENGTHS` (src/utils/iban-checksum.ts): expected IBAN length per
country code. -/
def IBAN_LENGTHS : List (List Char × Nat) :=
  [(strL "AD", 24), (strL "AT", 20), (strL "BE", 16), (strL "CH", 21),
   (strL "CZ", 24), (strL "DE", 22), (strL "DK", 18), (strL "ES", 24),
   (strL "FI", 18), (strL "FR", 27), (strL "GB", 22), (strL "GR", 27),
   (strL "HU", 28), (strL "IE", 22), (strL "IT", 27), (strL "LI", 21),
   (strL "LU", 20), (strL "NL", 18), (strL "NO", 15), (strL "PL", 28),
   (strL "PT", 25), (strL "SE", 24), (strL "SK", 24)]

/-- ASCII upper-case letter test (`[A-Z]`). -/
def isAsciiUpper (c : Char) : Bool := decide ('A' ≤ c) && decide (c ≤ 'Z')

/-- `charToNumber` (src/utils/iban-checksum.ts): A=10 .. Z=35 as digit
strings, digits unchanged. -/
def charToNumber (c : Char) : List Char :=
  let code := c.toUpper.toNat
  if 65 ≤ code ∧ code ≤ 90 then jsNatToString (code - 55) else [c]

/-- The `iban.replace(/\s/g, '').toUpperCase()` normalization used
throughout the IBAN checksum module. -/
def cleanIBAN (iban : List Char) : List Char :=
  (iban.filter (fun c => !jsWS c)).map Char.toUpper

/-- `rearrangeForChecksum` (src/utils/iban-checksum.ts): move the first
four characters to the end and convert letters to numbers. -/
def rearrangeForChecksum (iban : List Char) : List Char :=
  let cleaned := cleanIBAN iban
  ((cleaned.drop 4 ++ cleaned.take 4).map charToNumber).flatten

/-- Digit-by-digit remainder loop of `mod97`; `none` models the `NaN`
poisoning of `parseInt` on a non-digit character. -/
def mod97Loop : List Char → Nat → Option Nat
  | [], rem => some rem
  | c :: rest, rem =>
    if isDigitChar c then mod97Loop rest ((rem * 10 + (c.toNat - 48)) % 97)
    else none

/-- `mod97` (src/utils/iban-checksum.ts). -/
def mod97 (numericString : List Char) : Option Nat :=
  mod97Loop numericString 0

/-- The format check `^[A-Z]{2}[0-9]{2}[A-Z0-9]+$` of `validateIBAN`. -/
def ibanFormatOk (cleaned : List Char) : Bool :=
  match cleaned with
  | c1 :: c2 :: c3 :: c4 :: rest =>
    isAsciiUpper c1 && isAsciiUpper c2 && isDigitChar c3 && isDigitChar c4 &&
      !rest.isEmpty && rest.all (fun c => isAsciiUpper c || isDigitChar c)
  | _ => false

/-- Trailing checks of `validateIBAN`: general length range 15..34 and the
mod-97 remainder being exactly 1. -/
def ibanLengthAndChecksum (cleaned : List Char) : Bool :=
  if cleaned.length < 15 ∨ cleaned.length > 34 then false
  else decide (mod97 (rearrangeForChecksum cleaned) = some 1)

/-- `validateIBAN` (src/utils/iban-checksum.ts): normalization, format
check, country-specific length, general length range, mod-97 checksum. -/
def validateIBAN (iban : List Char) : Bool :=
  let cleaned := cleanIBAN iban
  if !ibanFormatOk cleaned then false
  else
    match mapGet IBAN_LENGTHS (cleaned.take 2) with
    | some expectedLength =>
      if cleaned.length ≠ expectedLength then false
      else ibanLengthAndChecksum cleaned
    | none => ibanLengthAndChecksum cleaned

/-- Right-to-left digit loop of `validateLuhn` (src/utils/luhn.ts), on the
reversed digit list; every second digit is doubled, minus 9 if above 9. -/
def luhnSumRev : List Char → Bool → Nat
  | [], _ => 0
  | c :: rest, isEven =>
    let digit := c.toNat - 48
    let d := if isEven then (if digit * 2 > 9 then digit * 2 - 9 else digit * 2)
             else digit
    d + luhnSumRev rest (!isEven)

/-- `validateLuhn` (src/utils/luhn.ts): strip non-digits, reject the empty
string, and require the Luhn sum to be divisible by 10. -/
def validateLuhn (input : List Char) : Bool :=
  let digits := input.filter isDigitChar
  if digits.length = 0 then false
  else decide (luhnSumRev digits.reverse false % 10 = 0)

/-- Loop of `isSequential` (src/recognizers/phone.ts): track whether every
step so far increments, and whether every step decrements, by exactly 1. -/
def isSequentialLoop : Nat → List Char → Bool → Bool → Bool
  | _, [], ascending, descending => ascending || descending
  | prev, c :: rest, ascending, descending =>
    let curr := c.toNat - 48
    let ascending2 := ascending && decide (curr = prev + 1)
    let descending2 := descending && decide (prev = curr + 1)
    if !ascending2 && !descending2 then false
    else isSequentialLoop curr rest ascending2 descending2

/-- `isSequential` (src/recognizers/phone.ts): digit strings shorter than
5 are never sequential. -/
def isSequential (digits : List Char) : Bool :=
  if digits.length < 5 then false
  else
    match digits with
    | [] => false
    | c :: rest => isSequentialLoop (c.toNat - 48) rest true true

/-- The repeated-digit test `/^(\d)\1+$/` on an all-digit string: at least
two characters, all equal to the first. -/
def isRepeatedDigitStr (digits : List Char) : Bool :=
  match digits with
  | c :: d :: rest => (d :: rest).all (fun x => decide (x = c))
  | _ => false

/-- `phoneRecognizer.validate` (src/recognizers/phone.ts): digit count in
[7, 15] (`MIN_DIGITS`/`MAX_DIGITS`), not all the same digit, and not
sequential. -/
def phoneValidate (phone : List Char) : Bool :=
  let digits := phone.filter isDigitChar
  if digits.length < 7 ∨ digits.length > 15 then false
  else if isRepeatedDigitStr digits then false
  else if isSequential digits then false
  else true

/-- JS `String.prototype.split` on a single separator character. -/
def splitOnCharAux (sep : Char) : List Char → List Char → List (List Char)
  | [], acc => [acc.reverse]
  | c :: rest, acc =>
    if c = sep then acc.reverse :: splitOnCharAux sep rest []
    else splitOnCharAux sep rest (c :: acc)

/-- JS `s.split(sep)` for a one-character separator. -/
def jsSplitOnChar (sep : Char) (s : List Char) : List (List Char) :=
  splitOnCharAux sep s []

/-- JS `parseInt(s, 10)`: skip leading whitespace, read an optional sign
and then a non-empty digit prefix; `none` models `NaN`. -/
def jsParseInt (s : List Char) : Option Int :=
  let t := s.dropWhile jsWS
  match t with
  | '-' :: r =>
    let digits := r.takeWhile isDigitChar
    if digits.isEmpty then none else some (-(digitsVal digits : Int))
  | '+' :: r =>
    let digits := r.takeWhile isDigitChar
    if digits.isEmpty then none else some (digitsVal digits : Int)
  | r =>
    let digits := r.takeWhile isDigitChar
    if digits.isEmpty then none else some (digitsVal digits : Int)

/-- Octet loop of `isValidIPv4` (src/recognizers/ip-address.ts): parseInt
value in [0, 255], no leading zero except for `0` itself, and track
whether some octet exceeds 9; the final result is that flag. -/
def ipv4CheckParts : List (List Char) → Bool → Bool
  | [], hasLargeOctet => hasLargeOctet
  | p :: rest, hasLargeOctet =>
    match jsParseInt p with
    | none => false
    | some n =>
      if n < 0 ∨ n > 255 then false
      else if p.length > 1 ∧ p.head? = some '0' then false
      else ipv4CheckParts rest (hasLargeOctet || decide (n > 9))

/-- `isValidIPv4` (src/recognizers/ip-address.ts): exactly four
dot-separated parts passing the octet checks, with at least one octet
greater than 9. -/
def isValidIPv4 (ip : List Char) : Bool :=
  let parts := jsSplitOnChar '.' ip
  if parts.length ≠ 4 then false
  else ipv4CheckParts parts false

/-- Hexadecimal digit test (`[0-9a-fA-F]`). -/
def isHexChar (c : Char) : Bool :=
  isDigitChar c || (decide ('a' ≤ c) && decide (c ≤ 'f')) ||
    (decide ('A' ≤ c) && decide (c ≤ 'F'))

/-- JS `toLowerCase` on the characters relevant here. -/
def toLowerStr (s : List Char) : List Char := s.map Char.toLower

/-- JS `String.prototype.startsWith`. -/
def startsWithStr (s pre : List Char) : Bool := decide (s.take pre.length = pre)

/-- JS `String.prototype.endsWith`. -/
def endsWithStr (s suf : List Char) : Bool :=
  decide (s.drop (s.length - suf.length) = suf) && decide (suf.length ≤ s.length)

/-- Character membership (JS `includes` on a single character). -/
def strContains (s : List Char) (c : Char) : Bool :=
  s.any (fun x => decide (x = c))

/-- Whether the string contains `::` (JS `includes('::')`). -/
def containsDoubleColon : List Char → Bool
  | [] => false
  | ':' :: ':' :: _ => true
  | _ :: rest => containsDoubleColon rest

/-- Number of non-overlapping `::` occurrences
(`(ip.match(/::/g) ?? []).length`). -/
def countDoubleColon : List Char → Nat
  | [] => 0
  | ':' :: ':' :: rest => countDoubleColon rest + 1
  | _ :: rest => countDoubleColon rest

/-- The per-group loop of `isValidIPv6`: empty groups are allowed (they
come from `::`), non-empty groups are 1-4 hex digits. -/
def ipv6PartsOk (ip : List Char) : Bool :=
  (jsSplitOnChar ':' ip).all fun p =>
    p.isEmpty || (decide (p.length ≤ 4) && p.all isHexChar)

/-- `isValidIPv6` (src/recognizers/ip-address.ts): IPv4-mapped form, `::`
collapse rules by colon count, and hex-digit group checks. -/
def isValidIPv6 (ip : List Char) : Bool :=
  if startsWithStr (toLowerStr ip) (strL "::ffff:") && strContains ip '.' then
    isValidIPv4 (ip.drop 7)
  else
    let colonCount := (ip.filter (fun c => decide (c = ':'))).length
    if containsDoubleColon ip then
      if countDoubleColon ip > 1 then false
      else if colonCount < 2 then false
      else ipv6PartsOk ip
    else
      if colonCount ≠ 7 then false
      else ipv6PartsOk ip

/-- Abstract syntax of the regular expressions used by the recognizers and
the leak scan, sufficient for every pattern embedded here: character
classes, concatenation, prioritized alternation, greedy option, greedy
star over a character class, word boundaries, and single-character
negative lookbehind/lookahead. -/
inductive RE where
  | eps : RE
  | cls : (Char → Bool) → RE
  | cat : RE → RE → RE
  | alt : RE → RE → RE
  | opt : RE → RE
  | starCls : (Char → Bool) → RE
  | wordB : RE
  | nlb : (Char → Bool) → RE
  | nla : (Char → Bool) → RE

/-- Length of the maximal run of class characters. -/
def countRun (p : Char → Bool) : List Char → Nat
  | [] => 0
  | c :: rest => if p c then countRun p rest + 1 else 0

/-- JS word character (`\w`), deciding `\b`. -/
def isWordChar (c : Char) : Bool :=
  (decide ('a' ≤ c) && decide (c ≤ 'z')) ||
  (decide ('A' ≤ c) && decide (c ≤ 'Z')) || isDigitChar c || decide (c = '_')

/-- Whether the character at position `i` (if any) is a word character. -/
def atWord (s : List Char) (i : Nat) : Bool :=
  match s[i]? with
  | some c => isWordChar c
  | none => false

/-- Whether the character before position `i` (if any) is a word character. -/
def prevWord (s : List Char) (i : Nat) : Bool :=
  match i with
  | 0 => false
  | j + 1 => atWord s j

/-- Greedy backtracking for a class star: try the continuation after `m`
repetitions, for `m` from the maximal run length down to zero. -/
def starTryFrom (k : Nat → Option Nat) (i : Nat) : Nat → Option Nat
  | 0 => k i
  | m + 1 =>
    match k (i + (m + 1)) with
    | some r => some r
    | none => starTryFrom k i m

/-- Backtracking matcher with JS semantics: `reMatch s r i k` matches `r`
at position `i` of `s` and calls the continuation on the position after
each candidate match, in the priority order of JS regexes (left
alternative first, greedy quantifiers longest first); the result is the
first continuation success. -/
def reMatch (s : List Char) : RE → Nat → (Nat → Option Nat) → Option Nat
  | .eps, i, k => k i
  | .cls p, i, k =>
    match s[i]? with
    | some c => if p c then k (i + 1) else none
    | none => none
  | .cat a b, i, k => reMatch s a i (fun j => reMatch s b j k)
  | .alt a b, i, k =>
    match reMatch s a i k with
    | some r => some r
    | none => reMatch s b i k
  | .opt a, i, k =>
    match reMatch s a i k with
    | some r => some r
    | none => k i
  | .starCls p, i, k => starTryFrom k i (countRun p (s.drop i))
  | .wordB, i, k => if prevWord s i = atWord s i then none else k i
  | .nlb p, i, k =>
    match i with
    | 0 => k i
    | j + 1 =>
      match s[j]? with
      | some c => if p c then none else k i
      | none => k i
  | .nla p, i, k =>
    match s[i]? with
    | some c => if p c then none else k i
    | none => k i

/-- Single-character literal regex. -/
def reChar (c : Char) : RE := .cls (fun x => decide (x = c))

/-- Literal string regex. -/
def reStr (cs : List Char) : RE :=
  cs.foldr (fun c acc => .cat (reChar c) acc) .eps

/-- Case-insensitive literal string regex (the `i` flag; the literal is
given in lower case). -/
def reStrCI (cs : List Char) : RE :=
  cs.foldr (fun c acc => .cat (.cls (fun x => decide (x.toLower = c))) acc) .eps

/-- Exact repetition `r{n}`. -/
def reRep (r : RE) : Nat → RE
  | 0 => .eps
  | n + 1 => .cat r (reRep r n)

/-- Greedy bounded repetition `r{0,n}` as nested greedy options. -/
def reUpTo (r : RE) : Nat → RE
  | 0 => .eps
  | n + 1 => .opt (.cat r (reUpTo r n))

/-- Greedy bounded repetition `r{m,n}`. -/
def reRange (r : RE) (m n : Nat) : RE := .cat (reRep r m) (reUpTo r (n - m))

/-- Greedy `p+` for a character class. -/
def rePlus (p : Char → Bool) : RE := .cat (.cls p) (.starCls p)

/-- Whole-match attempt at one position: the end position of the first
match in priority order. -/
def reTry (s : List Char) (r : RE) (i : Nat) : Option Nat :=
  reMatch s r i (fun j => some j)

/-- Leftmost-match search: try positions `i`, `i+1`, ... (first argument
is the count of remaining positions to try). -/
def reSearchAux (s : List Char) (r : RE) : Nat → Nat → Option (Nat × Nat)
  | 0, _ => none
  | n + 1, i =>
    match reTry s r i with
    | some e => some (i, e)
    | none => reSearchAux s r n (i + 1)

/-- JS `exec` on a global regex: leftmost match at or after position `i`,
as a `(start, end)` offset pair. -/
def reSearch (s : List Char) (r : RE) (i : Nat) : Option (Nat × Nat) :=
  reSearchAux s r (s.length + 1 - i) i

/-- The `exec` loop of a global regex: fuel-driven structural recursion;
the position strictly increases every iteration (with the JS bump on an
empty match), so `s.length + 2` fuel is always sufficient. -/
def reMatchAllAux (s : List Char) (r : RE) : Nat → Nat → List (Nat × Nat)
  | 0, _ => []
  | fuel + 1, i =>
    match reSearch s r i with
    | none => []
    | some (st, en) =>
      (st, en) :: reMatchAllAux s r fuel (if en ≤ st then st + 1 else en)

/-- JS `text.matchAll(r)` (or the equivalent `exec` loop), as a list of
`(start, end)` offset pairs. -/
def reMatchAll (s : List Char) (r : RE) : List (Nat × Nat) :=
  reMatchAllAux s r (s.length + 2) 0

/-- JS `s.slice(start, end)` for in-range offsets: the matched text of a
`(start, end)` pair. -/
def jsSubstring (s : List Char) (st en : Nat) : List Char :=
  (s.drop st).take (en - st)

/-- Replace every match (ascending, disjoint, as produced by the `exec`
loop) by a fixed replacement string. -/
def replaceMatchesAux (s rep : List Char) :
    List (Nat × Nat) → Nat → List Char
  | [], prev => s.drop prev
  | (st, en) :: rest, prev =>
    (s.drop prev).take (st - prev) ++ rep ++ replaceMatchesAux s rep rest en

/-- JS `s.replace(r, rep)` for a global regex and a plain replacement
string. -/
def jsReplaceAll (r : RE) (s rep : List Char) : List Char :=
  replaceMatchesAux s rep (reMatchAll s r) 0

/-- Nonzero decimal digit class (`[1-9]`). -/
def isNonZeroDigit (c : Char) : Bool := decide ('1' ≤ c) && decide (c ≤ '9')

/-- ASCII letter class (`[a-zA-Z]`). -/
def isAsciiLetter (c : Char) : Bool :=
  (decide ('a' ≤ c) && decide (c ≤ 'z')) ||
    (decide ('A' ≤ c) && decide (c ≤ 'Z'))

/-- Local-part class `[a-zA-Z0-9._%+-]` of the email leak pattern. -/
def emailLocalChar (c : Char) : Bool :=
  isAsciiLetter c || isDigitChar c || decide (c = '.') || decide (c = '_') ||
    decide (c = '%') || decide (c = '+') || decide (c = '-')

/-- Domain class `[a-zA-Z0-9.-]` of the email leak pattern. -/
def emailDomainChar (c : Char) : Bool :=
  isAsciiLetter c || isDigitChar c || decide (c = '.') || decide (c = '-')

/-- Email leak pattern `[a-zA-Z0-9._%+-]+@[a-zA-Z0-9.-]+\.[a-zA-Z]{2,}`
(src/pipeline/validator.ts, LEAK_SCAN_PATTERNS). -/
def LEAK_EMAIL_RE : RE :=
  .cat (rePlus emailLocalChar)
    (.cat (reChar '@')
      (.cat (rePlus emailDomainChar)
        (.cat (reChar '.')
          (.cat (.cls isAsciiLetter)
            (.cat (.cls isAsciiLetter) (.starCls isAsciiLetter))))))

/-- Phone leak pattern `(?:\+|00)[1-9][0-9]{7,14}|0[1-9][0-9]{6,11}`. -/
def LEAK_PHONE_RE : RE :=
  .alt
    (.cat (.alt (reChar '+') (reStr (strL "00")))
      (.cat (.cls isNonZeroDigit) (reRange (.cls isDigitChar) 7 14)))
    (.cat (reChar '0')
      (.cat (.cls isNonZeroDigit) (reRange (.cls isDigitChar) 6 11)))

/-- Upper-or-digit class `[A-Z0-9]`. -/
def upperOrDigit (c : Char) : Bool := isAsciiUpper c || isDigitChar c

/-- IBAN leak pattern `[A-Z]{2}[0-9]{2}[A-Z0-9]{11,30}`.  The leak scan
recompiles the pattern source with the `g` flag only, so the `i` flag of
the declared pattern is dropped and matching is case-sensitive. -/
def LEAK_IBAN_RE : RE :=
  .cat (reRep (.cls isAsciiUpper) 2)
    (.cat (reRep (.cls isDigitChar) 2) (reRange (.cls upperOrDigit) 11 30))

/-- Separator class `[\s-]` of the credit-card leak pattern. -/
def cardSepChar (c : Char) : Bool := jsWS c || decide (c = '-')

/-- Credit-card leak pattern
`[0-9]{4}[\s-]?[0-9]{4}[\s-]?[0-9]{4}[\s-]?[0-9]{4}`. -/
def LEAK_CARD_RE : RE :=
  .cat (reRep (.cls isDigitChar) 4)
    (.cat (.opt (.cls cardSepChar))
      (.cat (reRep (.cls isDigitChar) 4)
        (.cat (.opt (.cls cardSepChar))
          (.cat (reRep (.cls isDigitChar) 4)
            (.cat (.opt (.cls cardSepChar)) (reRep (.cls isDigitChar) 4))))))

/-- IP leak pattern `(?:\d{1,3}\.){3}\d{1,3}`. -/
def LEAK_IP_RE : RE :=
  .cat
    (reRep (.cat (reRange (.cls isDigitChar) 1 3) (reChar '.')) 3)
    (reRange (.cls isDigitChar) 1 3)

/-- A potential leak found by the leak scan (src/pipeline/validator.ts,
`LeakScanMatch`). -/
structure LeakScanMatch where
  type : PIIType
  text : List Char
  position : Nat
  pattern : List Char
deriving DecidableEq, Repr

/-- `LEAK_SCAN_PATTERNS` (src/pipeline/validator.ts): simplified patterns
for quick scanning, with their display names. -/
def LEAK_SCAN_PATTERNS : List (PIIType × RE × List Char) :=
  [(.EMAIL, LEAK_EMAIL_RE, strL "Email"),
   (.PHONE, LEAK_PHONE_RE, strL "Phone"),
   (.IBAN, LEAK_IBAN_RE, strL "IBAN"),
   (.CREDIT_CARD, LEAK_CARD_RE, strL "Credit Card"),
   (.IP_ADDRESS, LEAK_IP_RE, strL "IP Address")]

/-- The tag-erasing pattern `<PII[^>]*\/>` used by `performLeakScan` to
blank out placeholder tags (each match is replaced by 20 spaces). -/
def TAG_STRIP_RE : RE :=
  .cat (reStr (strL "<PII")) (.cat (.starCls (fun c => !decide (c = '>')))
    (reStr (strL "/>")))

/-- The tag-like pattern `<PII[^>]*>` used by `checkTags`. -/
def TAG_LIKE_RE : RE :=
  .cat (reStr (strL "<PII"))
    (.cat (.starCls (fun c => !decide (c = '>'))) (reChar '>'))

/-- JS `s.lastIndexOf(c, pos)`: greatest index `≤ pos` holding `c`. -/
def jsLastIndexOf (s : List Char) (c : Char) (pos : Nat) : Option Nat :=
  let pre := s.take (pos + 1)
  (pre.reverse.findIdx? (fun x => decide (x = c))).map
    (fun j => pre.length - 1 - j)

/-- JS `s.indexOf(c, from)`: least index `≥ from` holding `c`. -/
def jsIndexOfFrom (s : List Char) (c : Char) (start : Nat) : Option Nat :=
  ((s.drop start).findIdx? (fun x => decide (x = c))).map (fun j => j + start)

/-- `isPositionInsideTag` (src/pipeline/validator.ts): a position is inside
a tag when it lies strictly between the nearest `<` at or before it and
the first `>` after that `<`. -/
def isPositionInsideTag (text : List Char) (position : Nat) : Bool :=
  match jsLastIndexOf text '<' position with
  | none => false
  | some before =>
    match jsIndexOfFrom text '>' before with
    | none => false
    | some after => decide (before < position) && decide (position < after)

/-- `performLeakScan` (src/pipeline/validator.ts): blank out placeholder
tags, run each enabled leak pattern, and keep matches whose position is
not inside a tag of the original anonymized text. -/
def performLeakScan (anonymizedText : List Char)
    (policy : AnonymizationPolicy) : List LeakScanMatch :=
  let textWithoutTags :=
    jsReplaceAll TAG_STRIP_RE anonymizedText (List.replicate 20 ' ')
  ((LEAK_SCAN_PATTERNS.filter (fun p => policy.enabledTypes p.1)).map
    (fun p =>
      (reMatchAll textWithoutTags p.2.1).filterMap fun m =>
        if isPositionInsideTag anonymizedText m.1 then none
        else some ⟨p.1, jsSubstring textWithoutTags m.1 m.2, m.1, p.2.2⟩)).flatten

/-- `checkTags` (src/pipeline/validator.ts): anything looking like an
opening `<PII` tag must be a well-formed self-closing tag. -/
def checkTags (anonymizedText : List Char) : List ValidationError :=
  (reMatchAll anonymizedText TAG_LIKE_RE).filterMap fun m =>
    let matched := jsSubstring anonymizedText m.1 m.2
    let fullTag := if endsWithStr matched (strL "/>") then matched
                   else matched ++ strL "/>"
    if !isValidTag fullTag && !endsWithStr matched (strL "/>") then
      some ⟨.MALFORMED_TAG,
        strL "Malformed PII tag at position " ++ jsNatToString m.1⟩
    else none

/-- Validation result (src/pipeline/validator.ts, `ValidationResult`);
the optional fields model the possibly-`undefined` JS fields. -/
structure ValidationResult where
  valid : Bool
  errors : List ValidationError
  leakScanPassed : Option Bool
  potentialLeaks : Option (List LeakScanMatch)
deriving DecidableEq, Repr

/-- `validateOutput` (src/pipeline/validator.ts): run every check without
short-circuiting, then the leak scan if enabled; `valid` iff no error. -/
def validateOutput (anonymizedText : List Char)
    (entities : List DetectedEntity) (piiMapKeys : List (List Char))
    (policy : AnonymizationPolicy) : ValidationResult :=
  let errors :=
    checkOverlappingEntities entities ++ checkUniqueIds entities ++
    checkTags anonymizedText ++ checkTagEntityMatch anonymizedText entities ++
    checkPIIMapCompleteness entities piiMapKeys
  if policy.enableLeakScan then
    let potentialLeaks := performLeakScan anonymizedText policy
    let leakScanPassed := potentialLeaks.length = 0
    let errors2 := errors ++
      (if leakScanPassed then []
       else [⟨.POTENTIAL_PII_LEAK,
         strL "Leak scan found " ++ jsNatToString potentialLeaks.length ++
           strL " potential PII leak(s)"⟩])
    ⟨decide (errors2.length = 0), errors2, some (decide leakScanPassed),
      some potentialLeaks⟩
  else ⟨decide (errors.length = 0), errors, none, none⟩

/-- Separator class `[\s.-]` of the phone patterns. -/
def phoneSepChar (c : Char) : Bool :=
  jsWS c || decide (c = '.') || decide (c = '-')

/-- Separator class of the German phone pattern: whitespace, slash or
dash. -/
def phoneSepSlash (c : Char) : Bool :=
  jsWS c || decide (c = '/') || decide (c = '-')

/-- Phone pattern `international`:
`(?<![0-9])(?:\+|00)[1-9][0-9]{6,14}(?![0-9])`. -/
def PHONE_INTERNATIONAL_RE : RE :=
  .cat (.nlb isDigitChar)
    (.cat (.alt (reChar '+') (reStr (strL "00")))
      (.cat (.cls isNonZeroDigit)
        (.cat (reRange (.cls isDigitChar) 6 14) (.nla isDigitChar))))

/-- Phone pattern `internationalFormatted`:
`(?<![0-9])(?:\+|00)[1-9][0-9]{0,2}[\s.-]?(?:\([0-9]{1,4}\)|[0-9]{1,4})[\s.-]?[0-9]{2,4}[\s.-]?[0-9]{2,4}(?:[\s.-]?[0-9]{2,4})?(?![0-9])`. -/
def PHONE_INTERNATIONAL_FMT_RE : RE :=
  .cat (.nlb isDigitChar)
    (.cat (.alt (reChar '+') (reStr (strL "00")))
      (.cat (.cls isNonZeroDigit)
        (.cat (reRange (.cls isDigitChar) 0 2)
          (.cat (.opt (.cls phoneSepChar))
            (.cat (.alt
                (.cat (reChar '(')
                  (.cat (reRange (.cls isDigitChar) 1 4) (reChar ')')))
                (reRange (.cls isDigitChar) 1 4))
              (.cat (.opt (.cls phoneSepChar))
                (.cat (reRange (.cls isDigitChar) 2 4)
                  (.cat (.opt (.cls phoneSepChar))
                    (.cat (reRange (.cls isDigitChar) 2 4)
                      (.cat (.opt (.cat (.opt (.cls phoneSepChar))
                          (reRange (.cls isDigitChar) 2 4)))
                        (.nla isDigitChar)))))))))))

/-- Phone pattern `german`: digits `0[1-9][0-9]` one to four more digits,
an optional whitespace-slash-dash separator, then 3 to 8 digits, with the
no-adjacent-digit lookarounds. -/
def PHONE_GERMAN_RE : RE :=
  .cat (.nlb isDigitChar)
    (.cat (reChar '0')
      (.cat (.cls isNonZeroDigit)
        (.cat (reRange (.cls isDigitChar) 1 4)
          (.cat (.opt (.cls phoneSepSlash))
            (.cat (reRange (.cls isDigitChar) 3 8) (.nla isDigitChar))))))

/-- Phone pattern `germanParens`:
`(?<![0-9])\(0[1-9][0-9]{1,4}\)[\s]?[0-9]{3,8}(?![0-9])`. -/
def PHONE_GERMAN_PARENS_RE : RE :=
  .cat (.nlb isDigitChar)
    (.cat (reChar '(')
      (.cat (reChar '0')
        (.cat (.cls isNonZeroDigit)
          (.cat (reRange (.cls isDigitChar) 1 4)
            (.cat (reChar ')')
              (.cat (.opt (.cls jsWS))
                (.cat (reRange (.cls isDigitChar) 3 8) (.nla isDigitChar))))))))

/-- Phone pattern `usFormat`:
`(?<![0-9])(?:\([0-9]{3}\)[\s.-]?|[0-9]{3}[\s.-])[0-9]{3}[\s.-][0-9]{4}(?![0-9])`. -/
def PHONE_US_RE : RE :=
  .cat (.nlb isDigitChar)
    (.cat (.alt
        (.cat (reChar '(')
          (.cat (reRep (.cls isDigitChar) 3)
            (.cat (reChar ')') (.opt (.cls phoneSepChar)))))
        (.cat (reRep (.cls isDigitChar) 3) (.cls phoneSepChar)))
      (.cat (reRep (.cls isDigitChar) 3)
        (.cat (.cls phoneSepChar)
          (.cat (reRep (.cls isDigitChar) 4) (.nla isDigitChar)))))

/-- Phone pattern `ukFormat`:
`(?<![0-9])0[1-9][0-9]{2,4}[\s][0-9]{5,6}(?![0-9])`. -/
def PHONE_UK_RE : RE :=
  .cat (.nlb isDigitChar)
    (.cat (reChar '0')
      (.cat (.cls isNonZeroDigit)
        (.cat (reRange (.cls isDigitChar) 2 4)
          (.cat (.cls jsWS)
            (.cat (reRange (.cls isDigitChar) 5 6) (.nla isDigitChar))))))

/-- Phone pattern `french`: `(?<![0-9])0[1-9][0-9]{8}(?![0-9])`. -/
def PHONE_FRENCH_RE : RE :=
  .cat (.nlb isDigitChar)
    (.cat (reChar '0')
      (.cat (.cls isNonZeroDigit)
        (.cat (reRep (.cls isDigitChar) 8) (.nla isDigitChar))))

/-- Phone pattern `frenchFormatted`:
`(?<![0-9])0[1-9](?:[\s.-]?[0-9]{2}){4}(?![0-9])`. -/
def PHONE_FRENCH_FMT_RE : RE :=
  .cat (.nlb isDigitChar)
    (.cat (reChar '0')
      (.cat (.cls isNonZeroDigit)
        (.cat (reRep (.cat (.opt (.cls phoneSepChar))
            (reRep (.cls isDigitChar) 2)) 4)
          (.nla isDigitChar))))

/-- `PHONE_PATTERNS` (src/recognizers/phone.ts), in object order. -/
def PHONE_PATTERNS : List RE :=
  [PHONE_INTERNATIONAL_RE, PHONE_INTERNATIONAL_FMT_RE, PHONE_GERMAN_RE,
   PHONE_GERMAN_PARENS_RE, PHONE_US_RE, PHONE_UK_RE, PHONE_FRENCH_RE,
   PHONE_FRENCH_FMT_RE]

/-- The inner match loop shared by the regex recognizers: each match is
skipped if its `(start, end)` key was already seen (the JS key is the
string `start:end`, equivalent to the pair) or if validation rejects its
text; otherwise the key is recorded and a `SpanMatch` is pushed. -/
def recognizerMatchLoop (ty : PIIType) (conf : ℚ)
    (validate : List Char → Bool) (text : List Char) :
    List (Nat × Nat) → List (Nat × Nat) → List SpanMatch × List (Nat × Nat)
  | [], seen => ([], seen)
  | (st, en) :: ms, seen =>
    if seen.any (fun k => decide (k = (st, en))) then
      recognizerMatchLoop ty conf validate text ms seen
    else if !validate (jsSubstring text st en) then
      recognizerMatchLoop ty conf validate text ms seen
    else
      let rec2 :=
        recognizerMatchLoop ty conf validate text ms ((st, en) :: seen)
      (⟨ty, st, en, conf, .REGEX, jsSubstring text st en⟩ :: rec2.1, rec2.2)

/-- The outer pattern loop of the phone recognizer (the `seen` key set is
shared across patterns). -/
def phonePatternLoop (text : List Char) :
    List RE → List (Nat × Nat) → List SpanMatch
  | [], _ => []
  | p :: ps, seen =>
    let found := recognizerMatchLoop .PHONE (mkRat 9 10) phoneValidate text
      (reMatchAll text p) seen
    found.1 ++ phonePatternLoop text ps found.2

/-- One step of the phone recognizer's `deduplicateOverlapping`: a match
overlapping the previously kept one replaces it only if strictly longer. -/
def phoneDedupStep (result : List SpanMatch) (m : SpanMatch) :
    List SpanMatch :=
  match result.getLast? with
  | some last =>
    if m.start < last.stop then
      if m.stop - m.start > last.stop - last.start then
        result.dropLast ++ [m]
      else result
    else result ++ [m]
  | none => [m]

/-- `deduplicateOverlapping` (src/recognizers/phone.ts): sort by start and
keep the longer of overlapping neighbours. -/
def phoneDedup (ms : List SpanMatch) : List SpanMatch :=
  if ms.length ≤ 1 then ms
  else (jsSortBy (fun a b => decide (a.start ≤ b.start)) ms).foldl
    phoneDedupStep []

/-- `phoneRecognizer.find` (src/recognizers/phone.ts): run all region
patterns, deduplicate by exact offsets, validate, then remove overlaps. -/
def phoneFind (text : List Char) : List SpanMatch :=
  phoneDedup (phonePatternLoop text PHONE_PATTERNS [])

/-- One IPv4 octet `25[0-5]|2[0-4][0-9]|1[0-9]{2}|[1-9][0-9]|[0-9]`. -/
def IPV4_OCTET_RE : RE :=
  .alt (.cat (reStr (strL "25")) (.cls (fun c => decide ('0' ≤ c) && decide (c ≤ '5'))))
    (.alt (.cat (reChar '2')
        (.cat (.cls (fun c => decide ('0' ≤ c) && decide (c ≤ '4'))) (.cls isDigitChar)))
      (.alt (.cat (reChar '1') (.cat (.cls isDigitChar) (.cls isDigitChar)))
        (.alt (.cat (.cls isNonZeroDigit) (.cls isDigitChar))
          (.cls isDigitChar))))

/-- `IPV4_PATTERN` (src/recognizers/ip-address.ts):
`\b(?:(?:octet)\.){3}(?:octet)\b`. -/
def IPV4_RE : RE :=
  .cat .wordB
    (.cat (reRep (.cat IPV4_OCTET_RE (reChar '.')) 3)
      (.cat IPV4_OCTET_RE .wordB))

/-- One IPv6 group `[0-9a-fA-F]{1,4}`. -/
def IPV6_GROUP_RE : RE := reRange (.cls isHexChar) 1 4

/-- The octet form `25[0-5]|2[0-4][0-9]|[01]?[0-9][0-9]?` of the
IPv4-mapped IPv6 pattern. -/
def IPV6_MAPPED_OCTET_RE : RE :=
  .alt (.cat (reStr (strL "25")) (.cls (fun c => decide ('0' ≤ c) && decide (c ≤ '5'))))
    (.alt (.cat (reChar '2')
        (.cat (.cls (fun c => decide ('0' ≤ c) && decide (c ≤ '4'))) (.cls isDigitChar)))
      (.cat (.opt (.cls (fun c => decide (c = '0') || decide (c = '1'))))
        (.cat (.cls isDigitChar) (.opt (.cls isDigitChar)))))

/-- `IPV6_PATTERNS` (src/recognizers/ip-address.ts), in declaration order:
full, compressed (`::`) variants, loopback shorthand, and the IPv4-mapped
form (whose `i` flag only affects the literal `ffff`). -/
def IPV6_PATTERNS : List RE :=
  [.cat .wordB (.cat (reRep (.cat IPV6_GROUP_RE (reChar ':')) 7)
     (.cat IPV6_GROUP_RE .wordB)),
   .cat .wordB (.cat (reRange (.cat IPV6_GROUP_RE (reChar ':')) 1 7)
     (.cat (reChar ':') .wordB)),
   .cat .wordB (.cat (reRange (.cat IPV6_GROUP_RE (reChar ':')) 1 6)
     (.cat (reChar ':') (.cat IPV6_GROUP_RE .wordB))),
   .cat .wordB (.cat (reRange (.cat IPV6_GROUP_RE (reChar ':')) 1 5)
     (.cat (reRange (.cat (reChar ':') IPV6_GROUP_RE) 1 2) .wordB)),
   .cat .wordB (.cat (reRange (.cat IPV6_GROUP_RE (reChar ':')) 1 4)
     (.cat (reRange (.cat (reChar ':') IPV6_GROUP_RE) 1 3) .wordB)),
   .cat .wordB (.cat (reRange (.cat IPV6_GROUP_RE (reChar ':')) 1 3)
     (.cat (reRange (.cat (reChar ':') IPV6_GROUP_RE) 1 4) .wordB)),
   .cat .wordB (.cat (reRange (.cat IPV6_GROUP_RE (reChar ':')) 1 2)
     (.cat (reRange (.cat (reChar ':') IPV6_GROUP_RE) 1 5) .wordB)),
   .cat .wordB (.cat IPV6_GROUP_RE (.cat (reChar ':')
     (.cat (reRange (.cat (reChar ':') IPV6_GROUP_RE) 1 6) .wordB))),
   .cat .wordB (.cat (reStr (strL "::"))
     (.cat (reUpTo (.cat IPV6_GROUP_RE (reChar ':')) 5)
       (.cat IPV6_GROUP_RE .wordB))),
   .cat .wordB (.cat (reStr (strL "::")) .wordB),
   .cat .wordB (.cat (reStrCI (strL "::ffff:"))
     (.cat (reRep (.cat IPV6_MAPPED_OCTET_RE (reChar '.')) 3)
       (.cat IPV6_MAPPED_OCTET_RE .wordB)))]

/-- `ipAddressRecognizer.validate` (src/recognizers/ip-address.ts):
dispatch on the separators present. -/
def ipValidate (ip : List Char) : Bool :=
  if strContains ip '.' && !strContains ip ':' then isValidIPv4 ip
  else if strContains ip ':' then isValidIPv6 ip
  else false

/-- The IPv6 part of the find loop: matches shorter than 3 characters are
skipped, then the shared `seen` key set and `isValidIPv6` filter apply;
accepted matches carry the slightly lower confidence `0.9 * 0.95`. -/
def ipv6MatchLoop (text : List Char) :
    List (Nat × Nat) → List (Nat × Nat) → List SpanMatch × List (Nat × Nat)
  | [], seen => ([], seen)
  | (st, en) :: ms, seen =>
    let ip := jsSubstring text st en
    if ip.length < 3 then ipv6MatchLoop text ms seen
    else if seen.any (fun k => decide (k = (st, en))) then
      ipv6MatchLoop text ms seen
    else if !isValidIPv6 ip then ipv6MatchLoop text ms seen
    else
      let rec2 := ipv6MatchLoop text ms ((st, en) :: seen)
      (⟨.IP_ADDRESS, st, en, mkRat 171 200, .REGEX, ip⟩ ::
        rec2.1, rec2.2)

/-- The IPv6 pattern loop of `ipAddressRecognizer.find`. -/
def ipv6PatternLoop (text : List Char) :
    List RE → List (Nat × Nat) → List SpanMatch
  | [], _ => []
  | p :: ps, seen =>
    let found := ipv6MatchLoop text (reMatchAll text p) seen
    found.1 ++ ipv6PatternLoop text ps found.2

/-- `ipAddressRecognizer.find` (src/recognizers/ip-address.ts): IPv4
matches validated by the dispatching `validate`, then the IPv6 patterns,
with one `seen` key set across all of them. -/
def ipAddressFind (text : List Char) : List SpanMatch :=
  let v4 := recognizerMatchLoop .IP_ADDRESS (mkRat 9 10) ipValidate text
    (reMatchAll text IPV4_RE) []
  v4.1 ++ ipv6PatternLoop text IPV6_PATTERNS v4.2

/-- Modelled from the spec: the PII Vault implementation (AES-256-GCM
encryption of the plaintext map, src `crypto` module) is not part of the
sources here — only its tests are.  Per §4.5 of the specification the
vault is an authenticated symmetric cipher: 256-bit (32-byte) key, a
nonce, and an appended authentication tag that makes any key mismatch or
ciphertext tampering fail closed.  The ideal authentication tag below
binds the exact key, nonce and ciphertext, which is what a sound AEAD
guarantees computationally. -/
structure VaultAuthTag where
  tagKey : List Nat
  tagIv : List Nat
  tagCipher : List Nat
deriving DecidableEq, Repr

/-- Modelled from the spec: the encrypted PII map `{ciphertext, iv,
authTag}` (src/types/index.ts, `EncryptedPIIMap`, with opaque byte
strings). -/
structure EncryptedPIIMap where
  ciphertext : List Nat
  iv : List Nat
  authTag : VaultAuthTag
deriving DecidableEq, Repr

/-- Modelled from the spec: `validateKey` — the key must be exactly 32
bytes. -/
def validateKey (key : List Nat) : Bool := decide (key.length = 32)

/-- The error message thrown for a key of the wrong length. -/
def invalidKeyLengthMsg : List Char :=
  strL "Invalid key length: expected 32 bytes"

/-- The error message thrown when authentication fails. -/
def authFailureMsg : List Char :=
  strL "Authentication failure: key mismatch or tampered ciphertext"

/-- Modelled from the spec: serialization of the plaintext map to bytes
(entries in order, key and value code points separated by newlines). -/
def serializePIIMap (m : List (List Char × List Char)) : List Nat :=
  (m.map (fun p => p.1.map Char.toNat ++ [10] ++ p.2.map Char.toNat ++ [10])).flatten

/-- Modelled from the spec: the keystream cipher of the vault model — byte
`i` is shifted by key byte `i mod 32` plus iv byte `i mod |iv|`, modulo
256 (an invertible stand-in for the AES-CTR keystream of GCM). -/
def vaultCipherBytes (key iv bytes : List Nat) : List Nat :=
  bytes.mapIdx fun i b => (b + key.getD (i % 32) 0 + iv.getD (i % (iv.length + 1)) 0) % 256

/-- Modelled from the spec: `encryptPIIMap` — reject a key that is not
exactly 32 bytes before any cryptographic operation, otherwise encrypt
the serialized map and append the authentication tag. -/
def encryptPIIMap (m : List (List Char × List Char)) (key iv : List Nat) :
    Except (List Char) EncryptedPIIMap :=
  if !validateKey key then .error invalidKeyLengthMsg
  else
    let ciphertext := vaultCipherBytes key iv (serializePIIMap m)
    .ok ⟨ciphertext, iv, ⟨key, iv, ciphertext⟩⟩

/-- Modelled from the spec: `decryptPIIMap` — reject a key that is not
exactly 32 bytes, verify the authentication tag against the presented key,
iv and ciphertext (any mismatch fails closed, never returning plaintext),
then return the decrypted bytes. -/
def decryptPIIMap (e : EncryptedPIIMap) (key : List Nat) :
    Except (List Char) (List Nat) :=
  if !validateKey key then .error invalidKeyLengthMsg
  else if e.authTag ≠ ⟨key, e.iv, e.ciphertext⟩ then .error authFailureMsg
  else
    .ok (e.ciphertext.mapIdx fun i b =>
      (b + 256 - (key.getD (i % 32) 0 + e.iv.getD (i % (e.iv.length + 1)) 0) % 256) % 256)

/-- Segment decomposition of the tagged text: fragments of the original
text interleaved with canonical tags, for spans listed in ascending
position order starting from offset `prev`. -/
def segs (text : List Char) : Nat → List TaggedSpan → List Char
  | prev, [] => text.drop prev
  | prev, e :: rest =>
    (text.drop prev).take (e.start - prev) ++ generateTag e.type e.id ++
      segs text e.stop rest

/-- The raw scan records produced by the first fuzzy pattern on a segment
decomposition: one canonical record per tag, at the accumulated offsets. -/
def canonRecs : List TaggedSpan → Nat → Nat →
    List (List Char × List Char × Nat × List Char)
  | [], _, _ => []
  | e :: rest, prev, pos =>
    (typeName e.type, jsNatToString e.id, pos + (e.start - prev),
      generateTag e.type e.id) ::
      canonRecs rest e.stop
        (pos + (e.start - prev) + (generateTag e.type e.id).length)

/-- The extracted tags corresponding to `canonRecs`. -/
def canonTags : List TaggedSpan → Nat → Nat → List ExtractedTag
  | [], _, _ => []
  | e :: rest, prev, pos =>
    ⟨e.type, e.id, pos + (e.start - prev), generateTag e.type e.id⟩ ::
      canonTags rest e.stop
        (pos + (e.start - prev) + (generateTag e.type e.id).length)

/-- Add a fixed offset to every extracted tag position. -/
def shiftTags (a : Nat) (ts : List ExtractedTag) : List ExtractedTag :=
  ts.map fun t => ⟨t.type, t.id, a + t.position, t.matchedText⟩

/-- The final `seen` map of the ID-assignment loop with reuse enabled
(proof companion of `assignIds true`). -/
def assignSeenT : List SpanMatch → Nat → List (List Char × Nat) →
    List (List Char × Nat)
  | [], _, seen => seen
  | m :: rest, nextId, seen =>
    match mapGet seen (seenTextKey m) with
    | some _ => assignSeenT rest nextId seen
    | none => assignSeenT rest (nextId + 1) (mapSet seen (seenTextKey m) nextId)

/-- The `TYPE:text` key of a tagged span (the same key `assignIds`
computes for the underlying match). -/
def seenTextKeyT (e : TaggedSpan) : List Char :=
  typeName e.type ++ ':' :: e.text

/-! ## Theorems -/

/-- C6: the checksum validators give the exact verdicts of the
specification: `DE89370400440532013000` is a valid IBAN (mod-97 remainder
1) and `DE00000000000000000000` is not; `4111111111111111` passes the
Luhn check and `4111111111111112` fails it. -/
theorem c6_checksum_verdicts :
    validateIBAN (strL "DE89370400440532013000") = true ∧
    validateIBAN (strL "DE00000000000000000000") = false ∧
    validateLuhn (strL "4111111111111111") = true ∧
    validateLuhn (strL "4111111111111112") = false := by decide

/-- C4: a tag mutated to `<pii  id = '1'  type = "EMAIL" />` (attributes
reordered, lower-case tag name, single quotes, extra spaces around `=`) is
still matched by `extractTags` — with the actually matched text recorded —
and default-mode rehydration replaces exactly the matched text's length by
the mapped original value, leaving the surrounding text intact. -/
theorem c4_fuzzy_rehydration :
    extractTags (strL "Contact <pii  id = '1'  type = \"EMAIL\" /> now") =
      [⟨.EMAIL, 1, 8, strL "<pii  id = '1'  type = \"EMAIL\" />"⟩] ∧
    rehydrate (strL "Contact <pii  id = '1'  type = \"EMAIL\" /> now")
      [(strL "EMAIL_1", strL "user@mail.example")] false =
      strL "Contact user@mail.example now" := by decide

/-- C1 (counterexample): the round-trip equation fails as universally
stated.  For a text that itself contains a literal placeholder tag and one
detector-producible email span (in-range, non-empty, text equal to the
slice, trivially non-overlapping), rehydrating the tagged output with the
produced plaintext map also replaces the pre-existing literal tag, so the
result differs from the original text. -/
theorem c1_counterexample :
    (fun (text : List Char) (span : SpanMatch)
         (policy : AnonymizationPolicy) =>
      (span.start < span.stop ∧ span.stop ≤ text.length ∧
        span.text = jsSubstring text span.start span.stop) ∧
      rehydrate (tagEntities text [span] policy).anonymizedText
        (tagEntities text [span] policy).piiMap false ≠ text)
      (strL "a <PII type=\"EMAIL\" id=\"1\"/> b x@y.de")
      ⟨.EMAIL, 31, 37, 1, .REGEX, strL "x@y.de"⟩
      ⟨fun _ => true, fun _ => true, fun _ => true, fun _ => none,
        false, true⟩ := by
  decide

/-- C10 (counterexample): the quadratic pairwise check and the sorted
adjacent-pair check are not equivalent on arbitrary entity lists.  With an
empty span starting at the start of a covering span,
`checkOverlappingEntities` reports nothing (neither pair satisfies
`spansOverlap`) while `hasNoOverlaps` returns `false` (the sorted
neighbours satisfy `prev.end > next.start`). -/
theorem c10_counterexample :
    ¬((checkOverlappingEntities
        [⟨.EMAIL, 1, 0, 1, 1, .REGEX, strL "a"⟩,
         ⟨.EMAIL, 2, 0, 0, 1, .REGEX, strL ""⟩] ≠ []) ↔
      (hasNoOverlaps (fun (e : DetectedEntity) => (e.start, e.stop))
        [⟨.EMAIL, 1, 0, 1, 1, .REGEX, strL "a"⟩,
         ⟨.EMAIL, 2, 0, 0, 1, .REGEX, strL ""⟩] = false)) := by
  decide

/-- C3 (spec-modelled vault): a key that is not exactly 32 bytes (for
example 16 bytes) is rejected with the invalid-key-length error before any
cryptographic operation; decryption with a different 32-byte key than the
one used for encryption fails closed; and flipping any single ciphertext
byte makes decryption fail closed. -/
theorem c3_vault_integrity :
    (∀ (m : List (List Char × List Char)) (key iv : List Nat),
      key.length = 16 →
      encryptPIIMap m key iv = .error invalidKeyLengthMsg) ∧
    (∀ (m : List (List Char × List Char)) (iv k k2 : List Nat)
        (e : EncryptedPIIMap),
      k.length = 32 → k2.length = 32 → k ≠ k2 →
      encryptPIIMap m k iv = .ok e →
      decryptPIIMap e k2 = .error authFailureMsg) ∧
    (∀ (m : List (List Char × List Char)) (iv k : List Nat)
        (e : EncryptedPIIMap) (i b c : Nat),
      k.length = 32 → encryptPIIMap m k iv = .ok e →
      e.ciphertext[i]? = some c → b ≠ c →
      decryptPIIMap ⟨e.ciphertext.set i b, e.iv, e.authTag⟩ k =
        .error authFailureMsg) := by
  refine ⟨?_, ?_, ?_⟩
  · intro m key iv h
    have hk : validateKey key = false := by
      simp [validateKey, h]
    simp [encryptPIIMap, hk]
  · intro m iv k k2 e hk hk2 hne hok
    have hkv : validateKey k = true := by simp [validateKey, hk]
    have hk2v : validateKey k2 = true := by simp [validateKey, hk2]
    have he : e = ⟨vaultCipherBytes k iv (serializePIIMap m), iv,
        ⟨k, iv, vaultCipherBytes k iv (serializePIIMap m)⟩⟩ := by
      simpa [encryptPIIMap, hkv] using hok.symm
    subst he
    have htag : (⟨k, iv, vaultCipherBytes k iv (serializePIIMap m)⟩ :
        VaultAuthTag) ≠
        ⟨k2, iv, vaultCipherBytes k iv (serializePIIMap m)⟩ := by
      intro hcontra
      exact hne (congrArg VaultAuthTag.tagKey hcontra)
    simp [decryptPIIMap, hk2v, htag]
  · intro m iv k e i b c hk hok hget hne
    have hkv : validateKey k = true := by simp [validateKey, hk]
    have he : e = ⟨vaultCipherBytes k iv (serializePIIMap m), iv,
        ⟨k, iv, vaultCipherBytes k iv (serializePIIMap m)⟩⟩ := by
      simpa [encryptPIIMap, hkv] using hok.symm
    subst he
    simp only at hget
    have hlen : i < (vaultCipherBytes k iv (serializePIIMap m)).length :=
      (List.getElem?_eq_some_iff.mp hget).1
    have hcipher : (vaultCipherBytes k iv (serializePIIMap m)).set i b ≠
        vaultCipherBytes k iv (serializePIIMap m) := by
      intro hcontra
      have hgot : ((vaultCipherBytes k iv (serializePIIMap m)).set i b)[i]? =
          some b := List.getElem?_set_self hlen
      rw [hcontra, hget] at hgot
      exact hne (Option.some.inj hgot).symm
    have htag : (⟨k, iv, vaultCipherBytes k iv (serializePIIMap m)⟩ :
        VaultAuthTag) ≠
        ⟨k, iv, (vaultCipherBytes k iv (serializePIIMap m)).set i b⟩ := by
      intro hcontra
      exact hcipher (congrArg VaultAuthTag.tagCipher hcontra).symm
    simp [decryptPIIMap, hkv, htag]

/-- Witness for C3: concrete instances of the three vault guarantees. -/
theorem c3_vault_integrity_witness :
    encryptPIIMap [(strL "A", strL "B")] (List.replicate 16 0) [7] =
      .error invalidKeyLengthMsg ∧
    decryptPIIMap
      ⟨[72, 10, 73, 10], [7],
        ⟨List.replicate 32 0, [7], [72, 10, 73, 10]⟩⟩
      (1 :: List.replicate 31 0) = .error authFailureMsg ∧
    decryptPIIMap
      ⟨[99, 10, 73, 10], [7],
        ⟨List.replicate 32 0, [7], [72, 10, 73, 10]⟩⟩
      (List.replicate 32 0) = .error authFailureMsg := by
  refine ⟨c3_vault_integrity.1 [(strL "A", strL "B")] _ [7] (by decide),
    ?_, ?_⟩
  · exact c3_vault_integrity.2.1 [(strL "A", strL "B")] [7]
      (List.replicate 32 0) (1 :: List.replicate 31 0) _
      (by decide) (by decide) (by decide) (by rfl)
  · have h := c3_vault_integrity.2.2 [(strL "A", strL "B")] [7]
      (List.replicate 32 0)
      ⟨[72, 10, 73, 10], [7], ⟨List.replicate 32 0, [7], [72, 10, 73, 10]⟩⟩
      0 99 72 (by decide) (by rfl) (by decide) (by decide)
    simpa using h

/-- Soundness of the octet loop of `isValidIPv4`: if it returns `true`,
every part parses to a value in `[0, 255]` without a forbidden leading
zero, and either the incoming flag was already set or some part parses to
a value above 9. -/
theorem ipv4CheckParts_true (l : List (List Char)) :
    ∀ acc, ipv4CheckParts l acc = true →
      ((∀ p ∈ l, ∃ n : Int, jsParseInt p = some n ∧ 0 ≤ n ∧ n ≤ 255 ∧
          ¬(p.length > 1 ∧ p.head? = some '0')) ∧
       (acc = true ∨ ∃ p ∈ l, ∃ n : Int, jsParseInt p = some n ∧ 9 < n)) := by
  induction l with
  | nil =>
    intro acc h
    exact ⟨by simp, Or.inl (by simpa [ipv4CheckParts] using h)⟩
  | cons p rest ih =>
    intro acc h
    cases hp : jsParseInt p with
    | none => simp [ipv4CheckParts, hp] at h
    | some n =>
      simp only [ipv4CheckParts, hp] at h
      by_cases h1 : n < 0 ∨ n > 255
      · rw [if_pos h1] at h; exact absurd h (by simp)
      · rw [if_neg h1] at h
        by_cases h2 : p.length > 1 ∧ p.head? = some '0'
        · rw [if_pos h2] at h; exact absurd h (by simp)
        · rw [if_neg h2] at h
          obtain ⟨hall, hlarge⟩ := ih _ h
          push_neg at h1
          refine ⟨?_, ?_⟩
          · intro q hq
            rcases List.mem_cons.mp hq with rfl | hq2
            · exact ⟨n, hp, h1.1, h1.2, h2⟩
            · exact hall q hq2
          · rcases hlarge with hacc | ⟨q, hq, n2, hpq, hn2⟩
            · rcases (by simpa using hacc :
                  acc = true ∨ decide ((9 : Int) < n) = true) with ha | hn9
              · exact Or.inl ha
              · exact Or.inr ⟨p, List.mem_cons_self p rest, n, hp,
                  of_decide_eq_true hn9⟩
            · exact Or.inr ⟨q, List.mem_cons_of_mem p hq, n2, hpq, hn2⟩

/-- C8: the IPv4 recognizer accepts a candidate only if it splits into
exactly four dot-separated parts, each parsing to a value in `[0, 255]`
with no leading zero on a multi-character part, and with at least one part
whose value exceeds 9; consequently the IP recognizer's `find` returns no
match at all on the dotted version string `"Version 1.2.3.4 released"`. -/
theorem c8_ip_guard :
    (∀ ip : List Char, isValidIPv4 ip = true →
      ((jsSplitOnChar '.' ip).length = 4 ∧
       (∀ p ∈ jsSplitOnChar '.' ip, ∃ n : Int, jsParseInt p = some n ∧
          0 ≤ n ∧ n ≤ 255 ∧ ¬(p.length > 1 ∧ p.head? = some '0')) ∧
       (∃ p ∈ jsSplitOnChar '.' ip, ∃ n : Int,
          jsParseInt p = some n ∧ 9 < n))) ∧
    ipAddressFind (strL "Version 1.2.3.4 released") = [] := by
  constructor
  · intro ip h
    simp only [isValidIPv4] at h
    by_cases hl : (jsSplitOnChar '.' ip).length ≠ 4
    · rw [if_pos hl] at h; exact absurd h (by simp)
    · rw [if_neg hl] at h
      push_neg at hl
      obtain ⟨hall, hlarge⟩ := ipv4CheckParts_true _ _ h
      refine ⟨hl, hall, ?_⟩
      rcases hlarge with hfalse | hex
      · exact absurd hfalse (by simp)
      · exact hex
  · decide

/-- Witness for C8: the accepted dotted quad `10.1.2.3` satisfies all the
structural conditions. -/
theorem c8_ip_guard_witness :
    isValidIPv4 (strL "10.1.2.3") = true ∧
    ((jsSplitOnChar '.' (strL "10.1.2.3")).length = 4 ∧
     (∀ p ∈ jsSplitOnChar '.' (strL "10.1.2.3"), ∃ n : Int,
        jsParseInt p = some n ∧ 0 ≤ n ∧ n ≤ 255 ∧
        ¬(p.length > 1 ∧ p.head? = some '0')) ∧
     (∃ p ∈ jsSplitOnChar '.' (strL "10.1.2.3"), ∃ n : Int,
        jsParseInt p = some n ∧ 9 < n)) :=
  ⟨by decide, c8_ip_guard.1 (strL "10.1.2.3") (by decide)⟩

/-- C7: with leak scan enabled (and the EMAIL category enabled), validating
the anonymized text `"Contact support or test@example.com for help"` with
an empty entity list yields `leakScanPassed = false` and exactly one
potential-leak record, of type EMAIL, for the untagged address at
position 19. -/
theorem c7_leak_scan (policy : AnonymizationPolicy)
    (hscan : policy.enableLeakScan = true)
    (hmail : policy.enabledTypes .EMAIL = true) :
    (validateOutput (strL "Contact support or test@example.com for help")
      [] [] policy).leakScanPassed = some false ∧
    (validateOutput (strL "Contact support or test@example.com for help")
      [] [] policy).potentialLeaks =
      some [⟨.EMAIL, strL "test@example.com", 19, strL "Email"⟩] := by
  have htxt : jsReplaceAll TAG_STRIP_RE
      (strL "Contact support or test@example.com for help")
      (List.replicate 20 ' ') =
      strL "Contact support or test@example.com for help" := by decide
  have hEmailM : reMatchAll
      (strL "Contact support or test@example.com for help") LEAK_EMAIL_RE =
      [(19, 35)] := by decide
  have hPhoneM : reMatchAll
      (strL "Contact support or test@example.com for help") LEAK_PHONE_RE =
      [] := by decide
  have hIbanM : reMatchAll
      (strL "Contact support or test@example.com for help") LEAK_IBAN_RE =
      [] := by decide
  have hCardM : reMatchAll
      (strL "Contact support or test@example.com for help") LEAK_CARD_RE =
      [] := by decide
  have hIpM : reMatchAll
      (strL "Contact support or test@example.com for help") LEAK_IP_RE =
      [] := by decide
  have hInside : isPositionInsideTag
      (strL "Contact support or test@example.com for help") 19 = false := by
    decide
  have hSub : jsSubstring
      (strL "Contact support or test@example.com for help") 19 35 =
      strL "test@example.com" := by decide
  have hleaks : performLeakScan
      (strL "Contact support or test@example.com for help") policy =
      [⟨.EMAIL, strL "test@example.com", 19, strL "Email"⟩] := by
    simp only [performLeakScan]
    rw [htxt]
    cases hP : policy.enabledTypes .PHONE <;>
      cases hI : policy.enabledTypes .IBAN <;>
        cases hC : policy.enabledTypes .CREDIT_CARD <;>
          cases hA : policy.enabledTypes .IP_ADDRESS <;>
            simp [LEAK_SCAN_PATTERNS, hmail, hP, hI,
              hC, hA, hEmailM, hPhoneM, hIbanM, hCardM, hIpM, hInside, hSub]
  constructor
  · simp [validateOutput, hscan, hleaks]
  · simp [validateOutput, hscan, hleaks]

/-- Witness for C7: the concrete everything-enabled policy. -/
theorem c7_leak_scan_witness :
    (validateOutput (strL "Contact support or test@example.com for help")
      [] []
      ⟨fun _ => true, fun _ => true, fun _ => true, fun _ => none,
        false, true⟩).leakScanPassed = some false ∧
    (validateOutput (strL "Contact support or test@example.com for help")
      [] []
      ⟨fun _ => true, fun _ => true, fun _ => true, fun _ => none,
        false, true⟩).potentialLeaks =
      some [⟨.EMAIL, strL "test@example.com", 19, strL "Email"⟩] :=
  c7_leak_scan
    ⟨fun _ => true, fun _ => true, fun _ => true, fun _ => none,
      false, true⟩ rfl rfl

/-- Inserting stably is a permutation of consing. -/
theorem stableInsert_perm {α : Type} (le : α → α → Bool) (x : α) :
    ∀ l : List α, List.Perm (stableInsert le x l) (x :: l) := by
  intro l
  induction l with
  | nil => simp [stableInsert]
  | cons y ys ih =>
    by_cases h : le x y
    · simp [stableInsert, h]
    · simp only [stableInsert, h, if_false]
      exact (ih.cons y).trans (List.Perm.swap x y ys)

/-- The JS sort permutes its input. -/
theorem jsSortBy_perm {α : Type} (le : α → α → Bool) :
    ∀ l : List α, List.Perm (jsSortBy le l) l := by
  intro l
  induction l with
  | nil => simp [jsSortBy]
  | cons x xs ih =>
    exact (stableInsert_perm le x (jsSortBy le xs)).trans (ih.cons x)

/-- Membership after stable insertion. -/
theorem stableInsert_mem {α : Type} {le : α → α → Bool} {x a : α}
    {l : List α} (h : a ∈ stableInsert le x l) : a = x ∨ a ∈ l := by
  have := (stableInsert_perm le x l).mem_iff.mp h
  simpa using this

/-- Stable insertion into a sorted list keeps it sorted (for a total and
transitive comparator). -/
theorem stableInsert_sorted {α : Type} {le : α → α → Bool}
    (htot : ∀ a b, le a b = true ∨ le b a = true)
    (htrans : ∀ a b c, le a b = true → le b c = true → le a c = true)
    (x : α) :
    ∀ l : List α, List.Pairwise (fun a b => le a b = true) l →
      List.Pairwise (fun a b => le a b = true) (stableInsert le x l) := by
  intro l
  induction l with
  | nil => intro _; simp [stableInsert]
  | cons y ys ih =>
    intro hp
    rcases List.pairwise_cons.mp hp with ⟨hy, hys⟩
    by_cases h : le x y
    · simp only [stableInsert, h, if_true]
      refine List.pairwise_cons.mpr ⟨?_, hp⟩
      intro b hb
      rcases List.mem_cons.mp hb with rfl | hb2
      · exact h
      · exact htrans x y b h (hy b hb2)
    · simp only [stableInsert, h, if_false]
      refine List.pairwise_cons.mpr ⟨?_, ih hys⟩
      intro b hb
      rcases stableInsert_mem hb with rfl | hb2
      · rcases htot y b with hyb | hby
        · exact hyb
        · exact absurd hby (by simpa using h)
      · exact hy b hb2

/-- The JS sort sorts (for a total and transitive comparator). -/
theorem jsSortBy_sorted {α : Type} {le : α → α → Bool}
    (htot : ∀ a b, le a b = true ∨ le b a = true)
    (htrans : ∀ a b c, le a b = true → le b c = true → le a c = true) :
    ∀ l : List α, List.Pairwise (fun a b => le a b = true) (jsSortBy le l) := by
  intro l
  induction l with
  | nil => simp [jsSortBy]
  | cons x xs ih => exact stableInsert_sorted htot htrans x _ ih

/-- Sorting an already-sorted list is the identity (stability). -/
theorem jsSortBy_of_sorted {α : Type} {le : α → α → Bool} :
    ∀ {l : List α}, List.Pairwise (fun a b => le a b = true) l →
      jsSortBy le l = l := by
  intro l
  induction l with
  | nil => intro _; rfl
  | cons x xs ih =>
    intro hp
    rcases List.pairwise_cons.mp hp with ⟨hx, hxs⟩
    rw [jsSortBy, ih hxs]
    cases xs with
    | nil => rfl
    | cons y ys =>
      have : le x y = true := hx y (List.mem_cons_self y ys)
      simp [stableInsert, this]

/-- Insertion of an element below everything goes to the end. -/
theorem stableInsert_eq_append {α : Type} {le : α → α → Bool} {x : α} :
    ∀ {l : List α}, (∀ y ∈ l, le x y = false) →
      stableInsert le x l = l ++ [x] := by
  intro l
  induction l with
  | nil => intro _; rfl
  | cons y ys ih =>
    intro h
    have hy : le x y = false := h y (List.mem_cons_self y ys)
    simp only [stableInsert, hy, Bool.false_eq_true, if_false, List.cons_append,
      List.cons.injEq, true_and]
    exact ih (fun z hz => h z (List.mem_cons_of_mem y hz))

/-- Sorting a list that is strictly "descending" for the comparator (every
earlier element compares `false` against every later one) reverses it. -/
theorem jsSortBy_eq_reverse {α : Type} {le : α → α → Bool} :
    ∀ {l : List α}, List.Pairwise (fun a b => le a b = false) l →
      jsSortBy le l = l.reverse := by
  intro l
  induction l with
  | nil => intro _; rfl
  | cons x xs ih =>
    intro hp
    rcases List.pairwise_cons.mp hp with ⟨hx, hxs⟩
    rw [jsSortBy, ih hxs, stableInsert_eq_append, List.reverse_cons]
    intro y hy
    exact hx y (List.mem_reverse.mp hy)

/-- Totality of the position comparator. -/
theorem spanPosLE_total {α : Type} (key : α → Nat × Nat) :
    ∀ a b, spanPosLE key a b = true ∨ spanPosLE key b a = true := by
  intro a b
  simp only [spanPosLE, spanLength, Bool.or_eq_true, Bool.and_eq_true,
    decide_eq_true_iff]
  omega

/-- Transitivity of the position comparator. -/
theorem spanPosLE_trans {α : Type} (key : α → Nat × Nat) :
    ∀ a b c, spanPosLE key a b = true → spanPosLE key b c = true →
      spanPosLE key a c = true := by
  intro a b c
  simp only [spanPosLE, spanLength, Bool.or_eq_true, Bool.and_eq_true,
    decide_eq_true_iff]
  omega

/-- With ID reuse disabled, the assignment loop hands out exactly the
consecutive ids starting at the counter. -/
theorem assignIds_false_map_id :
    ∀ (l : List SpanMatch) (n : Nat) (s : List (List Char × Nat)),
      (assignIds false l n s).map (fun e => e.id) = List.range' n l.length := by
  intro l
  induction l with
  | nil => intro n s; rfl
  | cons m rest ih =>
    intro n s
    simp only [assignIds, Bool.false_eq_true, if_false, List.map_cons,
      List.length_cons, List.range'_succ, withId]
    rw [ih (n + 1) s]

/-- With ID reuse disabled, the assignment loop preserves the span
offsets, in order. -/
theorem assignIds_false_map_key :
    ∀ (l : List SpanMatch) (n : Nat) (s : List (List Char × Nat)),
      (assignIds false l n s).map (fun e => (e.start, e.stop)) =
        l.map (fun m => (m.start, m.stop)) := by
  intro l
  induction l with
  | nil => intro n s; rfl
  | cons m rest ih =>
    intro n s
    simp only [assignIds, Bool.false_eq_true, if_false, List.map_cons, withId]
    rw [ih (n + 1) s]

/-- C5: with ID reuse disabled, the entity list returned by `tagEntities`
(sorted ascending by position) carries exactly the ids `1, 2, ..., n`. -/
theorem c5_id_monotonic (text : List Char) (spans : List SpanMatch)
    (policy : AnonymizationPolicy)
    (h : policy.reuseIdsForRepeatedPII = false) :
    (tagEntities text spans policy).entities.map (fun e => e.id) =
      List.range' 1 spans.length := by
  by_cases h0 : spans.length = 0
  · rw [List.length_eq_zero] at h0
    subst h0
    rfl
  · simp only [tagEntities, h0, if_false, h]
    set sortedAscending :=
      sortSpansByPosition (fun m => (m.start, m.stop)) spans with hsa
    set ews := assignIds false sortedAscending 1 [] with hews
    have hsorted : List.Pairwise
        (fun a b => spanPosLE (fun m : SpanMatch => (m.start, m.stop)) a b = true)
        sortedAscending :=
      jsSortBy_sorted (spanPosLE_total _) (spanPosLE_trans _) spans
    have hkeys : ews.map (fun e => (e.start, e.stop)) =
        sortedAscending.map (fun m => (m.start, m.stop)) :=
      assignIds_false_map_key sortedAscending 1 []
    have hsorted2 : List.Pairwise
        (fun a b => spanPosLE (fun e : DetectedEntity => (e.start, e.stop)) a b = true)
        (ews.map toDetectedEntity) := by
      rw [List.pairwise_map]
      have : List.Pairwise
          (fun p q : Nat × Nat => spanPosLE id p q = true)
          (ews.map (fun e => (e.start, e.stop))) := by
        rw [hkeys, List.pairwise_map]
        exact hsorted.imp (fun hab => hab)
      rw [List.pairwise_map] at this
      exact this.imp (fun hab => hab)
    rw [show sortSpansByPosition (fun e : DetectedEntity => (e.start, e.stop))
        (ews.map toDetectedEntity) = ews.map toDetectedEntity from
      jsSortBy_of_sorted hsorted2]
    rw [List.map_map]
    have hid : (ews.map (fun e => e.id)) = List.range' 1 sortedAscending.length :=
      assignIds_false_map_id sortedAscending 1 []
    have hlen : sortedAscending.length = spans.length :=
      (jsSortBy_perm _ spans).length_eq
    rw [show ((fun e : DetectedEntity => e.id) ∘ toDetectedEntity) =
        (fun e : TaggedSpan => e.id) from rfl]
    rw [hid, hlen]

/-- Witness for C5: three spans with reuse disabled get ids `[1, 2, 3]`. -/
theorem c5_id_monotonic_witness :
    (tagEntities (strL "a@b.cc d@e.ff g@h.ii")
      [⟨.EMAIL, 0, 6, 1, .REGEX, strL "a@b.cc"⟩,
       ⟨.EMAIL, 7, 13, 1, .REGEX, strL "d@e.ff"⟩,
       ⟨.EMAIL, 14, 20, 1, .REGEX, strL "g@h.ii"⟩]
      ⟨fun _ => true, fun _ => true, fun _ => true, fun _ => none,
        false, true⟩).entities.map (fun e => e.id) = List.range' 1 3 :=
  c5_id_monotonic (strL "a@b.cc d@e.ff g@h.ii")
    [⟨.EMAIL, 0, 6, 1, .REGEX, strL "a@b.cc"⟩,
     ⟨.EMAIL, 7, 13, 1, .REGEX, strL "d@e.ff"⟩,
     ⟨.EMAIL, 14, 20, 1, .REGEX, strL "g@h.ii"⟩]
    ⟨fun _ => true, fun _ => true, fun _ => true, fun _ => none,
      false, true⟩ rfl

/-- Overlap is symmetric. -/
theorem spansOverlap_symm (a b : Nat × Nat) :
    spansOverlap a b = spansOverlap b a := by
  simp only [spansOverlap]
  exact Bool.and_comm _ _

/-- Two spans overlapping a common span that starts no earlier than either
of them overlap each other (this also covers empty spans). -/
theorem spansOverlap_common (a b n : Nat × Nat)
    (ha : a.1 ≤ n.1) (hb : b.1 ≤ n.1)
    (h1 : spansOverlap a n = true) (h2 : spansOverlap b n = true) :
    spansOverlap a b = true := by
  simp only [spansOverlap, Bool.and_eq_true, decide_eq_true_iff] at *
  omega

/-- Comparing `≤` on start positions follows from the position comparator. -/
theorem spanPosLE_start_le {α : Type} {key : α → Nat × Nat} {a b : α}
    (h : spanPosLE key a b = true) : (key a).1 ≤ (key b).1 := by
  simp only [spanPosLE, spanLength, Bool.or_eq_true, Bool.and_eq_true,
    decide_eq_true_iff] at h
  omega

/-- Behaviour of the accepted-list walk when it lets the candidate in:
under the invariant that the accepted spans are pairwise non-overlapping
and all start no later than the candidate, the returned list is a subset
of the accepted spans, stays pairwise non-overlapping, and none of its
members overlaps the candidate. -/
theorem resolveAgainst_some {prefer : SpanMatch → SpanMatch → Int}
    {span : SpanMatch} :
    ∀ {result r : List SpanMatch},
      List.Pairwise (fun a b =>
        spansOverlap (a.start, a.stop) (b.start, b.stop) = false) result →
      (∀ a ∈ result, a.start ≤ span.start) →
      resolveAgainst prefer span result = some r →
      (∀ a ∈ r, a ∈ result) ∧
      List.Pairwise (fun a b =>
        spansOverlap (a.start, a.stop) (b.start, b.stop) = false) r ∧
      (∀ a ∈ r,
        spansOverlap (span.start, span.stop) (a.start, a.stop) = false) := by
  intro result
  induction result with
  | nil =>
    intro r _ _ h
    simp only [resolveAgainst, Option.some.injEq] at h
    subst h
    exact ⟨by simp, List.Pairwise.nil, by simp⟩
  | cons existing rest ih =>
    intro r hpair hst h
    rcases List.pairwise_cons.mp hpair with ⟨hex, hrest⟩
    by_cases hov : spansOverlap (span.start, span.stop)
        (existing.start, existing.stop) = true
    · rw [resolveAgainst, if_pos hov] at h
      by_cases hpref : prefer span existing > 0
      · rw [if_pos hpref] at h
        rcases Option.some.inj h with rfl
        refine ⟨fun a ha => List.mem_cons_of_mem existing ha, hrest, ?_⟩
        intro a ha
        by_contra hcon
        have hova : spansOverlap (span.start, span.stop)
            (a.start, a.stop) = true := by
          cases hq : spansOverlap (span.start, span.stop) (a.start, a.stop)
          · exact absurd hq hcon
          · rfl
        have : spansOverlap (existing.start, existing.stop)
            (a.start, a.stop) = true := by
          refine spansOverlap_common (existing.start, existing.stop)
            (a.start, a.stop) (span.start, span.stop) ?_ ?_ ?_ ?_
          · exact hst existing (List.mem_cons_self existing rest)
          · exact hst a (List.mem_cons_of_mem existing ha)
          · rw [spansOverlap_symm]; exact hov
          · rw [spansOverlap_symm]; exact hova
        rw [hex a ha] at this
        exact Bool.noConfusion this
      · rw [if_neg hpref] at h
        exact Option.noConfusion h
    · have hov2 : spansOverlap (span.start, span.stop)
          (existing.start, existing.stop) = false := by
        cases hq : spansOverlap (span.start, span.stop)
            (existing.start, existing.stop)
        · rfl
        · exact absurd hq hov
      rw [resolveAgainst, if_neg hov] at h
      cases hrec : resolveAgainst prefer span rest with
      | none => rw [hrec] at h; exact Option.noConfusion h
      | some r2 =>
        rw [hrec] at h
        have h2 : existing :: r2 = r := by
          simpa using h
        subst h2
        obtain ⟨hmem, hpair2, hnov⟩ := ih hrest
          (fun a ha => hst a (List.mem_cons_of_mem existing ha)) hrec
        refine ⟨?_, ?_, ?_⟩
        · intro a ha
          rcases List.mem_cons.mp ha with rfl | ha2
          · exact List.mem_cons_self a rest
          · exact List.mem_cons_of_mem existing (hmem a ha2)
        · refine List.pairwise_cons.mpr ⟨?_, hpair2⟩
          intro b hb
          exact hex b (hmem b hb)
        · intro a ha
          rcases List.mem_cons.mp ha with rfl | ha2
          · exact hov2
          · exact hnov a ha2

/-- One resolver step preserves pairwise non-overlap, and only ever keeps
old accepted spans or adds the candidate. -/
theorem resolveStep_inv {prefer : SpanMatch → SpanMatch → Int}
    {result : List SpanMatch} {span : SpanMatch}
    (hpair : List.Pairwise (fun a b =>
      spansOverlap (a.start, a.stop) (b.start, b.stop) = false) result)
    (hst : ∀ a ∈ result, a.start ≤ span.start) :
    List.Pairwise (fun a b =>
      spansOverlap (a.start, a.stop) (b.start, b.stop) = false)
      (resolveStep prefer result span) ∧
    (∀ a ∈ resolveStep prefer result span, a ∈ result ∨ a = span) := by
  unfold resolveStep
  cases h : resolveAgainst prefer span result with
  | none => exact ⟨hpair, fun a ha => Or.inl ha⟩
  | some r =>
    obtain ⟨hmem, hpair2, hnov⟩ := resolveAgainst_some hpair hst h
    constructor
    · rw [List.pairwise_append]
      refine ⟨hpair2, List.pairwise_singleton _ _, ?_⟩
      intro a ha b hb
      rcases List.mem_singleton.mp hb with rfl
      rw [spansOverlap_symm]
      exact hnov a ha
    · intro a ha
      rcases List.mem_append.mp ha with ha2 | ha2
      · exact Or.inl (hmem a ha2)
      · exact Or.inr (List.mem_singleton.mp ha2)

/-- The fold of resolver steps over a position-sorted candidate list keeps
the accepted set pairwise non-overlapping. -/
theorem resolveFold_inv (prefer : SpanMatch → SpanMatch → Int) :
    ∀ (l result : List SpanMatch),
      List.Pairwise (fun a b =>
        spanPosLE (fun m : SpanMatch => (m.start, m.stop)) a b = true) l →
      List.Pairwise (fun a b =>
        spansOverlap (a.start, a.stop) (b.start, b.stop) = false) result →
      (∀ a ∈ result, ∀ s ∈ l, a.start ≤ s.start) →
      List.Pairwise (fun a b =>
        spansOverlap (a.start, a.stop) (b.start, b.stop) = false)
        (l.foldl (resolveStep prefer) result) := by
  intro l
  induction l with
  | nil => intro result _ hpair _; exact hpair
  | cons s rest ih =>
    intro result hsorted hpair hstart
    rcases List.pairwise_cons.mp hsorted with ⟨hs, hrest⟩
    have hstep := @resolveStep_inv prefer result s hpair
      (fun a ha => hstart a ha s (List.mem_cons_self s rest))
    rw [List.foldl_cons]
    refine ih (resolveStep prefer result s) hrest hstep.1 ?_
    intro a ha t ht
    rcases hstep.2 a ha with ha2 | rfl
    · exact hstart a ha2 t (List.mem_cons_of_mem s ht)
    · exact spanPosLE_start_le (hs t ht)

/-- C2: for every candidate list and every preference comparator, the
output of `removeOverlappingSpans` is pairwise non-overlapping. -/
theorem c2_resolver_nonoverlap (spans : List SpanMatch)
    (prefer : SpanMatch → SpanMatch → Int) :
    List.Pairwise (fun a b =>
      spansOverlap (a.start, a.stop) (b.start, b.stop) = false)
      (removeOverlappingSpans spans prefer) := by
  unfold removeOverlappingSpans
  by_cases h0 : spans.length = 0
  · rw [if_pos h0]; exact List.Pairwise.nil
  · rw [if_neg h0]
    have hsorted : List.Pairwise
        (fun a b => spanPosLE (fun m : SpanMatch => (m.start, m.stop)) a b = true)
        (sortSpansByPosition (fun m => (m.start, m.stop)) spans) :=
      jsSortBy_sorted (spanPosLE_total _) (spanPosLE_trans _) spans
    have hfold := resolveFold_inv prefer
      (sortSpansByPosition (fun m => (m.start, m.stop)) spans) []
      hsorted List.Pairwise.nil (by simp)
    have hsymm : Symmetric (fun a b : SpanMatch =>
        spansOverlap (a.start, a.stop) (b.start, b.stop) = false) := by
      intro a b hab
      rw [spansOverlap_symm]
      exact hab
    exact ((jsSortBy_perm _ _).pairwise_iff (fun hab => hsymm hab)).mpr hfold

/-- The quadratic check reports nothing exactly when the list is pairwise
non-overlapping. -/
theorem checkOverlappingEntities_eq_nil :
    ∀ l : List DetectedEntity,
      checkOverlappingEntities l = [] ↔
      List.Pairwise (fun a b =>
        spansOverlap (a.start, a.stop) (b.start, b.stop) = false) l := by
  intro l
  induction l with
  | nil => simp [checkOverlappingEntities]
  | cons a rest ih =>
    rw [checkOverlappingEntities, List.append_eq_nil, List.pairwise_cons]
    constructor
    · rintro ⟨h1, h2⟩
      refine ⟨?_, ih.mp h2⟩
      intro b hb
      by_contra hcon
      have hov : spansOverlap (a.start, a.stop) (b.start, b.stop) = true := by
        cases hq : spansOverlap (a.start, a.stop) (b.start, b.stop)
        · exact absurd hq hcon
        · rfl
      have : (⟨.OVERLAPPING_ENTITIES, overlapErrMsg a b⟩ : ValidationError) ∈
          overlapErrorsFor a rest := by
        apply List.mem_filterMap.mpr
        exact ⟨b, hb, by rw [if_pos hov]⟩
      rw [h1] at this
      exact absurd this (List.not_mem_nil _)
    · rintro ⟨h1, h2⟩
      refine ⟨?_, ih.mpr h2⟩
      apply List.eq_nil_iff_forall_not_mem.mpr
      intro err herr
      rcases List.mem_filterMap.mp herr with ⟨b, hb, hbf⟩
      rw [h1 b hb] at hbf
      simp at hbf

/-- The adjacent-pair loop succeeds exactly on separation chains. -/
theorem adjacentNoOverlap_iff {α : Type} (key : α → Nat × Nat) :
    ∀ l : List α, adjacentNoOverlap key l = true ↔
      List.Chain' (fun a b => (key a).2 ≤ (key b).1) l
  | [] => by simp [adjacentNoOverlap]
  | [a] => by simp [adjacentNoOverlap]
  | a :: b :: rest => by
    rw [adjacentNoOverlap]
    by_cases h : (key a).2 > (key b).1
    · rw [if_pos h]
      simp only [List.chain'_cons, Bool.false_eq_true, false_iff, not_and]
      intro hab
      omega
    · rw [if_neg h, adjacentNoOverlap_iff key (b :: rest), List.chain'_cons]
      constructor
      · intro hch
        exact ⟨by omega, hch⟩
      · intro hch
        exact hch.2

/-- A separation chain of non-empty spans is a separation pairwise. -/
theorem chain_sep_pairwise {α : Type} (key : α → Nat × Nat) :
    ∀ l : List α, (∀ e ∈ l, (key e).1 < (key e).2) →
      List.Chain' (fun a b => (key a).2 ≤ (key b).1) l →
      List.Pairwise (fun a b => (key a).2 ≤ (key b).1) l := by
  intro l
  induction l with
  | nil => intro _ _; exact List.Pairwise.nil
  | cons a rest ih =>
    intro hne hch
    rcases List.chain'_cons'.mp hch with ⟨hhead, hrest⟩
    have hp := ih (fun e he => hne e (List.mem_cons_of_mem a he)) hrest
    refine List.pairwise_cons.mpr ⟨?_, hp⟩
    intro b hb
    cases rest with
    | nil => exact absurd hb (List.not_mem_nil b)
    | cons hd t =>
      have hah : (key a).2 ≤ (key hd).1 := hhead hd rfl
      rcases List.mem_cons.mp hb with rfl | hbt
      · exact hah
      · have h1 : (key hd).2 ≤ (key b).1 := (List.pairwise_cons.mp hp).1 b hbt
        have h2 : (key hd).1 < (key hd).2 :=
          hne hd (List.mem_cons_of_mem a (List.mem_cons_self hd t))
        omega

/-- A start-sorted, pairwise non-overlapping list of non-empty spans is a
separation pairwise. -/
theorem pairwise_nonov_sep {α : Type} (key : α → Nat × Nat) :
    ∀ l : List α, (∀ e ∈ l, (key e).1 < (key e).2) →
      List.Pairwise (fun a b => (key a).1 ≤ (key b).1) l →
      List.Pairwise (fun a b => spansOverlap (key a) (key b) = false) l →
      List.Pairwise (fun a b => (key a).2 ≤ (key b).1) l := by
  intro l
  induction l with
  | nil => intro _ _ _; exact List.Pairwise.nil
  | cons a rest ih =>
    intro hne hsort hnov
    rcases List.pairwise_cons.mp hsort with ⟨hsa, hsrest⟩
    rcases List.pairwise_cons.mp hnov with ⟨hna, hnrest⟩
    refine List.pairwise_cons.mpr ⟨?_,
      ih (fun e he => hne e (List.mem_cons_of_mem a he)) hsrest hnrest⟩
    intro b hb
    have h1 := hsa b hb
    have h2 := hna b hb
    have h3 : (key b).1 < (key b).2 := hne b (List.mem_cons_of_mem a hb)
    simp only [spansOverlap, Bool.and_eq_false_iff, decide_eq_false_iff_not,
      not_lt] at h2
    rcases h2 with h2 | h2 <;> omega

/-- Separation implies non-overlap. -/
theorem sep_nonov {α : Type} (key : α → Nat × Nat) {a b : α}
    (h : (key a).2 ≤ (key b).1) : spansOverlap (key a) (key b) = false := by
  simp only [spansOverlap, Bool.and_eq_false_iff, decide_eq_false_iff_not,
    not_lt]
  omega

/-- C10 (amended): on lists whose entities all have non-empty spans
(start < end), the quadratic pairwise check `checkOverlappingEntities`
reports at least one error exactly when the fast sorted adjacent-pair
check `hasNoOverlaps` returns false. -/
theorem c10_amended (entities : List DetectedEntity)
    (hne : ∀ e ∈ entities, e.start < e.stop) :
    (checkOverlappingEntities entities ≠ [] ↔
      hasNoOverlaps (fun e => (e.start, e.stop)) entities = false) := by
  have hmain : checkOverlappingEntities entities = [] ↔
      hasNoOverlaps (fun e => (e.start, e.stop)) entities = true := by
    unfold hasNoOverlaps
    by_cases hlen : entities.length ≤ 1
    · rw [if_pos hlen]
      simp only [iff_true]
      match entities, hlen with
      | [], _ => rfl
      | [a], _ => rfl
    · rw [if_neg hlen]
      rw [checkOverlappingEntities_eq_nil, adjacentNoOverlap_iff]
      set le := fun a b : DetectedEntity => decide (a.start ≤ b.start) with hle
      have hperm := jsSortBy_perm le entities
      have hsymm : ∀ {x y : DetectedEntity},
          spansOverlap (x.start, x.stop) (y.start, y.stop) = false →
          spansOverlap (y.start, y.stop) (x.start, x.stop) = false := by
        intro x y hxy
        rw [spansOverlap_symm]
        exact hxy
      have hsorted : List.Pairwise (fun a b => le a b = true)
          (jsSortBy le entities) :=
        jsSortBy_sorted (fun a b => by simp [hle]; omega)
          (fun a b c h1 h2 => by simp [hle] at *; omega) entities
      have hnesorted : ∀ e ∈ jsSortBy le entities, e.start < e.stop :=
        fun e he => hne e (hperm.mem_iff.mp he)
      constructor
      · intro hp
        have hp2 : List.Pairwise (fun a b : DetectedEntity =>
            spansOverlap (a.start, a.stop) (b.start, b.stop) = false)
            (jsSortBy le entities) :=
          (hperm.pairwise_iff (fun hab => hsymm hab)).mpr hp
        have hsep := pairwise_nonov_sep
          (fun e : DetectedEntity => (e.start, e.stop))
          (jsSortBy le entities) hnesorted
          (hsorted.imp (fun hab => by simpa [hle] using hab)) hp2
        exact hsep.chain'
      · intro hch
        have hsep := chain_sep_pairwise
          (fun e : DetectedEntity => (e.start, e.stop))
          (jsSortBy le entities) hnesorted hch
        have hp2 : List.Pairwise (fun a b : DetectedEntity =>
            spansOverlap (a.start, a.stop) (b.start, b.stop) = false)
            (jsSortBy le entities) :=
          hsep.imp (fun hab =>
            sep_nonov (fun e : DetectedEntity => (e.start, e.stop)) hab)
        exact (hperm.pairwise_iff (fun hab => hsymm hab)).mp hp2
  constructor
  · intro hneq
    cases hq : hasNoOverlaps (fun e : DetectedEntity => (e.start, e.stop))
        entities
    · rfl
    · exact absurd (hmain.mpr hq) hneq
  · intro hfalse heq
    rw [hmain.mp heq] at hfalse
    exact Bool.noConfusion hfalse

/-- Witness for C10 (amended): two genuinely overlapping non-empty spans
make both checks fire. -/
theorem c10_amended_witness :
    (∀ e ∈ [(⟨.EMAIL, 1, 0, 5, 1, .REGEX, strL "aaaaa"⟩ : DetectedEntity),
            ⟨.EMAIL, 2, 3, 8, 1, .REGEX, strL "bbbbb"⟩], e.start < e.stop) ∧
    (checkOverlappingEntities
        [⟨.EMAIL, 1, 0, 5, 1, .REGEX, strL "aaaaa"⟩,
         ⟨.EMAIL, 2, 3, 8, 1, .REGEX, strL "bbbbb"⟩] ≠ [] ↔
      hasNoOverlaps (fun e : DetectedEntity => (e.start, e.stop))
        [⟨.EMAIL, 1, 0, 5, 1, .REGEX, strL "aaaaa"⟩,
         ⟨.EMAIL, 2, 3, 8, 1, .REGEX, strL "bbbbb"⟩] = false) :=
  ⟨by decide,
   c10_amended
     [⟨.EMAIL, 1, 0, 5, 1, .REGEX, strL "aaaaa"⟩,
      ⟨.EMAIL, 2, 3, 8, 1, .REGEX, strL "bbbbb"⟩] (by decide)⟩

/-- Code-point bounds of a decimal digit character. -/
theorem digit_char_bounds {c : Char} (h : isDigitChar c = true) :
    48 ≤ c.toNat ∧ c.toNat ≤ 57 := by
  simp only [isDigitChar, Bool.and_eq_true, decide_eq_true_iff] at h
  rcases h with ⟨h1, h2⟩
  rw [Char.le_def, UInt32.le_def, BitVec.le_def] at h1 h2
  exact ⟨h1, h2⟩

/-- The sequential-digit loop decides exactly "the remaining digit values
continue the chain ascending by 1, if the ascending flag is still set, or
descending by 1, if the descending flag is still set". -/
theorem isSequentialLoop_spec :
    ∀ (rest : List Char) (prev : Nat) (ascending descending : Bool),
      isSequentialLoop prev rest ascending descending = true ↔
        ((ascending = true ∧ List.Chain' (fun a b => b = a + 1)
            (prev :: rest.map (fun c => c.toNat - 48))) ∨
         (descending = true ∧ List.Chain' (fun a b => a = b + 1)
            (prev :: rest.map (fun c => c.toNat - 48)))) := by
  intro rest
  induction rest with
  | nil =>
    intro prev ascending descending
    simp [isSequentialLoop]
  | cons c tail ih =>
    intro prev ascending descending
    rw [isSequentialLoop]
    by_cases hstop : (!(ascending && decide (c.toNat - 48 = prev + 1)) &&
        !(descending && decide (prev = c.toNat - 48 + 1))) = true
    · rw [if_pos hstop]
      simp only [Bool.and_eq_true, Bool.not_eq_true', Bool.and_eq_false_iff,
        Bool.not_eq_true, decide_eq_false_iff_not] at hstop
      constructor
      · intro hfalse
        exact absurd hfalse (by simp)
      · rintro (⟨ha, hchain⟩ | ⟨hd, hchain⟩)
        · rw [List.map_cons, List.chain'_cons] at hchain
          rcases hstop.1 with h | h
          · rw [h] at ha; exact Bool.noConfusion ha
          · exact absurd hchain.1 h
        · rw [List.map_cons, List.chain'_cons] at hchain
          rcases hstop.2 with h | h
          · rw [h] at hd; exact Bool.noConfusion hd
          · exact absurd hchain.1 h
    · rw [if_neg hstop]
      rw [ih (c.toNat - 48) (ascending && decide (c.toNat - 48 = prev + 1))
        (descending && decide (prev = c.toNat - 48 + 1))]
      simp only [List.map_cons, List.chain'_cons, Bool.and_eq_true,
        decide_eq_true_iff]
      constructor
      · rintro (⟨⟨ha, hstep⟩, hchain⟩ | ⟨⟨hd, hstep⟩, hchain⟩)
        · exact Or.inl ⟨ha, hstep, hchain⟩
        · exact Or.inr ⟨hd, hstep, hchain⟩
      · rintro (⟨ha, hstep, hchain⟩ | ⟨hd, hstep, hchain⟩)
        · exact Or.inl ⟨⟨ha, hstep⟩, hchain⟩
        · exact Or.inr ⟨⟨hd, hstep⟩, hchain⟩

/-- On a list of digit characters, chains of the shifted values coincide
with chains of the raw code points. -/
theorem chain_digit_vals :
    ∀ (ds : List Char), (∀ c ∈ ds, isDigitChar c = true) →
      ((List.Chain' (fun a b => b = a + 1)
          (ds.map (fun c => c.toNat - 48)) ↔
        List.Chain' (fun a b : Char => b.toNat = a.toNat + 1) ds) ∧
       (List.Chain' (fun a b => a = b + 1)
          (ds.map (fun c => c.toNat - 48)) ↔
        List.Chain' (fun a b : Char => a.toNat = b.toNat + 1) ds)) := by
  intro ds
  induction ds with
  | nil => intro _; simp
  | cons a tail ih =>
    intro hd
    cases tail with
    | nil => simp
    | cons b rest =>
      have ha := digit_char_bounds (hd a (List.mem_cons_self a (b :: rest)))
      have hb := digit_char_bounds
        (hd b (List.mem_cons_of_mem a (List.mem_cons_self b rest)))
      have ihr := ih (fun c hc => hd c (List.mem_cons_of_mem a hc))
      simp only [List.map_cons, List.chain'_cons] at *
      constructor
      · constructor
        · rintro ⟨hstep, hchain⟩
          exact ⟨by omega, ihr.1.mp hchain⟩
        · rintro ⟨hstep, hchain⟩
          exact ⟨by omega, ihr.1.mpr hchain⟩
      · constructor
        · rintro ⟨hstep, hchain⟩
          exact ⟨by omega, ihr.2.mp hchain⟩
        · rintro ⟨hstep, hchain⟩
          exact ⟨by omega, ihr.2.mpr hchain⟩

/-- `isSequential` on a digit string decides "length at least 5 and the
code points ascend by 1 at every step or descend by 1 at every step". -/
theorem isSequential_spec (ds : List Char)
    (hdig : ∀ c ∈ ds, isDigitChar c = true) :
    isSequential ds = true ↔
      (5 ≤ ds.length ∧
        (List.Chain' (fun a b : Char => b.toNat = a.toNat + 1) ds ∨
         List.Chain' (fun a b : Char => a.toNat = b.toNat + 1) ds)) := by
  rw [isSequential.eq_def]
  by_cases hlen : ds.length < 5
  · rw [if_pos hlen]
    simp only [Bool.false_eq_true, false_iff, not_and]
    intro h
    omega
  · rw [if_neg hlen]
    cases ds with
    | nil => simp at hlen
    | cons c rest =>
      rw [isSequentialLoop_spec rest (c.toNat - 48) true true]
      have hbridge := chain_digit_vals (c :: rest) hdig
      rw [List.map_cons] at hbridge
      constructor
      · rintro (⟨_, hchain⟩ | ⟨_, hchain⟩)
        · exact ⟨by omega, Or.inl (hbridge.1.mp hchain)⟩
        · exact ⟨by omega, Or.inr (hbridge.2.mp hchain)⟩
      · rintro ⟨_, hchain | hchain⟩
        · exact Or.inl ⟨rfl, hbridge.1.mpr hchain⟩
        · exact Or.inr ⟨rfl, hbridge.2.mpr hchain⟩

/-- The repeated-digit test decides "all characters identical" on strings
of length at least 2. -/
theorem isRepeatedDigitStr_iff (ds : List Char) (hlen : 2 ≤ ds.length) :
    isRepeatedDigitStr ds = true ↔ ∃ d, ∀ c ∈ ds, c = d := by
  match ds, hlen with
  | c :: d :: rest, _ =>
    rw [isRepeatedDigitStr]
    rw [List.all_eq_true]
    constructor
    · intro hall
      refine ⟨c, ?_⟩
      intro x hx
      rcases List.mem_cons.mp hx with rfl | hx2
      · rfl
      · exact of_decide_eq_true (hall x hx2)
    · rintro ⟨d0, hall⟩
      intro x hx
      have hc : c = d0 := hall c (List.mem_cons_self c (d :: rest))
      have hx2 : x = d0 := hall x (List.mem_cons_of_mem c hx)
      exact decide_eq_true (hx2.trans hc.symm)

/-- Every span pushed by the shared recognizer match loop passed the
validator. -/
theorem recognizerMatchLoop_validated {ty : PIIType} {conf : ℚ}
    {validate : List Char → Bool} {text : List Char} :
    ∀ (ms seen : List (Nat × Nat)) (m : SpanMatch),
      m ∈ (recognizerMatchLoop ty conf validate text ms seen).1 →
      validate m.text = true := by
  intro ms
  induction ms with
  | nil => intro seen m h; exact absurd h (List.not_mem_nil m)
  | cons p rest ih =>
    intro seen m h
    rcases p with ⟨st, en⟩
    rw [recognizerMatchLoop] at h
    by_cases h1 : seen.any (fun k => decide (k = (st, en))) = true
    · rw [if_pos h1] at h
      exact ih seen m h
    · rw [if_neg h1] at h
      by_cases h2 : (!validate (jsSubstring text st en)) = true
      · rw [if_pos h2] at h
        exact ih seen m h
      · rw [if_neg h2] at h
        rcases List.mem_cons.mp h with rfl | h3
        · simpa using h2
        · exact ih ((st, en) :: seen) m h3

/-- Every span produced by the phone pattern loop passed the phone
validator. -/
theorem phonePatternLoop_validated {text : List Char} :
    ∀ (ps : List RE) (seen : List (Nat × Nat)) (m : SpanMatch),
      m ∈ phonePatternLoop text ps seen →
      phoneValidate m.text = true := by
  intro ps
  induction ps with
  | nil => intro seen m h; exact absurd h (List.not_mem_nil m)
  | cons p rest ih =>
    intro seen m h
    rw [phonePatternLoop] at h
    rcases List.mem_append.mp h with h1 | h2
    · exact recognizerMatchLoop_validated (reMatchAll text p) seen m h1
    · exact ih _ m h2

/-- One deduplication step only keeps old elements or the new one. -/
theorem phoneDedupStep_subset {result : List SpanMatch} {m x : SpanMatch}
    (h : x ∈ phoneDedupStep result m) : x ∈ result ∨ x = m := by
  rw [phoneDedupStep] at h
  cases hl : result.getLast? with
  | none =>
    rw [hl] at h
    dsimp only at h
    rcases List.mem_singleton.mp h with rfl
    exact Or.inr rfl
  | some last =>
    rw [hl] at h
    dsimp only at h
    by_cases h1 : m.start < last.stop
    · rw [if_pos h1] at h
      by_cases h2 : m.stop - m.start > last.stop - last.start
      · rw [if_pos h2] at h
        rcases List.mem_append.mp h with h3 | h3
        · exact Or.inl (List.dropLast_subset result h3)
        · exact Or.inr (List.mem_singleton.mp h3)
      · rw [if_neg h2] at h
        exact Or.inl h
    · rw [if_neg h1] at h
      rcases List.mem_append.mp h with h3 | h3
      · exact Or.inl h3
      · exact Or.inr (List.mem_singleton.mp h3)

/-- The deduplication fold only returns elements of its input. -/
theorem phoneDedupFold_subset :
    ∀ (l acc : List SpanMatch) (x : SpanMatch),
      x ∈ l.foldl phoneDedupStep acc → x ∈ acc ∨ x ∈ l := by
  intro l
  induction l with
  | nil => intro acc x h; exact Or.inl h
  | cons m rest ih =>
    intro acc x h
    rw [List.foldl_cons] at h
    rcases ih (phoneDedupStep acc m) x h with h1 | h1
    · rcases phoneDedupStep_subset h1 with h2 | rfl
      · exact Or.inl h2
      · exact Or.inr (List.mem_cons_self x rest)
    · exact Or.inr (List.mem_cons_of_mem m h1)

/-- `deduplicateOverlapping` of the phone recognizer returns a subset of
its input. -/
theorem phoneDedup_subset {ms : List SpanMatch} {x : SpanMatch}
    (h : x ∈ phoneDedup ms) : x ∈ ms := by
  rw [phoneDedup] at h
  by_cases h1 : ms.length ≤ 1
  · rwa [if_pos h1] at h
  · rw [if_neg h1] at h
    rcases phoneDedupFold_subset _ [] x h with h2 | h2
    · exact absurd h2 (List.not_mem_nil x)
    · exact (jsSortBy_perm _ ms).mem_iff.mp h2

/-- C9: the phone validator rejects a candidate exactly when its digit
count falls outside [7, 15], or all its digits are identical, or its digit
sequence is strictly ascending by 1 at every step or strictly descending
by 1 at every step; and every match in the phone recognizer's `find`
output passed the validator. -/
theorem c9_phone_guards :
    (∀ phone : List Char,
      (phoneValidate phone = false ↔
        ((phone.filter isDigitChar).length < 7 ∨
         (phone.filter isDigitChar).length > 15 ∨
         (∃ d, ∀ c ∈ phone.filter isDigitChar, c = d) ∨
         List.Chain' (fun a b : Char => b.toNat = a.toNat + 1)
           (phone.filter isDigitChar) ∨
         List.Chain' (fun a b : Char => a.toNat = b.toNat + 1)
           (phone.filter isDigitChar)))) ∧
    (∀ (text : List Char) (m : SpanMatch),
      m ∈ phoneFind text → phoneValidate m.text = true) := by
  constructor
  · intro phone
    have hdig : ∀ c ∈ phone.filter isDigitChar, isDigitChar c = true :=
      fun c hc => (List.mem_filter.mp hc).2
    rw [phoneValidate]
    by_cases h1 : (phone.filter isDigitChar).length < 7 ∨
        (phone.filter isDigitChar).length > 15
    · rw [if_pos h1]
      simp only [true_iff]
      rcases h1 with h1 | h1
      · exact Or.inl h1
      · exact Or.inr (Or.inl h1)
    · rw [if_neg h1]
      push_neg at h1
      by_cases h2 : isRepeatedDigitStr (phone.filter isDigitChar) = true
      · rw [if_pos h2]
        simp only [true_iff]
        exact Or.inr (Or.inr (Or.inl
          ((isRepeatedDigitStr_iff _ (by omega)).mp h2)))
      · rw [if_neg h2]
        by_cases h3 : isSequential (phone.filter isDigitChar) = true
        · rw [if_pos h3]
          simp only [true_iff]
          rcases ((isSequential_spec _ hdig).mp h3).2 with hc | hc
          · exact Or.inr (Or.inr (Or.inr (Or.inl hc)))
          · exact Or.inr (Or.inr (Or.inr (Or.inr hc)))
        · rw [if_neg h3]
          simp only [Bool.true_eq_false, false_iff, not_or]
          refine ⟨by omega, by omega, ?_, ?_, ?_⟩
          · intro hex
            exact h2 ((isRepeatedDigitStr_iff _ (by omega)).mpr hex)
          · intro hc
            exact h3 ((isSequential_spec _ hdig).mpr ⟨by omega, Or.inl hc⟩)
          · intro hc
            exact h3 ((isSequential_spec _ hdig).mpr ⟨by omega, Or.inr hc⟩)
  · intro text m h
    rw [phoneFind] at h
    exact phonePatternLoop_validated PHONE_PATTERNS [] m (phoneDedup_subset h)

/-- Witness for C9: a placeholder number is rejected for the stated
reason, and a concrete find output element passed validation. -/
theorem c9_phone_guards_witness :
    (phoneValidate (strL "0123456789") = false ↔
      (((strL "0123456789").filter isDigitChar).length < 7 ∨
       ((strL "0123456789").filter isDigitChar).length > 15 ∨
       (∃ d, ∀ c ∈ (strL "0123456789").filter isDigitChar, c = d) ∨
       List.Chain' (fun a b : Char => b.toNat = a.toNat + 1)
         ((strL "0123456789").filter isDigitChar) ∨
       List.Chain' (fun a b : Char => a.toNat = b.toNat + 1)
         ((strL "0123456789").filter isDigitChar))) ∧
    phoneValidate
      (⟨.PHONE, 5, 19, mkRat 9 10, .REGEX, strL "+4917012345678"⟩ :
        SpanMatch).text = true :=
  ⟨c9_phone_guards.1 (strL "0123456789"),
   c9_phone_guards.2 (strL "call +4917012345678 now")
     ⟨.PHONE, 5, 19, mkRat 9 10, .REGEX, strL "+4917012345678"⟩
     (by decide)⟩

/-- Every character produced by the decimal renderer is a digit. -/
theorem natDigitsAux_digits :
    ∀ fuel n, n < fuel → ∀ c ∈ natDigitsAux fuel n, isDigitChar c = true := by
  intro fuel
  induction fuel with
  | zero => intro n hn; omega
  | succ f ih =>
    intro n hn c hc
    by_cases h10 : n < 10
    · simp only [natDigitsAux, h10, if_true, List.mem_singleton] at hc
      subst hc
      interval_cases n <;> decide
    · simp only [natDigitsAux, h10, if_false, List.mem_append,
        List.mem_singleton] at hc
      rcases hc with hc | hc
      · exact ih (n / 10) (by omega) c hc
      · subst hc
        have h9 : n % 10 < 10 := Nat.mod_lt n (by omega)
        interval_cases h : n % 10 <;> decide

/-- The decimal renderer never returns the empty string. -/
theorem natDigitsAux_ne_nil :
    ∀ fuel n, n < fuel → natDigitsAux fuel n ≠ [] := by
  intro fuel
  induction fuel with
  | zero => intro n hn; omega
  | succ f _ =>
    intro n hn
    by_cases h10 : n < 10
    · simp [natDigitsAux, h10]
    · simp [natDigitsAux, h10]

/-- Value of a digit string extended by one digit on the right. -/
theorem digitsVal_append_digit (xs : List Char) (c : Char) :
    digitsVal (xs ++ [c]) = digitsVal xs * 10 + (c.toNat - 48) := by
  simp [digitsVal, List.foldl_append]

/-- The decimal renderer is a right inverse of digit-string evaluation. -/
theorem digitsVal_natDigitsAux :
    ∀ fuel n, n < fuel → digitsVal (natDigitsAux fuel n) = n := by
  intro fuel
  induction fuel with
  | zero => intro n hn; omega
  | succ f ih =>
    intro n hn
    by_cases h10 : n < 10
    · have hv : (Char.ofNat (48 + n)).toNat = 48 + n := by
        interval_cases n <;> decide
      simp [natDigitsAux, h10, digitsVal, hv]
    · rw [natDigitsAux]
      simp only [h10, if_false]
      rw [digitsVal_append_digit, ih (n / 10) (by omega)]
      have h9 : n % 10 < 10 := Nat.mod_lt n (by omega)
      have hv : (Char.ofNat (48 + n % 10)).toNat = 48 + n % 10 := by
        interval_cases h : n % 10 <;> decide
      rw [hv]
      omega

/-- Digit characters of the JS rendering of a natural number. -/
theorem jsNatToString_digits (n : Nat) :
    ∀ c ∈ jsNatToString n, isDigitChar c = true :=
  natDigitsAux_digits (n + 1) n (Nat.lt_succ_self n)

/-- The JS rendering of a natural number is nonempty. -/
theorem jsNatToString_ne_nil (n : Nat) : jsNatToString n ≠ [] :=
  natDigitsAux_ne_nil (n + 1) n (Nat.lt_succ_self n)

/-- Evaluating the JS rendering of a natural number gives it back. -/
theorem digitsVal_jsNatToString (n : Nat) : digitsVal (jsNatToString n) = n :=
  digitsVal_natDigitsAux (n + 1) n (Nat.lt_succ_self n)

/-- The JS rendering of natural numbers is injective. -/
theorem jsNatToString_inj {a b : Nat} (h : jsNatToString a = jsNatToString b) :
    a = b := by
  have := digitsVal_jsNatToString a
  rw [h, digitsVal_jsNatToString] at this
  omega

/-- Splitting at a separator character absent from both prefixes is
unambiguous. -/
theorem append_sep_inj {c : Char} :
    ∀ (a1 : List Char) {a2 b1 b2 : List Char}, c ∉ a1 → c ∉ a2 →
      a1 ++ c :: b1 = a2 ++ c :: b2 → a1 = a2 ∧ b1 = b2 := by
  intro a1
  induction a1 with
  | nil =>
    intro a2 b1 b2 _ h2 heq
    cases a2 with
    | nil => simpa using heq
    | cons y a2t =>
      simp only [List.nil_append, List.cons_append, List.cons.injEq] at heq
      exact absurd heq.1.symm (by simp at h2; exact fun hh => h2.1 hh.symm)
  | cons x a1t ih =>
    intro a2 b1 b2 h1 h2 heq
    cases a2 with
    | nil =>
      simp only [List.cons_append, List.nil_append, List.cons.injEq] at heq
      exact absurd heq.1 (by simp at h1; exact fun hh => h1.1 hh.symm)
    | cons y a2t =>
      simp only [List.cons_append, List.cons.injEq] at heq
      have hx : c ∉ a1t := by simp at h1; exact h1.2
      have hy : c ∉ a2t := by simp at h2; exact h2.2
      rcases ih hx hy heq.2 with ⟨ha, hb⟩
      exact ⟨by rw [heq.1, ha], hb⟩

/-- Every type name is made of tag-name letters. -/
theorem typeName_letters (t : PIIType) :
    ∀ c ∈ typeName t, isTagNameLetter c = true := by
  cases t <;> decide

/-- No type name is empty. -/
theorem typeName_ne_nil (t : PIIType) : typeName t ≠ [] := by
  cases t <;> decide

/-- No type name contains a colon. -/
theorem typeName_colon_free (t : PIIType) : ':' ∉ typeName t := by
  cases t <;> decide

/-- No type name contains an angle bracket. -/
theorem typeName_lt_free (t : PIIType) : '<' ∉ typeName t := by
  cases t <;> decide

/-- Looking up the upper-cased type name recovers the type. -/
theorem strToPIIType_typeName (t : PIIType) :
    strToPIIType (toUpperStr (typeName t)) = some t := by
  cases t <;> decide

/-- Type names are distinct. -/
theorem typeName_inj {t1 t2 : PIIType} (h : typeName t1 = typeName t2) :
    t1 = t2 := by
  cases t1 <;> cases t2 <;> first
    | rfl
    | exact absurd h (by decide)

/-- A digit character is not an underscore, colon, quote or bracket. -/
theorem digit_not_special {c : Char} (h : isDigitChar c = true) :
    c ≠ '_' ∧ c ≠ ':' ∧ c ≠ '<' ∧ c ≠ '"' := by
  have hb := digit_char_bounds h
  refine ⟨?_, ?_, ?_, ?_⟩ <;> (intro he; subst he; simp at hb)

/-- The rendered id contains no underscore. -/
theorem jsNatToString_no_underscore (n : Nat) : '_' ∉ jsNatToString n := by
  intro hmem
  exact absurd rfl (digit_not_special (jsNatToString_digits n _ hmem)).1

/-- The PII-map key `TYPE_ID` determines the type and the id. -/
theorem createPIIMapKey_inj {t1 t2 : PIIType} {i1 i2 : Nat}
    (h : createPIIMapKey t1 i1 = createPIIMapKey t2 i2) :
    t1 = t2 ∧ i1 = i2 := by
  have hr : (jsNatToString i1).reverse ++ '_' :: (typeName t1).reverse =
      (jsNatToString i2).reverse ++ '_' :: (typeName t2).reverse := by
    have := congrArg List.reverse h
    simpa [createPIIMapKey, List.reverse_append] using this
  have h1 : '_' ∉ (jsNatToString i1).reverse := by
    simpa using jsNatToString_no_underscore i1
  have h2 : '_' ∉ (jsNatToString i2).reverse := by
    simpa using jsNatToString_no_underscore i2
  rcases append_sep_inj _ h1 h2 hr with ⟨ha, hb⟩
  have hid : i1 = i2 :=
    jsNatToString_inj (List.reverse_injective ha)
  have hty : t1 = t2 :=
    typeName_inj (List.reverse_injective hb)
  exact ⟨hty, hid⟩

/-- The reuse key `TYPE:text` determines the type and the text. -/
theorem seenKey_inj {t1 t2 : PIIType} {x1 x2 : List Char}
    (h : typeName t1 ++ ':' :: x1 = typeName t2 ++ ':' :: x2) :
    t1 = t2 ∧ x1 = x2 := by
  rcases append_sep_inj _ (typeName_colon_free t1) (typeName_colon_free t2) h
    with ⟨ha, hb⟩
  exact ⟨typeName_inj ha, hb⟩

/-- Lookup skips a leading entry with a different key. -/
theorem mapGet_cons_of_neg {β : Type} {q : List Char × β}
    {m : List (List Char × β)} {k : List Char} (h : ¬ q.1 = k) :
    mapGet (q :: m) k = mapGet m k := by
  simp only [mapGet]
  rw [List.find?_cons_of_neg m (by simpa using h)]

/-- Lookup finds a leading entry with the key. -/
theorem mapGet_cons_of_pos {β : Type} {q : List Char × β}
    {m : List (List Char × β)} {k : List Char} (h : q.1 = k) :
    mapGet (q :: m) k = some q.2 := by
  simp only [mapGet]
  rw [List.find?_cons_of_pos m (by simpa using h)]
  rfl

/-- A map lookup distributes over concatenation of entry lists. -/
theorem mapGet_append {β : Type} (k : List Char) :
    ∀ m1 m2 : List (List Char × β),
      mapGet (m1 ++ m2) k = (mapGet m1 k).or (mapGet m2 k) := by
  intro m1 m2
  induction m1 with
  | nil => simp [mapGet]
  | cons q rest ih =>
    by_cases hq : q.1 = k
    · rw [List.cons_append, mapGet_cons_of_pos hq, mapGet_cons_of_pos hq]
      rfl
    · rw [List.cons_append, mapGet_cons_of_neg hq, mapGet_cons_of_neg hq]
      exact ih

/-- Looking up a key present in the map after in-place replacement. -/
theorem mapGet_mapReplace {β : Type} (k : List Char) (v : β) :
    ∀ m : List (List Char × β),
      m.any (fun p => decide (p.1 = k)) = true →
      mapGet (m.map (fun p => if p.1 = k then (k, v) else p)) k = some v := by
  intro m
  induction m with
  | nil => intro h; simp at h
  | cons q rest ih =>
    intro h
    by_cases hq : q.1 = k
    · rw [List.map_cons, if_pos hq, mapGet_cons_of_pos rfl]
    · have hrest : rest.any (fun p => decide (p.1 = k)) = true := by
        simp only [List.any_cons, decide_eq_true_eq, hq, Bool.false_or] at h
        exact h
      rw [List.map_cons, if_neg hq, mapGet_cons_of_neg hq]
      exact ih hrest

/-- In-place replacement of one key leaves other lookups unchanged. -/
theorem mapGet_mapReplace_other {β : Type} {k k2 : List Char} (hne : k2 ≠ k)
    (v : β) :
    ∀ m : List (List Char × β),
      mapGet (m.map (fun p => if p.1 = k then (k, v) else p)) k2 =
        mapGet m k2 := by
  intro m
  have hk2 : ¬ (k = k2) := fun hh => hne hh.symm
  induction m with
  | nil => rfl
  | cons q rest ih =>
    by_cases hq : q.1 = k
    · have hq2 : ¬ (q.1 = k2) := by rw [hq]; exact hk2
      rw [List.map_cons, if_pos hq, mapGet_cons_of_neg hk2,
        mapGet_cons_of_neg hq2]
      exact ih
    · by_cases hq2 : q.1 = k2
      · rw [List.map_cons, if_neg hq, mapGet_cons_of_pos hq2,
          mapGet_cons_of_pos hq2]
      · rw [List.map_cons, if_neg hq, mapGet_cons_of_neg hq2,
          mapGet_cons_of_neg hq2]
        exact ih

/-- After `mapSet`, looking up the set key gives the new value. -/
theorem mapGet_mapSet_self {β : Type} (m : List (List Char × β)) (k : List Char)
    (v : β) : mapGet (mapSet m k v) k = some v := by
  by_cases hany : m.any (fun p => decide (p.1 = k)) = true
  · simp only [mapSet, hany, if_true]
    exact mapGet_mapReplace k v m hany
  · have hany2 : m.any (fun p => decide (p.1 = k)) = false :=
      Bool.eq_false_iff.mpr hany
    simp only [mapSet, hany2, Bool.false_eq_true, if_false]
    rw [mapGet_append]
    have hnone : mapGet m k = none := by
      simp only [mapGet, Option.map_eq_none', List.find?_eq_none]
      intro p hp
      simp only [decide_eq_true_eq]
      intro hk
      exact hany (List.any_eq_true.mpr ⟨p, hp, by simp [hk]⟩)
    rw [hnone, mapGet_cons_of_pos rfl]
    rfl

/-- After `mapSet`, lookups of other keys are unchanged. -/
theorem mapGet_mapSet_other {β : Type} {k k2 : List Char} (hne : k2 ≠ k)
    (m : List (List Char × β)) (v : β) :
    mapGet (mapSet m k v) k2 = mapGet m k2 := by
  by_cases hany : m.any (fun p => decide (p.1 = k)) = true
  · simp only [mapSet, hany, if_true]
    exact mapGet_mapReplace_other hne v m
  · have hany2 : m.any (fun p => decide (p.1 = k)) = false :=
      Bool.eq_false_iff.mpr hany
    simp only [mapSet, hany2, Bool.false_eq_true, if_false]
    rw [mapGet_append]
    have h1 : mapGet [(k, v)] k2 = none := by
      rw [mapGet_cons_of_neg (fun hh => hne hh.symm)]
      rfl
    rw [h1]
    cases mapGet m k2 <;> rfl

/-- A lookup answered positively exhibits a map entry. -/
theorem mapGet_mem {β : Type} {m : List (List Char × β)} {k : List Char}
    {v : β} (h : mapGet m k = some v) : (k, v) ∈ m := by
  simp only [mapGet] at h
  cases hf : m.find? (fun p => decide (p.1 = k)) with
  | none => rw [hf] at h; exact absurd h (by simp)
  | some p =>
    rw [hf] at h
    have hk : p.1 = k := by simpa using List.find?_some hf
    have hv : p.2 = v := by simpa using h
    have : p = (k, v) := Prod.ext hk hv
    exact this ▸ List.mem_of_find?_eq_some hf

/-- Setting an absent key appends the entry. -/
theorem mapSet_absent {β : Type} {m : List (List Char × β)} {k : List Char}
    (v : β) (h : mapGet m k = none) : mapSet m k v = m ++ [(k, v)] := by
  have hany : m.any (fun p => decide (p.1 = k)) = false := by
    simp only [mapGet, Option.map_eq_none'] at h
    rw [List.find?_eq_none] at h
    simp only [List.any_eq_false]
    exact h
  simp only [mapSet, hany, Bool.false_eq_true, if_false]

/-- The PII-map fold preserves a lookup of a key whose value agrees with
every remaining entity that carries the same key. -/
theorem piiFold_preserve :
    ∀ (l : List TaggedSpan) (acc : List (List Char × List Char))
      (k v : List Char),
      (∀ e ∈ l, createPIIMapKey e.type e.id = k → e.text = v) →
      mapGet acc k = some v →
      mapGet
        (l.foldl (fun acc e => mapSet acc (createPIIMapKey e.type e.id) e.text)
          acc) k = some v := by
  intro l
  induction l with
  | nil => intro acc k v _ hacc; exact hacc
  | cons e rest ih =>
    intro acc k v huni hacc
    rw [List.foldl_cons]
    refine ih _ k v (fun e2 h2 => huni e2 (List.mem_cons_of_mem e h2)) ?_
    by_cases hk : createPIIMapKey e.type e.id = k
    · rw [hk, mapGet_mapSet_self]
      rw [huni e (List.mem_cons_self e rest) hk]
    · rw [mapGet_mapSet_other (fun hh => hk hh.symm)]
      exact hacc

/-- If entities with equal PII-map keys carry equal texts, the built map
sends every entity's key to its text. -/
theorem piiFold_lookup :
    ∀ (l : List TaggedSpan) (acc : List (List Char × List Char)),
      (∀ e1 ∈ l, ∀ e2 ∈ l,
        createPIIMapKey e1.type e1.id = createPIIMapKey e2.type e2.id →
          e1.text = e2.text) →
      ∀ e ∈ l,
        mapGet
          (l.foldl
            (fun acc e => mapSet acc (createPIIMapKey e.type e.id) e.text)
            acc) (createPIIMapKey e.type e.id) = some e.text := by
  intro l
  induction l with
  | nil => intro acc _ e he; exact absurd he (List.not_mem_nil e)
  | cons hd rest ih =>
    intro acc huni e he
    rcases List.mem_cons.mp he with rfl | he2
    · rw [List.foldl_cons]
      refine piiFold_preserve rest _ _ _ ?_ (mapGet_mapSet_self _ _ _)
      intro e2 h2 hk
      exact huni e2 (List.mem_cons_of_mem e h2) e (List.mem_cons_self e rest) hk
    · rw [List.foldl_cons]
      refine ih _ ?_ e he2
      intro e1 h1 e2 h2
      exact huni e1 (List.mem_cons_of_mem hd h1) e2 (List.mem_cons_of_mem hd h2)

/-- Every assigned entity is a list member with some id attached. -/
theorem assignIds_mem :
    ∀ (reuse : Bool) (l : List SpanMatch) (n : Nat)
      (s : List (List Char × Nat)) (e : TaggedSpan),
      e ∈ assignIds reuse l n s → ∃ m ∈ l, ∃ i, e = withId m i := by
  intro reuse l
  induction l with
  | nil => intro n s e he; exact absurd he (List.not_mem_nil e)
  | cons m rest ih =>
    intro n s e he
    cases reuse with
    | false =>
      simp only [assignIds, Bool.false_eq_true, if_false, List.mem_cons] at he
      rcases he with rfl | he2
      · exact ⟨m, List.mem_cons_self m rest, n, rfl⟩
      · rcases ih (n + 1) s e he2 with ⟨m2, hm2, i, hi⟩
        exact ⟨m2, List.mem_cons_of_mem m hm2, i, hi⟩
    | true =>
      simp only [assignIds, if_true] at he
      cases hg : mapGet s (seenTextKey m) with
      | some i =>
        rw [hg] at he
        rcases List.mem_cons.mp he with rfl | he2
        · exact ⟨m, List.mem_cons_self m rest, i, rfl⟩
        · rcases ih n s e he2 with ⟨m2, hm2, j, hj⟩
          exact ⟨m2, List.mem_cons_of_mem m hm2, j, hj⟩
      | none =>
        rw [hg] at he
        rcases List.mem_cons.mp he with rfl | he2
        · exact ⟨m, List.mem_cons_self m rest, n, rfl⟩
        · rcases ih (n + 1) _ e he2 with ⟨m2, hm2, j, hj⟩
          exact ⟨m2, List.mem_cons_of_mem m hm2, j, hj⟩

/-- The assignment loop preserves type, offsets and text positionally,
for either setting of the reuse flag. -/
theorem assignIds_map_base :
    ∀ (reuse : Bool) (l : List SpanMatch) (n : Nat)
      (s : List (List Char × Nat)),
      (assignIds reuse l n s).map (fun e => (e.type, e.start, e.stop, e.text)) =
        l.map (fun m => (m.type, m.start, m.stop, m.text)) := by
  intro reuse l
  induction l with
  | nil => intro n s; rfl
  | cons m rest ih =>
    intro n s
    cases reuse with
    | false =>
      simp only [assignIds, Bool.false_eq_true, if_false, List.map_cons, withId]
      rw [ih (n + 1) s]
    | true =>
      simp only [assignIds, if_true]
      cases hg : mapGet s (seenTextKey m) with
      | some i => simp only [List.map_cons, withId]; rw [ih n s]
      | none => simp only [List.map_cons, withId]; rw [ih (n + 1) _]

/-- Entries of the reuse map persist to the end of the loop. -/
theorem assignSeenT_persist :
    ∀ (l : List SpanMatch) (n : Nat) (seen : List (List Char × Nat))
      (k : List Char) (v : Nat),
      mapGet seen k = some v → mapGet (assignSeenT l n seen) k = some v := by
  intro l
  induction l with
  | nil => intro n seen k v h; exact h
  | cons m rest ih =>
    intro n seen k v h
    rw [assignSeenT]
    cases hg : mapGet seen (seenTextKey m) with
    | some i => exact ih n seen k v h
    | none =>
      have hne : k ≠ seenTextKey m := by
        intro he; rw [he, hg] at h; exact Option.noConfusion h
      refine ih (n + 1) _ k v ?_
      rw [mapGet_mapSet_other hne]
      exact h

/-- Distinct values stay attached to distinct keys throughout the reuse
map: it is a bijection between present keys and assigned ids. -/
theorem assignSeenT_vd :
    ∀ (l : List SpanMatch) (n : Nat) (seen : List (List Char × Nat)),
      (∀ p ∈ seen, p.2 < n) →
      (∀ p ∈ seen, ∀ q ∈ seen, p.2 = q.2 → p.1 = q.1) →
      ∀ p ∈ assignSeenT l n seen, ∀ q ∈ assignSeenT l n seen,
        p.2 = q.2 → p.1 = q.1 := by
  intro l
  induction l with
  | nil => intro n seen _ hvd; exact hvd
  | cons m rest ih =>
    intro n seen hb hvd
    rw [assignSeenT]
    cases hg : mapGet seen (seenTextKey m) with
    | some i => exact ih n seen hb hvd
    | none =>
      rw [mapSet_absent n hg]
      refine ih (n + 1) _ ?_ ?_
      · intro p hp
        rcases List.mem_append.mp hp with hp2 | hp2
        · have := hb p hp2; omega
        · have : p = (seenTextKey m, n) := List.mem_singleton.mp hp2
          rw [this]; omega
      · intro p hp q hq hpq
        rcases List.mem_append.mp hp with hp2 | hp2 <;>
          rcases List.mem_append.mp hq with hq2 | hq2
        · exact hvd p hp2 q hq2 hpq
        · have hq3 : q = (seenTextKey m, n) := List.mem_singleton.mp hq2
          have := hb p hp2
          rw [hq3] at hpq
          omega
        · have hp3 : p = (seenTextKey m, n) := List.mem_singleton.mp hp2
          have := hb q hq2
          rw [hp3] at hpq
          omega
        · rw [List.mem_singleton.mp hp2, List.mem_singleton.mp hq2]

/-- With reuse enabled, the final reuse map sends every assigned entity's
`TYPE:text` key to its id. -/
theorem assignIds_true_lookup :
    ∀ (l : List SpanMatch) (n : Nat) (seen : List (List Char × Nat)),
      ∀ e ∈ assignIds true l n seen,
        mapGet (assignSeenT l n seen) (typeName e.type ++ ':' :: e.text) =
          some e.id := by
  intro l
  induction l with
  | nil => intro n seen e he; exact absurd he (List.not_mem_nil e)
  | cons m rest ih =>
    intro n seen e he
    rw [assignSeenT]
    simp only [assignIds, if_true] at he
    cases hg : mapGet seen (seenTextKey m) with
    | some i =>
      rw [hg] at he
      rcases List.mem_cons.mp he with rfl | he2
      · refine assignSeenT_persist rest n seen _ _ ?_
        simpa [withId, seenTextKey] using hg
      · exact ih n seen e he2
    | none =>
      rw [hg] at he
      rcases List.mem_cons.mp he with rfl | he2
      · refine assignSeenT_persist rest (n + 1) _ _ _ ?_
        have : typeName (withId m n).type ++ ':' :: (withId m n).text =
            seenTextKey m := by
          simp [withId, seenTextKey]
        rw [this, mapGet_mapSet_self]
        rfl
      · exact ih (n + 1) _ e he2

/-- With reuse enabled, equal assigned ids force equal types and texts. -/
theorem assignIds_true_coherent (l : List SpanMatch) :
    ∀ e1 ∈ assignIds true l 1 [], ∀ e2 ∈ assignIds true l 1 [],
      e1.id = e2.id → e1.type = e2.type ∧ e1.text = e2.text := by
  intro e1 h1 e2 h2 hid
  have hl1 := assignIds_true_lookup l 1 [] e1 h1
  have hl2 := assignIds_true_lookup l 1 [] e2 h2
  have hm1 := mapGet_mem hl1
  have hm2 := mapGet_mem hl2
  have hvd := assignSeenT_vd l 1 []
    (fun p hp => absurd hp (List.not_mem_nil p))
    (fun p hp => absurd hp (List.not_mem_nil p))
  have hkeys : typeName e1.type ++ ':' :: e1.text =
      typeName e2.type ++ ':' :: e2.text := by
    have := hvd _ hm1 _ hm2 (by simpa using hid)
    simpa using this
  exact seenKey_inj hkeys

/-- With reuse disabled, assigned ids are pairwise distinct, so an id
determines the entity. -/
theorem assignIds_false_coherent (l : List SpanMatch) (n : Nat)
    (s : List (List Char × Nat)) :
    ∀ e1 ∈ assignIds false l n s, ∀ e2 ∈ assignIds false l n s,
      e1.id = e2.id → e1 = e2 := by
  intro e1 h1 e2 h2 hid
  have hmap := assignIds_false_map_id l n s
  have hnd : ((assignIds false l n s).map (fun e => e.id)).Nodup := by
    rw [hmap]; exact List.nodup_range' n l.length
  have hpw : (assignIds false l n s).Pairwise (fun a b => a.id ≠ b.id) :=
    (List.pairwise_map.mp hnd)
  by_contra hne
  have hsymm : Symmetric (fun a b : TaggedSpan => a.id ≠ b.id) := by
    intro x y hab hba
    exact hab hba.symm
  exact hpw.forall hsymm h1 h2 hne hid

/-- For either reuse setting, entities with equal PII-map keys carry
equal texts: the plaintext map built by the tagger is unambiguous. -/
theorem assignIds_pii_uniform (reuse : Bool) (l : List SpanMatch) :
    ∀ e1 ∈ assignIds reuse l 1 [], ∀ e2 ∈ assignIds reuse l 1 [],
      createPIIMapKey e1.type e1.id = createPIIMapKey e2.type e2.id →
        e1.text = e2.text := by
  intro e1 h1 e2 h2 hk
  rcases createPIIMapKey_inj hk with ⟨hty, hid⟩
  cases reuse with
  | true => exact (assignIds_true_coherent l e1 h1 e2 h2 hid).2
  | false => rw [assignIds_false_coherent l 1 [] e1 h1 e2 h2 hid]

/-- Glue of two adjacent takes of the same list. -/
theorem take_glue (s : List Char) {p q : Nat} (h : p ≤ q) :
    s.take p ++ (s.drop p).take (q - p) = s.take q := by
  have h1 : q = p + (q - p) := by omega
  rw [h1, List.take_add s p (q - p)]
  have h2 : p + (q - p) - p = q - p := by omega
  rw [h2]

/-- The descending replacement fold of the tagger produces the segment
decomposition: each span of a separated, in-bounds, ascending list is
replaced by its canonical tag. -/
theorem foldr_replace_eq_segs (text : List Char) :
    ∀ (es : List TaggedSpan) (prev : Nat),
      List.Pairwise (fun a b => a.stop ≤ b.start) es →
      (∀ e ∈ es, e.start ≤ e.stop ∧ e.stop ≤ text.length) →
      (∀ e ∈ es, prev ≤ e.start) →
      es.foldr (fun e acc => tagReplaceStep acc e) text =
        text.take prev ++ segs text prev es := by
  intro es
  induction es with
  | nil =>
    intro prev _ _ _
    rw [List.foldr_nil, segs, List.take_append_drop]
  | cons e rest ih =>
    intro prev hsep hbnd hprev
    rcases List.pairwise_cons.mp hsep with ⟨hhead, htail⟩
    rcases hbnd e (List.mem_cons_self e rest) with ⟨hse, hel⟩
    have hpe : prev ≤ e.start := hprev e (List.mem_cons_self e rest)
    rw [List.foldr_cons]
    rw [ih e.stop htail
      (fun r hr => hbnd r (List.mem_cons_of_mem e hr)) hhead]
    have hlen : (text.take e.stop).length = e.stop := by
      rw [List.length_take]; omega
    rw [tagReplaceStep]
    have h1 : (text.take e.stop ++ segs text e.stop rest).take e.start =
        text.take e.start := by
      rw [List.take_append_of_le_length (by omega),
        List.take_take e.start e.stop text]
      have : e.start ⊓ e.stop = e.start := by omega
      rw [this]
    have h2 : (text.take e.stop ++ segs text e.stop rest).drop e.stop =
        segs text e.stop rest := by
      conv in List.drop e.stop => rw [show e.stop = (text.take e.stop).length
        from hlen.symm]
      exact List.drop_left _ _
    rw [h1, h2, segs]
    rw [show text.take prev ++ ((text.drop prev).take (e.start - prev) ++
        generateTag e.type e.id ++ segs text e.stop rest) =
      (text.take prev ++ (text.drop prev).take (e.start - prev)) ++
        generateTag e.type e.id ++ segs text e.stop rest by simp]
    rw [take_glue text hpe]

/-- A maximal run stops exactly at the first character outside the class. -/
theorem takeWhile_append_exact (p : Char → Bool) :
    ∀ (A : List Char) (b : Char) (B : List Char),
      (∀ c ∈ A, p c = true) → p b = false →
      (A ++ b :: B).takeWhile p = A := by
  intro A
  induction A with
  | nil =>
    intro b B _ hb
    simp [List.takeWhile, hb]
  | cons x xs ih =>
    intro b B hA hb
    have hx : p x = true := hA x (List.mem_cons_self x xs)
    simp only [List.cons_append, List.takeWhile, hx, List.cons.injEq, true_and]
    exact ih b B (fun c hc => hA c (List.mem_cons_of_mem x hc)) hb

/-- A one-or-more class capture on a run followed by an out-of-class
character returns exactly the run. -/
theorem takeClass1_exact (p : Char → Bool) (A : List Char) (b : Char)
    (B : List Char) (hA : ∀ c ∈ A, p c = true) (hne : A ≠ [])
    (hb : p b = false) :
    takeClass1 p (A ++ b :: B) = some (A, b :: B) := by
  rw [takeClass1]
  have htw := takeWhile_append_exact p A b B hA hb
  simp only [htw]
  rw [if_neg (by simpa [List.isEmpty_iff] using hne)]
  have : (A ++ b :: B).drop A.length = b :: B := List.drop_left A (b :: B)
  rw [this]

/-- Cons normal form of a canonical tag followed by a suffix. -/
theorem genTag_norm (t : PIIType) (id : Nat) (r : List Char) :
    generateTag t id ++ r =
      '<' :: 'P' :: 'I' :: 'I' :: ' ' :: 't' :: 'y' :: 'p' :: 'e' :: '=' ::
        '"' :: (typeName t ++ ('"' :: ' ' :: 'i' :: 'd' :: '=' :: '"' ::
          (jsNatToString id ++ ('"' :: '/' :: '>' :: r)))) := by
  have h1 : strL "<PII type=\"" =
      ['<', 'P', 'I', 'I', ' ', 't', 'y', 'p', 'e', '=', '"'] := rfl
  have h2 : strL "\" id=\"" = ['"', ' ', 'i', 'd', '=', '"'] := rfl
  have h3 : strL "\"/>" = ['"', '/', '>'] := rfl
  rw [generateTag, h1, h2, h3]
  simp [List.append_assoc]

/-- The first fuzzy pattern parses a canonical tag exactly, capturing the
type name and the id digits and consuming nothing more. -/
theorem matchTagTypeFirst_canonical (t : PIIType) (id : Nat) (r : List Char) :
    matchTagTypeFirst (generateTag t id ++ r) =
      some (typeName t, jsNatToString id, r) := by
  have htw1 := takeClass1_exact isTagNameLetter (typeName t) '"'
    (' ' :: 'i' :: 'd' :: '=' :: '"' :: (jsNatToString id ++
      ('"' :: '/' :: '>' :: r)))
    (typeName_letters t) (typeName_ne_nil t) (by decide)
  have htw2 := takeClass1_exact isDigitChar (jsNatToString id) '"'
    ('/' :: '>' :: r)
    (jsNatToString_digits id) (jsNatToString_ne_nil id) (by decide)
  rw [genTag_norm]
  simp [matchTagTypeFirst, parseTypeAttr, parseIdAttr, parseSelfClosing,
    expectCI, expectChar, expectQuote, dropClass, dropClass1, strL,
    htw1, htw2, isFlexWS, jsWS, isQuoteChar]

/-- The second fuzzy pattern (id attribute first) fails on a canonical
tag: it requires the literal `id` where the tag has `type`. -/
theorem matchTagIdFirst_canonical (t : PIIType) (id : Nat) (r : List Char) :
    matchTagIdFirst (generateTag t id ++ r) = none := by
  rw [genTag_norm]
  simp [matchTagIdFirst, parseIdAttr, expectCI, dropClass, dropClass1,
    strL, isFlexWS, jsWS]

/-- The first fuzzy pattern fails when the text does not start with an
opening angle bracket. -/
theorem matchTagTypeFirst_not_lt {c : Char} (hc : c ≠ '<') (s : List Char) :
    matchTagTypeFirst (c :: s) = none := by
  rw [matchTagTypeFirst.eq_def]
  split
  · next s0 heq =>
    exact absurd (List.cons.inj heq).1 hc
  · rfl

/-- The second fuzzy pattern fails when the text does not start with an
opening angle bracket. -/
theorem matchTagIdFirst_not_lt {c : Char} (hc : c ≠ '<') (s : List Char) :
    matchTagIdFirst (c :: s) = none := by
  rw [matchTagIdFirst.eq_def]
  split
  · next s0 heq =>
    exact absurd (List.cons.inj heq).1 hc
  · rfl

/-- The exec loop on an empty text finds nothing, whatever the fuel. -/
theorem scanTagsAux_nil
    (parse : List Char → Option (List Char × List Char × List Char))
    (fuel pos : Nat) : scanTagsAux parse fuel [] pos = [] := by
  cases fuel with
  | zero => rfl
  | succ f => rfl

/-- Any fuel at least the text length computes the same exec loop. -/
theorem scanTagsAux_fuel
    (parse : List Char → Option (List Char × List Char × List Char)) :
    ∀ (fuel1 : Nat) (s : List Char) (pos fuel2 : Nat),
      s.length ≤ fuel1 → s.length ≤ fuel2 →
      scanTagsAux parse fuel1 s pos = scanTagsAux parse fuel2 s pos := by
  intro fuel1
  induction fuel1 with
  | zero =>
    intro s pos fuel2 h1 _
    have : s = [] := List.eq_nil_of_length_eq_zero (by omega)
    rw [this, scanTagsAux_nil, scanTagsAux_nil]
  | succ f ih =>
    intro s pos fuel2 h1 h2
    cases s with
    | nil => rw [scanTagsAux_nil, scanTagsAux_nil]
    | cons c rest =>
      cases fuel2 with
      | zero => simp at h2
      | succ f2 =>
        rw [scanTagsAux, scanTagsAux]
        cases hp : parse (c :: rest) with
        | none =>
          exact ih rest (pos + 1) f2 (by simp at h1; omega)
            (by simp at h2; omega)
        | some r =>
          rcases r with ⟨tstr, istr, after⟩
          dsimp only
          by_cases hlt : rest.length < after.length
          · rw [if_pos hlt, if_pos hlt]
            exact ih rest (pos + 1) f2 (by simp at h1; omega)
              (by simp at h2; omega)
          · rw [if_neg hlt, if_neg hlt]
            have hd : (rest.drop (rest.length - after.length)).length ≤ f := by
              simp only [List.length_drop]
              simp at h1
              omega
            have hd2 : (rest.drop (rest.length - after.length)).length ≤ f2 := by
              simp only [List.length_drop]
              simp at h2
              omega
            rw [ih _ _ f2 hd hd2]

/-- The exec loop skips over a bracket-free prefix when the pattern only
fires at an opening bracket. -/
theorem scanTagsAux_skip
    (parse : List Char → Option (List Char × List Char × List Char))
    (hparse : ∀ (c : Char) (s : List Char), c ≠ '<' → parse (c :: s) = none) :
    ∀ (A B : List Char) (fuel pos : Nat), '<' ∉ A →
      (A ++ B).length ≤ fuel →
      scanTagsAux parse fuel (A ++ B) pos =
        scanTagsAux parse B.length B (pos + A.length) := by
  intro A
  induction A with
  | nil =>
    intro B fuel pos _ hfuel
    rw [List.nil_append] at hfuel ⊢
    rw [scanTagsAux_fuel parse fuel B pos B.length hfuel (Nat.le_refl _)]
    simp
  | cons c A2 ih =>
    intro B fuel pos hA hfuel
    have hc : c ≠ '<' := by
      intro hc
      exact hA (by rw [hc]; exact List.mem_cons_self '<' A2)
    have hA2 : '<' ∉ A2 := fun hm => hA (List.mem_cons_of_mem c hm)
    cases fuel with
    | zero => simp at hfuel
    | succ f =>
      rw [List.cons_append, scanTagsAux, hparse c (A2 ++ B) hc]
      rw [ih B f (pos + 1) hA2 (by simp at hfuel ⊢; omega)]
      have : pos + 1 + A2.length = pos + (c :: A2).length := by
        simp
        omega
      rw [this]

/-- A canonical tag in cons normal form. -/
theorem genTag_cons (t : PIIType) (id : Nat) :
    generateTag t id =
      '<' :: ('P' :: 'I' :: 'I' :: ' ' :: 't' :: 'y' :: 'p' :: 'e' :: '=' ::
        '"' :: (typeName t ++ ('"' :: ' ' :: 'i' :: 'd' :: '=' :: '"' ::
          (jsNatToString id ++ ('"' :: '/' :: '>' :: []))))) := by
  have h := genTag_norm t id []
  rw [List.append_nil] at h
  exact h
/-- A canonical tag contains no opening bracket after its first character. -/
theorem genTag_tail_lt_free (t : PIIType) (id : Nat) :
    '<' ∉ ('P' :: 'I' :: 'I' :: ' ' :: 't' :: 'y' :: 'p' :: 'e' :: '=' ::
        '"' :: (typeName t ++ ('"' :: ' ' :: 'i' :: 'd' :: '=' :: '"' ::
          (jsNatToString id ++ ('"' :: '/' :: '>' :: ([] : List Char)))))) := by
  intro hmem
  have hty := typeName_lt_free t
  have hdg : '<' ∉ jsNatToString id := fun h =>
    absurd rfl (digit_not_special (jsNatToString_digits id '<' h)).2.2.1
  simp only [List.mem_cons, List.mem_append, List.not_mem_nil, or_false]
    at hmem
  casesm* _ ∨ _
  all_goals rename_i h
  all_goals first
    | exact absurd h (by decide)
    | exact hty h
    | exact hdg h

/-- One exec step of the first fuzzy pattern at a canonical tag: the
record is emitted and scanning resumes right after the tag. -/
theorem scanTagsAux_tag (t : PIIType) (id : Nat) (S : List Char)
    (pos fuel : Nat)
    (hfuel : (generateTag t id ++ S).length ≤ fuel) :
    scanTagsAux matchTagTypeFirst fuel (generateTag t id ++ S) pos =
      (typeName t, jsNatToString id, pos, generateTag t id) ::
        scanTagsAux matchTagTypeFirst S.length S
          (pos + (generateTag t id).length) := by
  have hc := genTag_cons t id
  have hn : generateTag t id ++ S =
      '<' :: (('P' :: 'I' :: 'I' :: ' ' :: 't' :: 'y' :: 'p' :: 'e' :: '=' ::
        '"' :: (typeName t ++ ('"' :: ' ' :: 'i' :: 'd' :: '=' :: '"' ::
          (jsNatToString id ++ ('"' :: '/' :: '>' :: []))))) ++ S) := by
    rw [hc]
    rfl
  set TT := 'P' :: 'I' :: 'I' :: ' ' :: 't' :: 'y' :: 'p' :: 'e' :: '=' ::
      '"' :: (typeName t ++ ('"' :: ' ' :: 'i' :: 'd' :: '=' :: '"' ::
        (jsNatToString id ++ ('"' :: '/' :: '>' :: [])))) with hTT
  have hlen : (generateTag t id).length = TT.length + 1 := by
    rw [hc]
    rfl
  cases fuel with
  | zero =>
    rw [hn] at hfuel
    simp at hfuel
  | succ f =>
    have hcan := matchTagTypeFirst_canonical t id S
    rw [hn] at hcan
    rw [hn, scanTagsAux, hcan]
    dsimp only
    rw [if_neg (by simp)]
    have e1 : (TT ++ S).length + 1 - S.length = TT.length + 1 := by
      simp only [List.length_append]
      omega
    have e2 : (TT ++ S).length - S.length = TT.length := by
      simp only [List.length_append]
      omega
    rw [e1, e2, List.take_succ_cons, List.take_left, List.drop_left]
    have e3 : pos + (TT.length + 1) = pos + (generateTag t id).length := by
      rw [hlen]
    rw [e3, ← hc]
    have hS : S.length ≤ f := by
      rw [hn] at hfuel
      simp at hfuel
      omega
    rw [scanTagsAux_fuel matchTagTypeFirst f S
      (pos + (generateTag t id).length) S.length hS (Nat.le_refl _)]

/-- The first fuzzy pattern scan of a segment decomposition produces
exactly the canonical records, one per span. -/
theorem scanTagsAux_segs (text : List Char) (hlt : '<' ∉ text) :
    ∀ (es : List TaggedSpan) (prev pos fuel : Nat),
      List.Pairwise (fun a b => a.stop ≤ b.start) es →
      (∀ e ∈ es, e.start ≤ e.stop ∧ e.stop ≤ text.length) →
      (∀ e ∈ es, prev ≤ e.start) →
      (segs text prev es).length ≤ fuel →
      scanTagsAux matchTagTypeFirst fuel (segs text prev es) pos =
        canonRecs es prev pos := by
  intro es
  induction es with
  | nil =>
    intro prev pos fuel _ _ _ hfuel
    rw [segs] at hfuel ⊢
    rw [canonRecs]
    have hfree : '<' ∉ text.drop prev := fun h => hlt (List.mem_of_mem_drop h)
    have h2 := scanTagsAux_skip matchTagTypeFirst
      (fun c s hc => matchTagTypeFirst_not_lt hc s) (text.drop prev) [] fuel
      pos hfree (by simpa using hfuel)
    rw [List.append_nil] at h2
    rw [h2, scanTagsAux_nil]
  | cons e rest ih =>
    intro prev pos fuel hsep hbnd hprev hfuel
    rcases List.pairwise_cons.mp hsep with ⟨hhead, htail⟩
    rcases hbnd e (List.mem_cons_self e rest) with ⟨hse, hel⟩
    have hpe := hprev e (List.mem_cons_self e rest)
    rw [segs] at hfuel ⊢
    rw [List.append_assoc] at hfuel ⊢
    rw [canonRecs]
    have hFlen : ((text.drop prev).take (e.start - prev)).length =
        e.start - prev := by
      simp only [List.length_take, List.length_drop]
      omega
    have hFfree : '<' ∉ (text.drop prev).take (e.start - prev) := fun h =>
      hlt (List.mem_of_mem_drop (List.mem_of_mem_take h))
    rw [scanTagsAux_skip matchTagTypeFirst
      (fun c s hc => matchTagTypeFirst_not_lt hc s)
      ((text.drop prev).take (e.start - prev))
      (generateTag e.type e.id ++ segs text e.stop rest) fuel pos
      hFfree hfuel]
    rw [scanTagsAux_tag e.type e.id (segs text e.stop rest) _ _ (Nat.le_refl _)]
    rw [ih e.stop _ _ htail
      (fun r hr => hbnd r (List.mem_cons_of_mem e hr)) hhead (Nat.le_refl _)]
    rw [hFlen]

/-- The second fuzzy pattern (id first) finds no match at all in a
segment decomposition: every tag carries its type attribute first. -/
theorem scanTagsAux_segs_idFirst (text : List Char) (hlt : '<' ∉ text) :
    ∀ (es : List TaggedSpan) (prev pos fuel : Nat),
      List.Pairwise (fun a b => a.stop ≤ b.start) es →
      (∀ e ∈ es, e.start ≤ e.stop ∧ e.stop ≤ text.length) →
      (∀ e ∈ es, prev ≤ e.start) →
      (segs text prev es).length ≤ fuel →
      scanTagsAux matchTagIdFirst fuel (segs text prev es) pos = [] := by
  intro es
  induction es with
  | nil =>
    intro prev pos fuel _ _ _ hfuel
    rw [segs] at hfuel ⊢
    have hfree : '<' ∉ text.drop prev := fun h => hlt (List.mem_of_mem_drop h)
    have h2 := scanTagsAux_skip matchTagIdFirst
      (fun c s hc => matchTagIdFirst_not_lt hc s) (text.drop prev) [] fuel
      pos hfree (by simpa using hfuel)
    rw [List.append_nil] at h2
    rw [h2, scanTagsAux_nil]
  | cons e rest ih =>
    intro prev pos fuel hsep hbnd hprev hfuel
    rcases List.pairwise_cons.mp hsep with ⟨hhead, htail⟩
    rcases hbnd e (List.mem_cons_self e rest) with ⟨hse, hel⟩
    have hpe := hprev e (List.mem_cons_self e rest)
    rw [segs] at hfuel ⊢
    rw [List.append_assoc] at hfuel ⊢
    have hFfree : '<' ∉ (text.drop prev).take (e.start - prev) := fun h =>
      hlt (List.mem_of_mem_drop (List.mem_of_mem_take h))
    rw [scanTagsAux_skip matchTagIdFirst
      (fun c s hc => matchTagIdFirst_not_lt hc s)
      ((text.drop prev).take (e.start - prev))
      (generateTag e.type e.id ++ segs text e.stop rest) fuel pos
      hFfree hfuel]
    have hc := genTag_cons e.type e.id
    set TT := 'P' :: 'I' :: 'I' :: ' ' :: 't' :: 'y' :: 'p' :: 'e' :: '=' ::
        '"' :: (typeName e.type ++ ('"' :: ' ' :: 'i' :: 'd' :: '=' :: '"' ::
          (jsNatToString e.id ++ ('"' :: '/' :: '>' :: [])))) with hTT
    have hn : generateTag e.type e.id ++ segs text e.stop rest =
        '<' :: (TT ++ segs text e.stop rest) := by
      rw [hc]
      rfl
    have hcan := matchTagIdFirst_canonical e.type e.id (segs text e.stop rest)
    rw [hn] at hcan
    rw [hn]
    have hlc : ('<' :: (TT ++ segs text e.stop rest)).length =
        (TT ++ segs text e.stop rest).length + 1 := by
      rw [List.length_cons]
    rw [hlc, scanTagsAux, hcan]
    have hTTfree : '<' ∉ TT := genTag_tail_lt_free e.type e.id
    rw [scanTagsAux_skip matchTagIdFirst
      (fun c s hc2 => matchTagIdFirst_not_lt hc2 s) TT
      (segs text e.stop rest) _ _ hTTfree (Nat.le_refl _)]
    exact ih e.stop _ _ htail
      (fun r hr => hbnd r (List.mem_cons_of_mem e hr)) hhead (Nat.le_refl _)

/-- Validation of the canonical records succeeds on every record and
rebuilds the extracted tags. -/
theorem validateRecords_canonRecs :
    ∀ (es : List TaggedSpan) (prev pos : Nat),
      validateRecords (canonRecs es prev pos) = canonTags es prev pos := by
  intro es
  induction es with
  | nil => intro prev pos; rfl
  | cons e rest ih =>
    intro prev pos
    rw [canonRecs, canonTags]
    simp only [validateRecords, List.filterMap_cons] at ih ⊢
    rw [strToPIIType_typeName]
    simp only [Option.map_some', digitsVal_jsNatToString]
    rw [ih e.stop _]

/-- Canonical tag positions are bounded below by the running offset. -/
theorem canonTags_pos_ge :
    ∀ (es : List TaggedSpan) (prev pos : Nat) (t : ExtractedTag),
      t ∈ canonTags es prev pos → pos ≤ t.position := by
  intro es
  induction es with
  | nil => intro prev pos t ht; exact absurd ht (List.not_mem_nil t)
  | cons e rest ih =>
    intro prev pos t ht
    rw [canonTags] at ht
    rcases List.mem_cons.mp ht with rfl | ht2
    · simp only []
      omega
    · have := ih e.stop _ t ht2
      omega

/-- Canonical tags are listed in ascending position order. -/
theorem canonTags_sorted :
    ∀ (es : List TaggedSpan) (prev pos : Nat),
      List.Pairwise (fun a b => decide (a.position ≤ b.position) = true)
        (canonTags es prev pos) := by
  intro es
  induction es with
  | nil => intro prev pos; exact List.Pairwise.nil
  | cons e rest ih =>
    intro prev pos
    rw [canonTags]
    refine List.pairwise_cons.mpr ⟨?_, ih e.stop _⟩
    intro b hb
    have := canonTags_pos_ge rest e.stop _ b hb
    simp only [decide_eq_true_eq]
    omega

/-- `extractTags` on a segment decomposition returns exactly the
canonical tags, in order: the fragments contribute nothing, the second
pattern finds nothing, and the final sort is the identity. -/
theorem extractTags_segs (text : List Char) (hlt : '<' ∉ text)
    (es : List TaggedSpan)
    (hsep : List.Pairwise (fun a b => a.stop ≤ b.start) es)
    (hbnd : ∀ e ∈ es, e.start ≤ e.stop ∧ e.stop ≤ text.length) :
    extractTags (segs text 0 es) = canonTags es 0 0 := by
  rw [extractTags, scanTags, scanTags]
  rw [scanTagsAux_segs text hlt es 0 0 _ hsep hbnd
    (fun e _ => Nat.zero_le _) (Nat.le_refl _)]
  rw [scanTagsAux_segs_idFirst text hlt es 0 0 _ hsep hbnd
    (fun e _ => Nat.zero_le _) (Nat.le_refl _)]
  rw [validateRecords_canonRecs]
  show jsSortBy _ (canonTags es 0 0 ++ List.filter _ (validateRecords [])) = _
  rw [show validateRecords [] = [] from rfl, List.filter_nil, List.append_nil]
  exact jsSortBy_of_sorted (canonTags_sorted es 0 0)

/-- Canonical tag positions are affine in the running offset. -/
theorem canonTags_shift :
    ∀ (es : List TaggedSpan) (prev a b : Nat),
      canonTags es prev (a + b) = shiftTags a (canonTags es prev b) := by
  intro es
  induction es with
  | nil => intro prev a b; rfl
  | cons e rest ih =>
    intro prev a b
    simp only [canonTags, shiftTags, List.map_cons]
    have h1 : a + b + (e.start - prev) = a + (b + (e.start - prev)) := by omega
    have h2 : a + (b + (e.start - prev)) + (generateTag e.type e.id).length =
        a + (b + (e.start - prev) + (generateTag e.type e.id).length) := by
      omega
    rw [h1, h2, ih e.stop a _]
    rfl

/-- The rehydration fold over position-shifted tags acts only on the
text after the fixed prefix. -/
theorem rehydrate_foldr_shift (piiMap : List (List Char × List Char))
    (A X : List Char) :
    ∀ ts : List ExtractedTag,
      (shiftTags A.length ts).foldr
        (fun t acc => rehydrateStep piiMap acc t) (A ++ X) =
        A ++ ts.foldr (fun t acc => rehydrateStep piiMap acc t) X := by
  intro ts
  induction ts with
  | nil => rfl
  | cons t ts2 ih =>
    simp only [shiftTags, List.map_cons, List.foldr_cons] at ih ⊢
    rw [ih]
    show rehydrateStep piiMap _ _ = _
    cases hm : mapGet piiMap (createPIIMapKey t.type t.id) with
    | none =>
      rw [rehydrateStep, rehydrateStep]
      simp only [hm]
    | some orig =>
      rw [rehydrateStep, rehydrateStep]
      simp only [hm]
      have e1 : A.length + t.position + t.matchedText.length =
          A.length + (t.position + t.matchedText.length) := by omega
      rw [e1, List.take_append, List.drop_append]
      simp [List.append_assoc]

/-- A suffix of the text decomposes at two interior cut points. -/
theorem drop_decomp (text : List Char) {prev start stop : Nat}
    (h1 : prev ≤ start) (h2 : start ≤ stop) :
    text.drop prev =
      (text.drop prev).take (start - prev) ++
        ((text.drop start).take (stop - start) ++ text.drop stop) := by
  conv_lhs => rw [← List.take_append_drop (start - prev) (text.drop prev)]
  congr 1
  rw [List.drop_drop (start - prev) prev text]
  rw [show prev + (start - prev) = start from by omega]
  conv_lhs => rw [← List.take_append_drop (stop - start) (text.drop start)]
  congr 1
  rw [List.drop_drop (stop - start) start text]
  rw [show start + (stop - start) = stop from by omega]

/-- The rehydration fold over the canonical tags of a segment
decomposition restores the original text suffix, provided the map sends
every key back to the original span text. -/
theorem rehydrate_fold_segs (text : List Char)
    (piiMap : List (List Char × List Char)) :
    ∀ (es : List TaggedSpan) (prev : Nat),
      List.Pairwise (fun a b => a.stop ≤ b.start) es →
      (∀ e ∈ es, e.start ≤ e.stop ∧ e.stop ≤ text.length) →
      (∀ e ∈ es, prev ≤ e.start) →
      (∀ e ∈ es, e.text = jsSubstring text e.start e.stop) →
      (∀ e ∈ es, mapGet piiMap (createPIIMapKey e.type e.id) = some e.text) →
      (canonTags es prev 0).foldr (fun t acc => rehydrateStep piiMap acc t)
        (segs text prev es) = text.drop prev := by
  intro es
  induction es with
  | nil =>
    intro prev _ _ _ _ _
    rw [canonTags, segs, List.foldr_nil]
  | cons e rest ih =>
    intro prev hsep hbnd hprev htext hmap
    rcases List.pairwise_cons.mp hsep with ⟨hhead, htail⟩
    rcases hbnd e (List.mem_cons_self e rest) with ⟨hse, hel⟩
    have hpe := hprev e (List.mem_cons_self e rest)
    have hFlen : ((text.drop prev).take (e.start - prev)).length =
        e.start - prev := by
      simp only [List.length_take, List.length_drop]
      omega
    rw [canonTags, segs]
    rw [show (0 : Nat) + (e.start - prev) = e.start - prev from Nat.zero_add _]
    rw [show e.start - prev + (generateTag e.type e.id).length =
      (e.start - prev + (generateTag e.type e.id).length) + 0 from
      (Nat.add_zero _).symm]
    rw [canonTags_shift rest e.stop _ 0]
    rw [show e.start - prev + (generateTag e.type e.id).length =
      ((text.drop prev).take (e.start - prev) ++
        generateTag e.type e.id).length from by
      rw [List.length_append, hFlen]]
    rw [List.foldr_cons]
    rw [rehydrate_foldr_shift piiMap _ _ _]
    rw [ih e.stop htail (fun r hr => hbnd r (List.mem_cons_of_mem e hr)) hhead
      (fun r hr => htext r (List.mem_cons_of_mem e hr))
      (fun r hr => hmap r (List.mem_cons_of_mem e hr))]
    rw [rehydrateStep]
    simp only [hmap e (List.mem_cons_self e rest)]
    have htake : (((text.drop prev).take (e.start - prev) ++
        generateTag e.type e.id) ++ text.drop e.stop).take (e.start - prev) =
        (text.drop prev).take (e.start - prev) := by
      rw [List.append_assoc]
      rw [List.take_append_of_le_length (by rw [hFlen])]
      exact List.take_of_length_le (by rw [hFlen])
    have hdrop : (((text.drop prev).take (e.start - prev) ++
        generateTag e.type e.id) ++ text.drop e.stop).drop
          (e.start - prev + (generateTag e.type e.id).length) =
        text.drop e.stop := by
      rw [show e.start - prev + (generateTag e.type e.id).length =
        ((text.drop prev).take (e.start - prev) ++
          generateTag e.type e.id).length from by
        rw [List.length_append, hFlen]]
      exact List.drop_left _ _
    show (((text.drop prev).take (e.start - prev) ++ generateTag e.type e.id)
        ++ text.drop e.stop).take (e.start - prev) ++ e.text ++
      (((text.drop prev).take (e.start - prev) ++ generateTag e.type e.id)
        ++ text.drop e.stop).drop
          (e.start - prev + (generateTag e.type e.id).length) =
      text.drop prev
    rw [htake, hdrop]
    rw [htext e (List.mem_cons_self e rest), jsSubstring]
    rw [drop_decomp text hpe hse]
    simp only [List.append_assoc, List.append_cancel_right_eq,
      List.append_right_inj]
    rw [List.take_append_of_le_length (by rw [hFlen])]
    exact List.take_of_length_le (by rw [hFlen])

/-- A canonical tag is nonempty. -/
theorem genTag_len_pos (t : PIIType) (id : Nat) :
    0 < (generateTag t id).length := by
  rw [genTag_cons]
  simp

/-- Canonical tag positions are strictly increasing. -/
theorem canonTags_pos_strict :
    ∀ (es : List TaggedSpan) (prev pos : Nat),
      List.Pairwise (fun a b => a.position < b.position)
        (canonTags es prev pos) := by
  intro es
  induction es with
  | nil => intro prev pos; exact List.Pairwise.nil
  | cons e rest ih =>
    intro prev pos
    rw [canonTags]
    refine List.pairwise_cons.mpr ⟨?_, ih e.stop _⟩
    intro b hb
    have h1 := canonTags_pos_ge rest e.stop _ b hb
    have h2 := genTag_len_pos e.type e.id
    simp only []
    omega

/-- A text without an opening bracket contains no extractable tag. -/
theorem extractTags_lt_free (s : List Char) (h : '<' ∉ s) :
    extractTags s = [] := by
  have h0 := scanTagsAux_skip matchTagTypeFirst
    (fun c s2 hc => matchTagTypeFirst_not_lt hc s2) s [] s.length 0 h
    (by simp)
  have h1 := scanTagsAux_skip matchTagIdFirst
    (fun c s2 hc => matchTagIdFirst_not_lt hc s2) s [] s.length 0 h
    (by simp)
  rw [List.append_nil] at h0 h1
  rw [extractTags, scanTags, scanTags, h0, h1, scanTagsAux_nil]
  rfl

/-- Transfer of a pairwise relation along equal images. -/
theorem pairwise_of_map_eq {α β γ : Type} (f : α → γ) (g : β → γ)
    (R : γ → γ → Prop) :
    ∀ {l1 : List α} {l2 : List β}, l1.map f = l2.map g →
      l2.Pairwise (fun a b => R (g a) (g b)) →
      l1.Pairwise (fun a b => R (f a) (f b)) := by
  intro l1 l2 hmap hp
  have h1 : (l2.map g).Pairwise R := List.pairwise_map.mpr hp
  rw [← hmap] at h1
  exact List.pairwise_map.mp h1

/-- C1 (amended): for every input text that contains no opening angle
bracket, every policy, and every detector-producible list of spans (each
span nonempty, in bounds, carrying exactly the text it covers) that is
pairwise non-overlapping, rehydrating the anonymized text produced by
`tagEntities` with the PII map produced by the same call restores the
original text exactly. -/
theorem c1_amended (text : List Char) (spans : List SpanMatch)
    (policy : AnonymizationPolicy)
    (hlt : '<' ∉ text)
    (hdet : ∀ s ∈ spans, s.start < s.stop ∧ s.stop ≤ text.length ∧
      s.text = jsSubstring text s.start s.stop)
    (hnov : List.Pairwise
      (fun a b => spansOverlap (a.start, a.stop) (b.start, b.stop) = false)
      spans) :
    rehydrate (tagEntities text spans policy).anonymizedText
      (tagEntities text spans policy).piiMap false = text := by
  by_cases hlen : spans.length = 0
  · have hnil : spans = [] := List.length_eq_zero.mp hlen
    subst hnil
    rw [tagEntities,
      if_pos (show ([] : List SpanMatch).length = 0 from rfl)]
    show rehydrate text [] false = text
    rw [rehydrate]
    simp only [Bool.false_eq_true, if_false]
    rw [extractTags_lt_free text hlt]
    rfl
  · set sorted := sortSpansByPosition (fun m : SpanMatch => (m.start, m.stop))
      spans with hsorted_def
    have hperm : List.Perm sorted spans := by
      rw [hsorted_def, sortSpansByPosition]
      exact jsSortBy_perm _ _
    have hdet_s : ∀ s ∈ sorted, s.start < s.stop ∧ s.stop ≤ text.length ∧
        s.text = jsSubstring text s.start s.stop :=
      fun s hs => hdet s (hperm.mem_iff.mp hs)
    have hnov_s : List.Pairwise
        (fun a b => spansOverlap (a.start, a.stop) (b.start, b.stop) = false)
        sorted := by
      refine (List.Perm.pairwise_iff ?_ hperm).mpr hnov
      intro a b hab
      rw [spansOverlap_symm]
      exact hab
    have hps : List.Pairwise
        (fun a b =>
          spanPosLE (fun m : SpanMatch => (m.start, m.stop)) a b = true)
        sorted := by
      rw [hsorted_def, sortSpansByPosition]
      exact jsSortBy_sorted (spanPosLE_total _) (spanPosLE_trans _) spans
    have hstart_s : List.Pairwise (fun a b : SpanMatch => a.start ≤ b.start)
        sorted := hps.imp (fun h => spanPosLE_start_le h)
    have hsep_s : List.Pairwise (fun a b : SpanMatch => a.stop ≤ b.start)
        sorted :=
      pairwise_nonov_sep (fun m : SpanMatch => (m.start, m.stop)) sorted
        (fun e he => (hdet_s e he).1) hstart_s hnov_s
    set ews := assignIds policy.reuseIdsForRepeatedPII sorted 1 []
      with hews_def
    have hbase := assignIds_map_base policy.reuseIdsForRepeatedPII sorted 1 []
    rw [← hews_def] at hbase
    have hmem_ews : ∀ e ∈ ews, ∃ m ∈ sorted,
        e.start = m.start ∧ e.stop = m.stop ∧ e.text = m.text := by
      intro e he
      rw [hews_def] at he
      rcases assignIds_mem _ _ _ _ e he with ⟨m, hm, i, rfl⟩
      exact ⟨m, hm, rfl, rfl, rfl⟩
    have hbnd_ews : ∀ e ∈ ews, e.start ≤ e.stop ∧ e.stop ≤ text.length := by
      intro e he
      rcases hmem_ews e he with ⟨m, hm, h1, h2, _⟩
      rcases hdet_s m hm with ⟨hh1, hh2, _⟩
      rw [h1, h2]
      exact ⟨Nat.le_of_lt hh1, hh2⟩
    have hlt_ews : ∀ e ∈ ews, e.start < e.stop := by
      intro e he
      rcases hmem_ews e he with ⟨m, hm, h1, h2, _⟩
      rw [h1, h2]
      exact (hdet_s m hm).1
    have htext_ews : ∀ e ∈ ews, e.text = jsSubstring text e.start e.stop := by
      intro e he
      rcases hmem_ews e he with ⟨m, hm, h1, h2, h3⟩
      rw [h1, h2, h3]
      exact (hdet_s m hm).2.2
    have hsep_ews : List.Pairwise (fun a b : TaggedSpan => a.stop ≤ b.start)
        ews :=
      pairwise_of_map_eq
        (fun e : TaggedSpan => (e.type, e.start, e.stop, e.text))
        (fun m : SpanMatch => (m.type, m.start, m.stop, m.text))
        (fun x y => x.2.2.1 ≤ y.2.1) hbase hsep_s
    have hstrict_ews : List.Pairwise
        (fun a b : TaggedSpan => a.start < b.start) ews := by
      refine hsep_ews.imp_of_mem ?_
      intro a b ha hb hab
      have := hlt_ews a ha
      omega
    have huni := assignIds_pii_uniform policy.reuseIdsForRepeatedPII sorted
    rw [← hews_def] at huni
    have hmap_ews := piiFold_lookup ews [] huni
    have hanon : (tagEntities text spans policy).anonymizedText =
        segs text 0 ews := by
      rw [tagEntities, if_neg hlen]
      dsimp only
      rw [← hsorted_def, ← hews_def]
      have hdesc : jsSortBy (fun a b : TaggedSpan => decide (b.start ≤ a.start))
          ews = ews.reverse := by
        refine jsSortBy_eq_reverse (hstrict_ews.imp ?_)
        intro a b hab
        simp only [decide_eq_false_iff_not]
        omega
      rw [hdesc, List.foldl_reverse]
      rw [foldr_replace_eq_segs text ews 0 hsep_ews hbnd_ews
        (fun e _ => Nat.zero_le _)]
      rw [List.take_zero, List.nil_append]
    have hpii : (tagEntities text spans policy).piiMap =
        ews.foldl
          (fun acc e => mapSet acc (createPIIMapKey e.type e.id) e.text) [] := by
      rw [tagEntities, if_neg hlen]
    rw [hanon, hpii, rehydrate]
    simp only [Bool.false_eq_true, if_false]
    rw [extractTags_segs text hlt ews hsep_ews hbnd_ews]
    have hdesc2 : jsSortBy
        (fun a b : ExtractedTag => decide (b.position ≤ a.position))
        (canonTags ews 0 0) = (canonTags ews 0 0).reverse := by
      refine jsSortBy_eq_reverse ((canonTags_pos_strict ews 0 0).imp ?_)
      intro a b hab
      simp only [decide_eq_false_iff_not]
      omega
    rw [hdesc2, List.foldl_reverse]
    rw [rehydrate_fold_segs text _ ews 0 hsep_ews hbnd_ews
      (fun e _ => Nat.zero_le _) htext_ews hmap_ews, List.drop_zero]

/-- Witness for C1 (amended): a concrete email span in a concrete text,
round-tripped exactly. -/
theorem c1_amended_witness :
    rehydrate
      (tagEntities (strL "ab cd")
        [⟨PIIType.EMAIL, 0, 2, mkRat 9 10, DetectionSource.REGEX, strL "ab"⟩]
        ⟨fun _ => true, fun _ => true, fun _ => true, fun _ => none, false,
          true⟩).anonymizedText
      (tagEntities (strL "ab cd")
        [⟨PIIType.EMAIL, 0, 2, mkRat 9 10, DetectionSource.REGEX, strL "ab"⟩]
        ⟨fun _ => true, fun _ => true, fun _ => true, fun _ => none, false,
          true⟩).piiMap false = strL "ab cd" :=
  c1_amended _ _ _ (by decide) (by decide) (by decide)
